import Mathlib

/-!
Verification development for the Desi Stage-0 compiler front-end
(indentation-aware lexer, Pratt parser, import resolver, semantic checker)
and its C runtime string helpers.

Each Go/C source function that a claim depends on is translated here as an
executable Lean definition that mirrors the source control flow; theorems
about those definitions settle the specification claims.
-/

namespace Desi

/- ================================================================
   check package: kinds and unification  (check/check.go, check/util.go)
   ================================================================ -/

namespace Check

/-- `Kind` from check/check.go: the Stage-0 kind lattice. -/
inductive Kind where
  | unknown
  | int
  | str
  | bool
  | void
deriving DecidableEq, Repr, Inhabited

/-- `Kind.String()` from check/check.go. -/
def Kind.toString : Kind → String
  | .int => "int"
  | .str => "str"
  | .bool => "bool"
  | .void => "void"
  | .unknown => "unknown"

/-- `mapTextType` from check/util.go: textual type annotation to `Kind`
(case-insensitive, trimmed). -/
def mapTextType (t : String) : Kind :=
  match t.trim.toLower with
  | "" => .void
  | "void" => .void
  | "i32" => .int
  | "int" => .int
  | "u32" => .int
  | "bool" => .bool
  | "str" => .str
  | "string" => .str
  | _ => .unknown

/-- `unifyKinds` from check/util.go: returns the unified kind and an
ok flag, `(KindUnknown, false)` on failure. -/
def unifyKinds (a b : Kind) : Kind × Bool :=
  if a = .unknown then (b, true)
  else if b = .unknown then (a, true)
  else if a = b then (a, true)
  else if (a = .int ∧ b = .bool) ∨ (a = .bool ∧ b = .int) then (.int, true)
  else (.unknown, false)

/-- The unification table exactly as the specification words it
(unknown absorbs, equal kinds unify, int/bool unify to int in either
order, everything else fails): `some k` = "unifies to `k`",
`none` = "fails to unify". -/
def unifyKindsSpec (a b : Kind) : Option Kind :=
  match a, b with
  | .unknown, b => some b
  | a, .unknown => some a
  | .int, .bool => some .int
  | .bool, .int => some .int
  | a, b => if a = b then some a else none

end Check

/- ================================================================
   ast package  (ast/ast.go)
   ================================================================ -/

namespace Ast

/-- `Expr` variants from ast/ast.go (a closed tagged sum). -/
inductive Expr where
  | identE (name : String)
  | intLit (value : String)
  | strLit (value : String)
  | boolLit (value : Bool)
  | unaryE (op : String) (x : Expr)
  | binaryE (op : String) (left right : Expr)
  | callE (callee : Expr) (args : List Expr)
  | indexE (seq index : Expr)
  | fieldE (x : Expr) (name : String)
deriving Repr

/-- `LetBind` from ast/ast.go: one bind of a (possibly parallel) let. -/
structure LetBind where
  name : String
  type : String
deriving Repr

/-- `Stmt` variants from ast/ast.go. `ElseIf` entries are represented as
`(cond, body)` pairs; `IfStmt.Else == nil` is `none`. -/
inductive Stmt where
  | letS (mutable : Bool) (binds : List LetBind) (groupType : String) (values : List Expr)
  | assignS (names : List String) (exprs : List Expr)
  | returnS (expr : Option Expr)
  | exprS (expr : Expr)
  | ifS (cond : Expr) (thenB : List Stmt) (elifs : List (Expr × List Stmt)) (elseB : Option (List Stmt))
  | whileS (cond : Expr) (body : List Stmt)
  | deferS (call : Expr)
deriving Repr

/-- `Param` from ast/ast.go. -/
structure Param where
  name : String
  type : String
deriving Repr

/-- `FuncDecl` from ast/ast.go (`Ret` is the textual return type). -/
structure FuncDecl where
  name : String
  params : List Param
  ret : String
  body : List Stmt
deriving Repr

/-- Whether a statement is a `ReturnStmt` (used to characterise the
checker's block-returned flag). -/
def Stmt.isRet : Stmt → Bool
  | .returnS _ => true
  | _ => false

end Ast

/- ================================================================
   check package: checker state and traversal
   (check/checker.go, check/stmts.go, check/expr.go, check/scope.go)
   ================================================================ -/

namespace Check

open Ast

/-- `varInfo` from check/scope.go. In Go these are heap cells referenced by
pointer from scopes and from `checker.locals`; here they live in a store
list and are referenced by index. -/
structure VarInfo where
  kind : Kind
  mutable : Bool
  declName : String
  read : Bool
  written : Bool
deriving DecidableEq, Repr, Inhabited

/-- `FuncSig` from check/check.go. -/
structure FuncSig where
  name : String
  params : List Kind
  ret : Kind
deriving DecidableEq, Repr

/-- The zero value of `FuncSig` (what Go's `info.Funcs[name]` yields when
`name` is absent; `Kind`'s zero value is `KindUnknown`). -/
def FuncSig.zero : FuncSig := { name := "", params := [], ret := .unknown }

/-- `Info` from check/check.go: the function table, as an association list
(the Go map is only read by key lookup). -/
structure Info where
  funcs : List (String × FuncSig)
deriving Repr

/-- Go map read `info.Funcs[name]` (presence flavour). -/
def funcsLookup (info : Info) (name : String) : Option FuncSig :=
  (info.funcs.find? (fun p => p.1 = name)).map (·.2)

/-- `Warning` from the check package: code plus message. -/
structure Warning where
  code : String
  msg : String
deriving DecidableEq, Repr

/-- Go's `%q` on the plain identifier strings that appear in diagnostics. -/
def q (s : String) : String := "\"" ++ s ++ "\""

/-- The checker state from check/checker.go: `scopes` is the scope chain
(innermost frame first) mapping names to store indices, `store` holds the
`varInfo` heap cells, `blockReturned` is the stack of per-block returned
flags with its top at the head, and `locals` records the cells created for
locals/parameters in definition order. -/
structure ChkSt where
  info : Info
  fnSig : FuncSig
  store : List VarInfo
  scopes : List (List (String × Nat))
  errors : List String
  warnings : List Warning
  locals : List Nat
  blockReturned : List Bool

def addErr (st : ChkSt) (msg : String) : ChkSt :=
  { st with errors := st.errors ++ [msg] }

def addWarn (st : ChkSt) (w : Warning) : ChkSt :=
  { st with warnings := st.warnings ++ [w] }

/-- Store read through an index (Go: dereference of a `*varInfo`). -/
def storeGet (store : List VarInfo) (i : Nat) : VarInfo := store.getD i default

/-- Store write through an index (Go: assignment through a `*varInfo`). -/
def setCell (st : ChkSt) (i : Nat) (v : VarInfo) : ChkSt :=
  { st with store := st.store.set i v }

/-- Name lookup in one scope frame (Go map read). -/
def frameFind (f : List (String × Nat)) (name : String) : Option Nat :=
  (f.find? (fun p => p.1 = name)).map (·.2)

/-- `scope.lookup` from check/scope.go: walk the chain from the innermost
frame outward. -/
def scopesLookup : List (List (String × Nat)) → String → Option Nat
  | [], _ => none
  | f :: rest, name =>
    match frameFind f name with
    | some i => some i
    | none => scopesLookup rest name

def lookupVar (st : ChkSt) (name : String) : Option Nat :=
  scopesLookup st.scopes name

/-- `scope.define` from check/scope.go: allocate the `varInfo` cell, bind
the name in the innermost frame unless it is already taken (in which case
the redeclaration error is returned and the name stays bound as before).
Returns the new state, the error if any, and the index of the fresh cell. -/
def defineVar (st : ChkSt) (name : String) (v : VarInfo) : ChkSt × Option String × Nat :=
  let idx := st.store.length
  let st' := { st with store := st.store ++ [v] }
  match st'.scopes with
  | [] => (st', none, idx)  -- unreachable: the checker always owns a root scope
  | f :: rest =>
    if (frameFind f name).isSome then
      (st', some ("redeclaration of " ++ q name), idx)
    else
      ({ st' with scopes := ((name, idx) :: f) :: rest }, none, idx)

/-- Top of the block-returned stack (`top` from check/util.go). -/
def topBR (st : ChkSt) : Option Bool := st.blockReturned.head?

/-- Setting `*top(c.blockReturned) = true` (no-op on an empty stack,
matching Go's nil check). -/
def setTopTrue (st : ChkSt) : ChkSt :=
  match st.blockReturned with
  | [] => st
  | _ :: rest => { st with blockReturned := true :: rest }

mutual

/-- `checker.kindOfExpr` from check/expr.go: computes an expression's kind,
marking `read` on identifier cells and accumulating errors. -/
def kindOfExpr (st : ChkSt) (e : Expr) : Kind × ChkSt :=
  match e with
  | .intLit _ => (.int, st)
  | .strLit _ => (.str, st)
  | .boolLit _ => (.bool, st)
  | .identE name =>
    match lookupVar st name with
    | some idx =>
      let v := storeGet st.store idx
      (v.kind, setCell st idx { v with read := true })
    | none =>
      if (funcsLookup st.info name).isSome then (.unknown, st)
      else (.unknown, addErr st ("use of undeclared identifier " ++ q name))
  | .unaryE op x =>
    let r := kindOfExpr st x
    if op = "-" ∨ op = "!" ∨ op = "not" then
      if r.1 = .int ∨ r.1 = .bool ∨ r.1 = .unknown then (.int, r.2) else (.unknown, r.2)
    else (.unknown, r.2)
  | .binaryE op l rgt =>
    let rl := kindOfExpr st l
    let rr := kindOfExpr rl.2 rgt
    let lk := rl.1
    let rk := rr.1
    let st := rr.2
    if op = "+" then
      if lk = .str ∨ rk = .str then (.str, st)
      else if lk = .int ∧ rk = .int then (.int, st)
      else (.unknown, st)
    else if op = "-" ∨ op = "*" ∨ op = "/" ∨ op = "%" ∨ op = "<" ∨ op = "<=" ∨
            op = ">" ∨ op = ">=" ∨ op = "==" ∨ op = "!=" then
      if (unifyKinds lk rk).2 then (.int, st) else (.unknown, st)
    else if op = "and" ∨ op = "or" ∨ op = "|>" then (.int, st)
    else (.unknown, st)
  | .fieldE _ _ => (.unknown, st)
  | .indexE _ _ => (.unknown, st)
  | .callE callee args =>
    match callee with
    | .fieldE (.identE "io") "println" => (.void, printlnArgs st args 1)
    | .fieldE (.identE "fs") "read_all" =>
      match args with
      | [a] =>
        let r := kindOfExpr st a
        if r.1 ≠ .str ∧ r.1 ≠ .unknown then
          (.str, addErr r.2 ("fs.read_all: path must be str, got " ++ r.1.toString))
        else (.str, r.2)
      | _ => (.str, addErr st ("fs.read_all: want 1 arg (path: str), got " ++ toString args.length))
    | .fieldE (.identE "os") "exit" =>
      match args with
      | [a] =>
        let r := kindOfExpr st a
        if r.1 ≠ .int ∧ r.1 ≠ .unknown then
          (.void, addErr r.2 ("os.exit: code must be int, got " ++ r.1.toString))
        else (.void, r.2)
      | _ => (.void, addErr st ("os.exit: want 1 arg (code: int), got " ++ toString args.length))
    | .fieldE (.identE "mem") "free" =>
      match args with
      | [a] =>
        let r := kindOfExpr st a
        if r.1 ≠ .str ∧ r.1 ≠ .unknown ∧ r.1 ≠ .void then
          (.void, addErr r.2 ("mem.free: arg must be str, got " ++ r.1.toString))
        else (.void, r.2)
      | _ => (.void, addErr st ("mem.free: want 1 arg, got " ++ toString args.length))
    | .fieldE (.identE "str") "len" =>
      match args with
      | [a] =>
        let r := kindOfExpr st a
        if r.1 ≠ .str ∧ r.1 ≠ .unknown then
          (.int, addErr r.2 ("str.len: arg must be str, got " ++ r.1.toString))
        else (.int, r.2)
      | _ => (.int, addErr st ("str.len: want 1 arg (str), got " ++ toString args.length))
    | .fieldE (.identE "str") "at" =>
      match args with
      | [a, b] =>
        let r1 := kindOfExpr st a
        let st1 := if r1.1 ≠ .str ∧ r1.1 ≠ .unknown then
            addErr r1.2 ("str.at: first arg must be str, got " ++ r1.1.toString)
          else r1.2
        let r2 := kindOfExpr st1 b
        let st2 := if r2.1 ≠ .int ∧ r2.1 ≠ .unknown then
            addErr r2.2 ("str.at: second arg must be int, got " ++ r2.1.toString)
          else r2.2
        (.int, st2)
      | _ => (.int, addErr st ("str.at: want 2 args (str,int), got " ++ toString args.length))
    | .fieldE (.identE "str") "from_code" =>
      match args with
      | [a] =>
        let r := kindOfExpr st a
        if r.1 ≠ .int ∧ r.1 ≠ .unknown then
          (.str, addErr r.2 ("str.from_code: arg must be int, got " ++ r.1.toString))
        else (.str, r.2)
      | _ => (.str, addErr st ("str.from_code: want 1 arg (int), got " ++ toString args.length))
    | .identE fname =>
      match funcsLookup st.info fname with
      | some sig =>
        let st := if sig.params.length ≠ args.length then
            addErr st ("call to " ++ fname ++ ": want " ++ toString sig.params.length ++
              " args, got " ++ toString args.length)
          else st
        (sig.ret, userCallArgs st fname sig.params args 1)
      | none => (.unknown, addErr st ("call to unknown function " ++ q fname))
    | _ => (.unknown, st)

/-- The `io.println` argument loop of check/expr.go (`i` is the 1-based
argument position used in messages). -/
def printlnArgs (st : ChkSt) (args : List Expr) (i : Nat) : ChkSt :=
  match args with
  | [] => st
  | a :: rest =>
    let r := kindOfExpr st a
    let st :=
      match r.1 with
      | .int | .str | .bool => r.2
      | .void => addErr r.2 ("io.println arg " ++ toString i ++ " is void (no value)")
      | _ => addErr r.2 ("io.println arg " ++ toString i ++ " has unsupported kind " ++ r.1.toString)
    printlnArgs st rest (i + 1)

/-- The user-function-call pairwise unification loop of check/expr.go
(runs over the first `min` of the two lengths; `i` is 1-based). -/
def userCallArgs (st : ChkSt) (fname : String) (params : List Kind) (args : List Expr) (i : Nat) : ChkSt :=
  match params, args with
  | pk :: ps, a :: rest =>
    let r := kindOfExpr st a
    let st := if (unifyKinds pk r.1).2 then r.2
      else addErr r.2 ("call to " ++ fname ++ ": arg " ++ toString i ++ " kind mismatch (want " ++
        pk.toString ++ ", got " ++ r.1.toString ++ ")")
    userCallArgs st fname ps rest (i + 1)
  | _, _ => st

end

/-- The `typedErr` message shape from check/diagshim.go, as used for the
`let`/assignment arity mismatches of check/stmts.go. -/
def arityMsg (context : String) (names values : Nat) : String :=
  "DTE0002: arity mismatch in grouped binding in " ++ context ++
    ": names=" ++ toString names ++ ", values=" ++ toString values

/-- The pairwise loop of `checker.checkLet` from check/stmts.go (runs over
the first `min` of the two lengths). -/
def letPairs (st : ChkSt) (mtb : Bool) (binds : List LetBind) (values : List Expr) : ChkSt :=
  match binds, values with
  | bd :: bs, val :: vs =>
    let r := kindOfExpr st val
    let rk := r.1
    let st := r.2
    let want := if bd.type.trim ≠ "" then mapTextType bd.type else Kind.unknown
    let p : Kind × ChkSt :=
      if want ≠ .unknown then
        let u := unifyKinds want rk
        if u.2 then (u.1, st)
        else (rk, addErr st ("let " ++ q bd.name ++ ": type mismatch (declared " ++
          want.toString ++ ", got " ++ rk.toString ++ ")"))
      else (rk, st)
    let v : VarInfo :=
      { kind := p.1, mutable := mtb, declName := bd.name, read := false, written := true }
    let d := defineVar p.2 bd.name v
    let st :=
      match d.2.1 with
      | some msg => addErr d.1 msg
      | none => { d.1 with locals := d.1.locals ++ [d.2.2] }
    letPairs st mtb bs vs
  | _, _ => st

/-- `checker.checkLet` from check/stmts.go. -/
def checkLet (st : ChkSt) (mtb : Bool) (binds : List LetBind) (groupType : String)
    (values : List Expr) : ChkSt :=
  let st := if binds.length ≠ values.length then
      addErr st (arityMsg "let" binds.length values.length)
    else st
  let st := letPairs st mtb binds values
  -- the optional group type is informational in Stage-0 (no-op)
  let _ := groupType
  st

/-- The pairwise loop of `checker.checkAssign` from check/stmts.go. -/
def assignPairs (st : ChkSt) (names : List String) (exprs : List Expr) : ChkSt :=
  match names, exprs with
  | name :: ns, e :: es =>
    let r := kindOfExpr st e
    let rk := r.1
    let st := r.2
    let st :=
      match lookupVar st name with
      | none => addErr st ("assign to undeclared variable " ++ q name)
      | some idx =>
        let v := storeGet st.store idx
        if ¬ v.mutable then addErr st ("cannot assign to immutable variable " ++ q name)
        else
          let u := unifyKinds v.kind rk
          let st :=
            if ¬ u.2 then
              addErr st ("type mismatch: " ++ q name ++ " is " ++ v.kind.toString ++
                " but assigned " ++ rk.toString)
            else if v.kind = .unknown then setCell st idx { v with kind := u.1 }
            else st
          let w := storeGet st.store idx
          setCell st idx { w with written := true }
    assignPairs st ns es
  | _, _ => st

/-- `checker.checkAssign` from check/stmts.go. -/
def checkAssign (st : ChkSt) (names : List String) (exprs : List Expr) : ChkSt :=
  let st := if names.length ≠ exprs.length then
      addErr st (arityMsg "assignment" names.length exprs.length)
    else st
  assignPairs st names exprs

mutual

/-- `checker.checkStmt` from check/stmts.go (including the leading
`W0004: unreachable code` check). -/
def checkStmt (st : ChkSt) (s : Stmt) : ChkSt :=
  let st := if topBR st = some true then
      addWarn st ⟨"W0004", "unreachable code: statement after return"⟩
    else st
  match s with
  | .letS mtb binds groupType values => checkLet st mtb binds groupType values
  | .assignS names exprs => checkAssign st names exprs
  | .returnS oe =>
    match oe with
    | none =>
      let st := if st.fnSig.ret ≠ .void then
          addErr st ("missing return value; function returns " ++ st.fnSig.ret.toString)
        else st
      setTopTrue st
    | some e =>
      let r := kindOfExpr st e
      let got := r.1
      let st := r.2
      if st.fnSig.ret = .void then
        setTopTrue (addErr st "return value in function returning void")
      else
        let st := if ¬ (unifyKinds st.fnSig.ret got).2 then
            addErr st ("return kind mismatch: have " ++ st.fnSig.ret.toString ++
              ", got " ++ got.toString)
          else st
        setTopTrue st
  | .exprS e => (kindOfExpr st e).2
  | .ifS cond thenB elifs elseB =>
    let r := kindOfExpr st cond
    let st := if r.1 ≠ .bool ∧ r.1 ≠ .int ∧ r.1 ≠ .unknown then
        addErr r.2 ("if-condition must be bool/int, got " ++ r.1.toString)
      else r.2
    let st := withBlockStmts st thenB
    let st := checkElifs st elifs
    match elseB with
    | some els => withBlockStmts st els
    | none => st
  | .whileS cond body =>
    let r := kindOfExpr st cond
    let st := if r.1 ≠ .bool ∧ r.1 ≠ .int ∧ r.1 ≠ .unknown then
        addErr r.2 ("while-condition must be bool/int, got " ++ r.1.toString)
      else r.2
    withBlockStmts st body
  | .deferS call =>
    let st := if st.blockReturned.length > 1 then
        addErr st "defer is only allowed at function top-level in Stage-0"
      else st
    let st :=
      match call with
      | .callE _ _ => st
      | _ => addErr st "defer expects a call expression"
    (kindOfExpr st call).2

/-- Checking the statements of a block in order (the `for` loops of
check/stmts.go). -/
def checkStmts (st : ChkSt) (l : List Stmt) : ChkSt :=
  match l with
  | [] => st
  | s :: rest => checkStmts (checkStmt st s) rest

/-- The `elif` loop of `checker.checkStmt` from check/stmts.go. -/
def checkElifs (st : ChkSt) (elifs : List (Expr × List Stmt)) : ChkSt :=
  match elifs with
  | [] => st
  | (cond, body) :: rest =>
    let r := kindOfExpr st cond
    let st := if r.1 ≠ .bool ∧ r.1 ≠ .int ∧ r.1 ≠ .unknown then
        addErr r.2 ("elif-condition must be bool/int, got " ++ r.1.toString)
      else r.2
    checkElifs (withBlockStmts st body) rest

/-- `checker.withBlock` from check/stmts.go: push a fresh block-returned
flag and a child scope frame, run the block, then restore both (the Go pop
drops the top of the current stack). -/
def withBlockStmts (st : ChkSt) (body : List Stmt) : ChkSt :=
  let st1 := { st with blockReturned := false :: st.blockReturned, scopes := [] :: st.scopes }
  let st2 := checkStmts st1 body
  { st2 with blockReturned := st2.blockReturned.tail, scopes := st2.scopes.tail }

end

/-- The parameter-definition loop of `checkFunc` from check/checker.go
(`i` is the 0-based parameter position used in error messages; the cell is
recorded in `locals` whether or not the definition succeeded). -/
def defineParams (st : ChkSt) (ps : List Param) (i : Nat) : ChkSt :=
  match ps with
  | [] => st
  | p :: rest =>
    let v : VarInfo :=
      { kind := mapTextType p.type, mutable := false, declName := p.name,
        read := false, written := true }
    let d := defineVar st p.name v
    let st :=
      match d.2.1 with
      | some msg => addErr d.1 ("parameter " ++ toString i ++ " " ++ q p.name ++ ": " ++ msg)
      | none => d.1
    let st := { st with locals := st.locals ++ [d.2.2] }
    defineParams st rest (i + 1)

/-- The `W0001: unused variable or parameter` loop of `checkFunc`
(check/checker.go): walks `locals` in definition order, skipping names
starting with an underscore. -/
def unusedWarns (store : List VarInfo) (locals : List Nat) (ws : List Warning) : List Warning :=
  match locals with
  | [] => ws
  | idx :: rest =>
    let v := storeGet store idx
    let ws :=
      if v.declName.startsWith "_" then ws
      else if ¬ v.read then
        ws ++ [⟨"W0001", "unused variable or parameter " ++ q v.declName⟩]
      else ws
    unusedWarns store rest ws

/-- `checkFunc` from check/checker.go: returns the function's errors and
warnings. The signature is read from the function table (Go map indexing
yields the zero `FuncSig` when absent). -/
def checkFunc (info : Info) (fn : FuncDecl) : List String × List Warning :=
  let sig := (funcsLookup info fn.name).getD FuncSig.zero
  let st0 : ChkSt :=
    { info := info, fnSig := sig, store := [], scopes := [[]],
      errors := [], warnings := [], locals := [], blockReturned := [] }
  let st1 := defineParams st0 fn.params 0
  let st2 := { st1 with blockReturned := false :: st1.blockReturned }
  let st3 := checkStmts st2 fn.body
  let hasReturn := st3.blockReturned.headD false
  let st4 := { st3 with blockReturned := st3.blockReturned.tail }
  let st5 :=
    if sig.ret ≠ .void ∧ ¬ hasReturn then
      addWarn st4 ⟨"W0006", "function " ++ q fn.name ++ " returns " ++ sig.ret.toString ++
        " but may fall through without an explicit return"⟩
    else st4
  (st5.errors, unusedWarns st5.store st5.locals st5.warnings)

end Check

/- ================================================================
   lexer package  (lexer/token.go, lexer/lexer.go)
   ================================================================ -/

namespace Lexer

/-- `TokKind` from lexer/token.go (keywords carry a `kw` spelling here
because `let`, `if`, … are reserved in Lean). -/
inductive TokKind where
  | eof
  | newline
  | indent
  | dedent
  | ident
  | int
  | float
  | str
  | kwLet
  | kwMut
  | kwDef
  | kwReturn
  | kwIf
  | kwElif
  | kwElse
  | kwWhile
  | kwFor
  | kwIn
  | kwMatch
  | kwStruct
  | kwEnum
  | kwPackage
  | kwImport
  | kwAs
  | eq
  | assign
  | plus
  | minus
  | star
  | slash
  | percent
  | lparen
  | rparen
  | lbrack
  | rbrack
  | dot
  | colon
  | comma
  | arrow
  | pipe
  | bang
  | lt
  | le
  | gt
  | ge
  | eqeq
  | ne
  | kwTrue
  | kwFalse
  | kwAnd
  | kwOr
  | kwNot
  | kwDefer
deriving DecidableEq, Repr, Inhabited

/-- `TokKind.String()` from lexer/token.go. -/
def TokKind.toString : TokKind → String
  | .eof => "EOF"
  | .newline => "NEWLINE"
  | .indent => "INDENT"
  | .dedent => "DEDENT"
  | .ident => "IDENT"
  | .int => "INT"
  | .float => "FLOAT"
  | .str => "STR"
  | .kwLet => "let"
  | .kwMut => "mut"
  | .kwDef => "def"
  | .kwReturn => "return"
  | .kwIf => "if"
  | .kwElif => "elif"
  | .kwElse => "else"
  | .kwWhile => "while"
  | .kwFor => "for"
  | .kwIn => "in"
  | .kwMatch => "match"
  | .kwStruct => "struct"
  | .kwEnum => "enum"
  | .kwPackage => "package"
  | .kwImport => "import"
  | .kwAs => "as"
  | .eq => "="
  | .assign => ":="
  | .plus => "+"
  | .minus => "-"
  | .star => "*"
  | .slash => "/"
  | .percent => "%"
  | .lparen => "("
  | .rparen => ")"
  | .lbrack => "["
  | .rbrack => "]"
  | .dot => "."
  | .colon => ":"
  | .comma => ","
  | .arrow => "->"
  | .pipe => "|>"
  | .bang => "!"
  | .lt => "<"
  | .le => "<="
  | .gt => ">"
  | .ge => ">="
  | .eqeq => "=="
  | .ne => "!="
  | .kwTrue => "true"
  | .kwFalse => "false"
  | .kwAnd => "and"
  | .kwOr => "or"
  | .kwNot => "not"
  | .kwDefer => "defer"

/-- `Token` from lexer/token.go. -/
structure Token where
  kind : TokKind
  lex : String
  line : Nat
  col : Nat
deriving DecidableEq, Repr, Inhabited

/-- The `Lexer` state from lexer/lexer.go: rune buffer plus cursor, the
beginning-of-line flag, the indent-width stack (top at the head; Go keeps
it at the slice end), the queued-token buffer, and the EOF flag. -/
structure LexSt where
  src : List Char
  i : Nat
  line : Nat
  col : Nat
  bol : Bool
  indents : List Nat
  pending : List Token
  eofEmitted : Bool
deriving Repr

/-- `New` from lexer/lexer.go. -/
def init (src : List Char) : LexSt :=
  { src := src, i := 0, line := 1, col := 0, bol := true,
    indents := [0], pending := [], eofEmitted := false }

/-- `Lexer.make` from lexer/lexer.go. -/
def mkTok (kind : TokKind) (lex : String) (line col : Nat) : Token :=
  { kind := kind, lex := lex, line := line, col := col }

/-- `Lexer.peek`. -/
def peekCh (st : LexSt) : Option Char :=
  if h : st.i < st.src.length then some (st.src.get ⟨st.i, h⟩) else none

/-- `Lexer.advance` once the peeked character is known: step the cursor and
the line/col bookkeeping. -/
def advance1 (st : LexSt) (ch : Char) : LexSt :=
  { st with
    i := st.i + 1,
    line := if ch = '\n' then st.line + 1 else st.line,
    col := if ch = '\n' then 0 else st.col + 1 }

/-- `Lexer.atEOF`. -/
def atEOF (st : LexSt) : Bool := st.src.length ≤ st.i

/-- `isIdentStart` from lexer/lexer.go (letters restricted to ASCII;
`unicode.IsLetter` in Go). -/
def isIdentStart (r : Char) : Bool := r = '_' ∨ r = '$' ∨ r.isAlpha

/-- `isIdentPart` from lexer/lexer.go. -/
def isIdentPart (r : Char) : Bool := r = '_' ∨ r = '$' ∨ r.isAlpha ∨ r.isDigit

/-- `keywordKind` from lexer/lexer.go (this revision has no `defer`
entry). -/
def keywordKind (s : String) : Option TokKind :=
  match s with
  | "let" => some .kwLet
  | "mut" => some .kwMut
  | "def" => some .kwDef
  | "return" => some .kwReturn
  | "if" => some .kwIf
  | "elif" => some .kwElif
  | "else" => some .kwElse
  | "while" => some .kwWhile
  | "for" => some .kwFor
  | "in" => some .kwIn
  | "match" => some .kwMatch
  | "struct" => some .kwStruct
  | "enum" => some .kwEnum
  | "package" => some .kwPackage
  | "import" => some .kwImport
  | "as" => some .kwAs
  | "true" => some .kwTrue
  | "false" => some .kwFalse
  | "and" => some .kwAnd
  | "or" => some .kwOr
  | "not" => some .kwNot
  | _ => none

theorem peekCh_some_lt {st : LexSt} {c : Char} (h : peekCh st = some c) :
    st.i < st.src.length := by
  unfold peekCh at h
  by_cases hi : st.i < st.src.length
  · exact hi
  · simp [hi] at h

@[simp] theorem advance1_src (st : LexSt) (ch : Char) : (advance1 st ch).src = st.src := rfl

@[simp] theorem advance1_i (st : LexSt) (ch : Char) : (advance1 st ch).i = st.i + 1 := rfl

@[simp] theorem advance1_bol (st : LexSt) (ch : Char) : (advance1 st ch).bol = st.bol := rfl

@[simp] theorem advance1_pending (st : LexSt) (ch : Char) :
    (advance1 st ch).pending = st.pending := rfl

@[simp] theorem advance1_indents (st : LexSt) (ch : Char) :
    (advance1 st ch).indents = st.indents := rfl

@[simp] theorem advance1_eofEmitted (st : LexSt) (ch : Char) :
    (advance1 st ch).eofEmitted = st.eofEmitted := rfl

/-- The indentation-width loop at the head of `handleBOL` (space = 1
column, tab = 4). -/
def countIndent (st : LexSt) (width : Nat) : Nat × LexSt :=
  match h : peekCh st with
  | some ' ' => countIndent (advance1 st ' ') (width + 1)
  | some '\t' => countIndent (advance1 st '\t') (width + 4)
  | _ => (width, st)
termination_by st.src.length - st.i
decreasing_by
  · have := peekCh_some_lt h
    simp
    omega
  · have := peekCh_some_lt h
    simp
    omega

/-- The comment-consuming loops of lexer/lexer.go: advance until a newline
or end of input (the newline itself is not consumed). -/
def skipToNL (st : LexSt) : LexSt :=
  match h : peekCh st with
  | none => st
  | some ch => if ch = '\n' then st else skipToNL (advance1 st ch)
termination_by st.src.length - st.i
decreasing_by
  have := peekCh_some_lt h
  simp
  omega

/-- The mid-line whitespace skip of `Lexer.Next`. -/
def skipSpacesTabs (st : LexSt) : LexSt :=
  match h : peekCh st with
  | some ' ' => skipSpacesTabs (advance1 st ' ')
  | some '\t' => skipSpacesTabs (advance1 st '\t')
  | _ => st
termination_by st.src.length - st.i
decreasing_by
  · have := peekCh_some_lt h
    simp
    omega
  · have := peekCh_some_lt h
    simp
    omega

/-- `Lexer.scanIdent` (the Go code slices `src[start:i]`; here the scanned
characters are accumulated). -/
def scanIdent (st : LexSt) (acc : List Char) : List Char × LexSt :=
  match h : peekCh st with
  | some ch => if isIdentPart ch then scanIdent (advance1 st ch) (acc ++ [ch]) else (acc, st)
  | none => (acc, st)
termination_by st.src.length - st.i
decreasing_by
  have := peekCh_some_lt h
  simp
  omega

/-- Hex-digit test from `Lexer.scanNumber`. -/
def isHexDigit (r : Char) : Bool :=
  r.isDigit ∨ ('a' ≤ r ∧ r ≤ 'f') ∨ ('A' ≤ r ∧ r ≤ 'F')

/-- The hex/binary/decimal digit-run loops of `Lexer.scanNumber`,
parameterised by the digit predicate. -/
def scanDigits (p : Char → Bool) (st : LexSt) (acc : List Char) : List Char × LexSt :=
  match h : peekCh st with
  | some ch => if p ch then scanDigits p (advance1 st ch) (acc ++ [ch]) else (acc, st)
  | none => (acc, st)
termination_by st.src.length - st.i
decreasing_by
  have := peekCh_some_lt h
  simp
  omega

/-- `Lexer.scanNumber`: optional `0x`/`0b` prefix, else a decimal run. -/
def scanNumber (st : LexSt) : List Char × LexSt :=
  match peekCh st with
  | some '0' =>
    let st1 := advance1 st '0'
    match peekCh st1 with
    | some 'x' => scanDigits isHexDigit (advance1 st1 'x') ['0', 'x']
    | some 'X' => scanDigits isHexDigit (advance1 st1 'X') ['0', 'X']
    | some 'b' => scanDigits (fun r => r = '0' ∨ r = '1') (advance1 st1 'b') ['0', 'b']
    | some 'B' => scanDigits (fun r => r = '0' ∨ r = '1') (advance1 st1 'B') ['0', 'B']
    | _ => scanDigits Char.isDigit st1 ['0']
  | _ => scanDigits Char.isDigit st []

/-- The scan loop of `Lexer.scanString` (after the opening quote has been
consumed): a backslash consumes the following character blindly, a closing
quote is consumed and ends the literal, an (unconsumed) newline or end of
input also ends it. -/
def scanStringLoop (st : LexSt) (acc : List Char) : List Char × LexSt :=
  match h : peekCh st with
  | none => (acc, st)
  | some r =>
    if r = '\\' then
      let st1 := advance1 st '\\'
      match h2 : peekCh st1 with
      | some r2 => scanStringLoop (advance1 st1 r2) (acc ++ ['\\', r2])
      | none => scanStringLoop st1 (acc ++ ['\\'])
    else if r = '"' then (acc ++ ['"'], advance1 st '"')
    else if r = '\n' then (acc, st)
    else scanStringLoop (advance1 st r) (acc ++ [r])
termination_by st.src.length - st.i
decreasing_by
  · have := peekCh_some_lt h
    have := peekCh_some_lt h2
    simp at *
    omega
  · have := peekCh_some_lt h
    simp
    omega
  · have := peekCh_some_lt h
    simp
    omega

/-- `Lexer.scanString`: consume the opening quote, then the loop; the
lexeme is `src[start:i]`, i.e. it includes the opening quote (and the
closing quote only when one was found). -/
def scanString (st : LexSt) : List Char × LexSt :=
  scanStringLoop (advance1 st '"') ['"']


/- Branch-level rewriting equations for the scanning loops (the generic
`split` on the compiled match; used throughout the proofs below). -/

theorem countIndent_space {st : LexSt} (w : Nat) (h : peekCh st = some ' ') :
    countIndent st w = countIndent (advance1 st ' ') (w + 1) := by
  rw [countIndent.eq_def]; split
  next heq => rfl
  next heq => simp [h] at heq
  next h1 h2 => exact absurd h h1

theorem countIndent_tab {st : LexSt} (w : Nat) (h : peekCh st = some '\t') :
    countIndent st w = countIndent (advance1 st '\t') (w + 4) := by
  rw [countIndent.eq_def]; split
  next heq => simp [h] at heq
  next heq => rfl
  next h1 h2 => exact absurd h h2

theorem countIndent_stop {st : LexSt} (w : Nat) (h1 : peekCh st ≠ some ' ')
    (h2 : peekCh st ≠ some '\t') : countIndent st w = (w, st) := by
  rw [countIndent.eq_def]; split
  next heq => exact absurd heq h1
  next heq => exact absurd heq h2
  next => rfl

theorem skipToNL_none {st : LexSt} (h : peekCh st = none) : skipToNL st = st := by
  rw [skipToNL.eq_def]; split
  next => rfl
  next ch heq => rw [h] at heq; cases heq

theorem skipToNL_some {st : LexSt} {ch : Char} (h : peekCh st = some ch) :
    skipToNL st = if ch = '\n' then st else skipToNL (advance1 st ch) := by
  rw [skipToNL.eq_def]; split
  next heq => rw [h] at heq; cases heq
  next c heq => rw [h] at heq; cases heq; rfl

theorem skipSpacesTabs_space {st : LexSt} (h : peekCh st = some ' ') :
    skipSpacesTabs st = skipSpacesTabs (advance1 st ' ') := by
  rw [skipSpacesTabs.eq_def]; split
  next heq => rfl
  next heq => simp [h] at heq
  next h1 h2 => exact absurd h h1

theorem skipSpacesTabs_tab {st : LexSt} (h : peekCh st = some '\t') :
    skipSpacesTabs st = skipSpacesTabs (advance1 st '\t') := by
  rw [skipSpacesTabs.eq_def]; split
  next heq => simp [h] at heq
  next heq => rfl
  next h1 h2 => exact absurd h h2

theorem skipSpacesTabs_stop {st : LexSt} (h1 : peekCh st ≠ some ' ')
    (h2 : peekCh st ≠ some '\t') : skipSpacesTabs st = st := by
  rw [skipSpacesTabs.eq_def]; split
  next heq => exact absurd heq h1
  next heq => exact absurd heq h2
  next => rfl

theorem scanIdent_some {st : LexSt} {ch : Char} (acc : List Char) (h : peekCh st = some ch) :
    scanIdent st acc =
      if isIdentPart ch then scanIdent (advance1 st ch) (acc ++ [ch]) else (acc, st) := by
  rw [scanIdent.eq_def]; split
  next c heq => rw [h] at heq; cases heq; rfl
  next heq => rw [h] at heq; cases heq

theorem scanIdent_none {st : LexSt} (acc : List Char) (h : peekCh st = none) :
    scanIdent st acc = (acc, st) := by
  rw [scanIdent.eq_def]; split
  next c heq => rw [h] at heq; cases heq
  next => rfl

theorem scanDigits_some {p : Char → Bool} {st : LexSt} {ch : Char} (acc : List Char)
    (h : peekCh st = some ch) :
    scanDigits p st acc =
      if p ch then scanDigits p (advance1 st ch) (acc ++ [ch]) else (acc, st) := by
  rw [scanDigits.eq_def]; split
  next c heq => rw [h] at heq; cases heq; rfl
  next heq => rw [h] at heq; cases heq

theorem scanDigits_none {p : Char → Bool} {st : LexSt} (acc : List Char)
    (h : peekCh st = none) : scanDigits p st acc = (acc, st) := by
  rw [scanDigits.eq_def]; split
  next c heq => rw [h] at heq; cases heq
  next => rfl

theorem scanStringLoop_none {st : LexSt} (acc : List Char) (h : peekCh st = none) :
    scanStringLoop st acc = (acc, st) := by
  rw [scanStringLoop.eq_def]; split
  next => rfl
  next c heq => rw [h] at heq; cases heq

theorem scanStringLoop_bs {st : LexSt} {r2 : Char} (acc : List Char)
    (h : peekCh st = some '\\') (h2 : peekCh (advance1 st '\\') = some r2) :
    scanStringLoop st acc =
      scanStringLoop (advance1 (advance1 st '\\') r2) (acc ++ ['\\', r2]) := by
  rw [scanStringLoop.eq_def]; split
  next heq => rw [h] at heq; cases heq
  next c heq =>
    rw [h] at heq; cases heq
    rw [if_pos rfl]
    dsimp only
    split
    next r3 heq2 => rw [h2] at heq2; cases heq2; rfl
    next heq2 => rw [h2] at heq2; cases heq2

theorem scanStringLoop_bs_eof {st : LexSt} (acc : List Char)
    (h : peekCh st = some '\\') (h2 : peekCh (advance1 st '\\') = none) :
    scanStringLoop st acc = scanStringLoop (advance1 st '\\') (acc ++ ['\\']) := by
  rw [scanStringLoop.eq_def]; split
  next heq => rw [h] at heq; cases heq
  next c heq =>
    rw [h] at heq; cases heq
    rw [if_pos rfl]
    dsimp only
    split
    next r3 heq2 => rw [h2] at heq2; cases heq2
    next heq2 => rfl

theorem scanStringLoop_quote {st : LexSt} (acc : List Char) (h : peekCh st = some '\"') :
    scanStringLoop st acc = (acc ++ ['\"'], advance1 st '\"') := by
  rw [scanStringLoop.eq_def]; split
  next heq => simp [h] at heq
  next c heq => rw [h] at heq; cases heq; rfl

theorem scanStringLoop_nl {st : LexSt} (acc : List Char) (h : peekCh st = some '\n') :
    scanStringLoop st acc = (acc, st) := by
  rw [scanStringLoop.eq_def]; split
  next heq => simp [h] at heq
  next c heq => rw [h] at heq; cases heq; rfl

theorem scanStringLoop_ch {st : LexSt} {r : Char} (acc : List Char) (h : peekCh st = some r)
    (hb : r ≠ '\\') (hq : r ≠ '\"') (hn : r ≠ '\n') :
    scanStringLoop st acc = scanStringLoop (advance1 st r) (acc ++ [r]) := by
  rw [scanStringLoop.eq_def]; split
  next heq => rw [h] at heq; cases heq
  next c heq => rw [h] at heq; cases heq; rw [if_neg hb, if_neg hq, if_neg hn]

/- Cursor monotonicity facts about the scanning loops; these discharge the
termination obligations of `handleBOL` and `next` below, and feed the
stream-termination measure. -/

theorem countIndent_src : ∀ st w, ((countIndent st w).2).src = st.src ∧ st.i ≤ ((countIndent st w).2).i := by
  intro st w
  induction st, w using countIndent.induct with
  | case1 st w h ih =>
    rw [countIndent_space w h]
    exact ⟨ih.1, le_trans (Nat.le_succ st.i) (by simpa using ih.2)⟩
  | case2 st w h ih =>
    rw [countIndent_tab w h]
    exact ⟨ih.1, le_trans (Nat.le_succ st.i) (by simpa using ih.2)⟩
  | case3 st w h1 h2 =>
    rw [countIndent_stop w (fun hh => h1 hh) (fun hh => h2 hh)]
    exact ⟨rfl, le_refl _⟩

theorem skipToNL_src : ∀ st, (skipToNL st).src = st.src ∧ st.i ≤ (skipToNL st).i := by
  intro st
  induction st using skipToNL.induct with
  | case1 st h => rw [skipToNL_none h]; exact ⟨rfl, le_refl _⟩
  | case2 st h => rw [skipToNL_some h]; simp
  | case3 st ch h hne ih =>
    rw [skipToNL_some h, if_neg hne]
    exact ⟨ih.1, le_trans (Nat.le_succ st.i) (by simpa using ih.2)⟩

theorem skipSpacesTabs_src : ∀ st, (skipSpacesTabs st).src = st.src ∧ st.i ≤ (skipSpacesTabs st).i := by
  intro st
  induction st using skipSpacesTabs.induct with
  | case1 st h ih =>
    rw [skipSpacesTabs_space h]
    exact ⟨ih.1, le_trans (Nat.le_succ st.i) (by simpa using ih.2)⟩
  | case2 st h ih =>
    rw [skipSpacesTabs_tab h]
    exact ⟨ih.1, le_trans (Nat.le_succ st.i) (by simpa using ih.2)⟩
  | case3 st h1 h2 =>
    rw [skipSpacesTabs_stop (fun hh => h1 hh) (fun hh => h2 hh)]
    exact ⟨rfl, le_refl _⟩

/-- The indent-unwinding loop of `handleBOL`'s at-EOF branch: pop every
level above the base and queue one DEDENT per pop. -/
def unwindIndents (st : LexSt) : LexSt :=
  match h : st.indents with
  | _ :: u :: rest =>
    unwindIndents { st with
      indents := u :: rest,
      pending := st.pending ++ [mkTok .dedent "" st.line st.col] }
  | _ => st
termination_by st.indents.length
decreasing_by
  simp [h]

/-- The dedent loop of `handleBOL`: pop while the new width is below the
top and more than the base level remains, queueing one DEDENT per pop
(a mismatched partial dedent is accepted leniently, no ERR). -/
def dedentLoop (st : LexSt) (width : Nat) : LexSt :=
  match h : st.indents with
  | t :: u :: rest =>
    if width < t then
      dedentLoop { st with
        indents := u :: rest,
        pending := st.pending ++ [mkTok .dedent "" st.line st.col] } width
    else st
  | _ => st
termination_by st.indents.length
decreasing_by
  simp [h]

/-- The indentation comparison at the end of `handleBOL`: push-and-queue
INDENT when wider than the top of the stack, run the dedent loop when
narrower, then leave beginning-of-line mode. -/
def compareIndent (st : LexSt) (width : Nat) : LexSt :=
  let top := st.indents.headD 0
  let st :=
    if top < width then
      { st with
        indents := width :: st.indents,
        pending := st.pending ++ [mkTok .indent "" st.line st.col] }
    else if width < top then dedentLoop st width
    else st
  { st with bol := false }

/-- `Lexer.handleBOL` from lexer/lexer.go: loop while at beginning of
line — unwind at EOF; count the indentation; skip blank and comment-only
lines wholesale; otherwise compare the width against the indent stack. -/
def handleBOL (st : LexSt) : LexSt :=
  if st.bol then
    if h : st.i < st.src.length then
      let c := countIndent st 0
      let width := c.1
      let st1 := c.2
      match peekCh st1 with
      | none => compareIndent st1 width   -- EOF after spaces: fall through to the compare
      | some '\n' => handleBOL (advance1 st1 '\n')  -- blank line: skip, stay at BOL
      | some '#' =>
        let st2 := skipToNL st1
        match peekCh st2 with
        | some '\n' => handleBOL (advance1 st2 '\n')  -- comment-only line: skip
        | _ => compareIndent st2 width                 -- fall through at EOF
      | some _ => compareIndent st1 width
    else
      { unwindIndents st with bol := false }
  else st
termination_by st.src.length - st.i
decreasing_by
  · have h1 := countIndent_src st 0
    have h2 := congrArg List.length h1.1
    have h3 := h1.2
    simp at *
    omega
  · have h1 := countIndent_src st 0
    have h4 := skipToNL_src (countIndent st 0).2
    have h2 := congrArg List.length h1.1
    have h5 := congrArg List.length h4.1
    have h3 := h1.2
    have h6 := h4.2
    simp at *
    omega

theorem unwindIndents_pres : ∀ st, (unwindIndents st).src = st.src ∧ (unwindIndents st).i = st.i ∧
    (unwindIndents st).bol = st.bol ∧ (unwindIndents st).eofEmitted = st.eofEmitted ∧
    (unwindIndents st).line = st.line ∧ (unwindIndents st).col = st.col := by
  intro st
  induction st using unwindIndents.induct with
  | case1 st a u rest h ih => rw [unwindIndents.eq_def, h]; simpa using ih
  | case2 st h =>
    rw [unwindIndents.eq_def]
    rcases h2 : st.indents with - | ⟨a, - | ⟨b, r⟩⟩
    · simp
    · simp
    · exact absurd h2 (h a b r)

theorem dedentLoop_pres : ∀ st w, (dedentLoop st w).src = st.src ∧ (dedentLoop st w).i = st.i ∧
    (dedentLoop st w).bol = st.bol ∧ (dedentLoop st w).eofEmitted = st.eofEmitted ∧
    (dedentLoop st w).line = st.line ∧ (dedentLoop st w).col = st.col := by
  intro st w
  induction st, w using dedentLoop.induct with
  | case1 st w t u rest h hlt ih => rw [dedentLoop.eq_def, h]; simp only [if_pos hlt]; simpa using ih
  | case2 st w t u rest h hge => rw [dedentLoop.eq_def, h]; simp [hge]
  | case3 st w h =>
    rw [dedentLoop.eq_def]
    rcases h2 : st.indents with - | ⟨a, - | ⟨b, r⟩⟩
    · simp
    · simp
    · exact absurd h2 (h a b r)

theorem compareIndent_pres : ∀ st w, (compareIndent st w).src = st.src ∧ (compareIndent st w).i = st.i ∧
    (compareIndent st w).bol = false ∧ (compareIndent st w).eofEmitted = st.eofEmitted := by
  intro st w
  unfold compareIndent
  dsimp only
  split
  · simp
  · split
    · have h1 := dedentLoop_pres st w
      simp [h1.1, h1.2.1, h1.2.2.2.1]
    · simp

/- Branch equations for `handleBOL`. -/

theorem handleBOL_nobol {st : LexSt} (h : st.bol = false) : handleBOL st = st := by
  rw [handleBOL.eq_def]; simp [h]

theorem handleBOL_ateof {st : LexSt} (hb : st.bol = true) (h : ¬ st.i < st.src.length) :
    handleBOL st = { unwindIndents st with bol := false } := by
  rw [handleBOL.eq_def]; simp [hb, h]

theorem handleBOL_spaces_eof {st : LexSt} (hb : st.bol = true) (h : st.i < st.src.length)
    (hpk : peekCh (countIndent st 0).2 = none) :
    handleBOL st = compareIndent (countIndent st 0).2 (countIndent st 0).1 := by
  rw [handleBOL.eq_def]
  simp only [if_pos hb, dif_pos h]
  rw [hpk]

theorem handleBOL_blank {st : LexSt} (hb : st.bol = true) (h : st.i < st.src.length)
    (hpk : peekCh (countIndent st 0).2 = some '\n') :
    handleBOL st = handleBOL (advance1 (countIndent st 0).2 '\n') := by
  rw [handleBOL.eq_def]
  simp only [if_pos hb, dif_pos h]
  rw [hpk]
  rfl

theorem handleBOL_comment_nl {st : LexSt} (hb : st.bol = true) (h : st.i < st.src.length)
    (hpk : peekCh (countIndent st 0).2 = some '#')
    (hpk2 : peekCh (skipToNL (countIndent st 0).2) = some '\n') :
    handleBOL st = handleBOL (advance1 (skipToNL (countIndent st 0).2) '\n') := by
  rw [handleBOL.eq_def]
  simp only [if_pos hb, dif_pos h]
  rw [hpk, hpk2]
  rfl

theorem handleBOL_comment_eof {st : LexSt} (hb : st.bol = true) (h : st.i < st.src.length)
    (hpk : peekCh (countIndent st 0).2 = some '#')
    (hpk2 : ¬ peekCh (skipToNL (countIndent st 0).2) = some '\n') :
    handleBOL st = compareIndent (skipToNL (countIndent st 0).2) (countIndent st 0).1 := by
  rw [handleBOL.eq_def]
  simp only [if_pos hb, dif_pos h]
  rw [hpk]
  split
  any_goals rfl
  any_goals simp_all
  any_goals (rename_i hne heq; exact absurd heq.symm hne)

theorem handleBOL_other {st : LexSt} {val : Char} (hb : st.bol = true) (h : st.i < st.src.length)
    (hpk : peekCh (countIndent st 0).2 = some val) (h1 : val ≠ '\n') (h2 : val ≠ '#') :
    handleBOL st = compareIndent (countIndent st 0).2 (countIndent st 0).1 := by
  rw [handleBOL.eq_def]
  simp only [if_pos hb, dif_pos h]
  rw [hpk]
  split
  any_goals rfl
  any_goals simp_all

theorem handleBOL_src : ∀ st, (handleBOL st).src = st.src ∧ st.i ≤ (handleBOL st).i := by
  intro st
  induction st using handleBOL.induct with
  | case1 st hbol h c st1 hpk =>
    rw [handleBOL_spaces_eof hbol h hpk]
    have h1 := countIndent_src st 0
    have h2 := compareIndent_pres (countIndent st 0).2 (countIndent st 0).1
    exact ⟨h2.1.trans h1.1, le_trans h1.2 (le_of_eq h2.2.1.symm)⟩
  | case2 st hbol h c st1 hpk ih =>
    rw [handleBOL_blank hbol h hpk]
    have e1 : st1 = (countIndent st 0).2 := rfl
    rw [e1] at ih
    have h1 := countIndent_src st 0
    have h4 := ih.1
    have h3 := ih.2
    simp only [advance1_src, advance1_i] at h4 h3
    exact ⟨h4.trans h1.1, by omega⟩
  | case3 st hbol h c st1 hpk st2 hpk2 ih =>
    rw [handleBOL_comment_nl hbol h hpk hpk2]
    have e1 : st2 = skipToNL (countIndent st 0).2 := rfl
    rw [e1] at ih
    have h1 := countIndent_src st 0
    have h2 := skipToNL_src (countIndent st 0).2
    have h4 := ih.1
    have h3 := ih.2
    simp only [advance1_src, advance1_i] at h4 h3
    exact ⟨h4.trans (h2.1.trans h1.1), by omega⟩
  | case4 st hbol h c st1 hpk st2 hpk2 =>
    rw [handleBOL_comment_eof hbol h hpk (by simpa using hpk2)]
    have h1 := countIndent_src st 0
    have h2 := skipToNL_src (countIndent st 0).2
    have h3 := compareIndent_pres (skipToNL (countIndent st 0).2) (countIndent st 0).1
    refine ⟨h3.1.trans (h2.1.trans h1.1), ?_⟩
    have h4 := h3.2.1
    omega
  | case5 st hbol h c st1 val hv1 hv2 hpk =>
    rw [handleBOL_other hbol h hpk (fun hh => hv1 hh) (fun hh => hv2 hh)]
    have h1 := countIndent_src st 0
    have h2 := compareIndent_pres (countIndent st 0).2 (countIndent st 0).1
    exact ⟨h2.1.trans h1.1, le_trans h1.2 (le_of_eq h2.2.1.symm)⟩
  | case6 st hbol h =>
    rw [handleBOL_ateof hbol h]
    have h1 := unwindIndents_pres st
    exact ⟨h1.1, le_of_eq h1.2.1.symm⟩
  | case7 st hbol =>
    rw [handleBOL_nobol (by simpa using hbol)]
    exact ⟨rfl, le_refl _⟩

/-- The at-EOF tail of `Lexer.Next`: with the indent stack still deep, pop
one level and emit a DEDENT per call; once unwound, emit EOF (setting the
flag the first time). -/
def nextAtEOF (st : LexSt) : Token × LexSt :=
  if st.eofEmitted = false then
    match st.indents with
    | _ :: u :: rest => (mkTok .dedent "" st.line st.col, { st with indents := u :: rest })
    | _ => (mkTok .eof "" st.line st.col, { st with eofEmitted := true })
  else (mkTok .eof "" st.line st.col, st)

mutual

/-- `Lexer.Next` from lexer/lexer.go: emit queued tokens first, handle
beginning-of-line, then scan. -/
def next (st : LexSt) : Token × LexSt :=
  match st.pending with
  | t :: rest => (t, { st with pending := rest })
  | [] =>
    if st.bol then
      let st1 := handleBOL st
      match h2 : st1.pending with
      | t :: rest => (t, { st1 with pending := rest })
      | [] => nextCore st1
    else nextCore st
termination_by 2 * (st.src.length - st.i) + 1
decreasing_by
  · have h1 := handleBOL_src st
    have h2 := congrArg List.length h1.1
    have h3 := h1.2
    simp at *
    omega
  · omega

/-- The scanning tail of `Lexer.Next` (everything after the queued-token
and beginning-of-line handling). -/
def nextCore (st : LexSt) : Token × LexSt :=
  if atEOF st then nextAtEOF st
  else
    let sw := skipSpacesTabs st
    let startLine := sw.line
    let startCol := sw.col + 1
    match hpk : peekCh sw with
    | none =>
      -- only spaces remained: the unknown-character advance below is a
      -- no-op at EOF and the recursive Next() takes the at-EOF branch
      nextAtEOF sw
    | some ch =>
      if ch = '\n' then
        (mkTok .newline "" startLine startCol, { advance1 sw '\n' with bol := true })
      else if ch = '#' then
        let sc := skipToNL sw
        match peekCh sc with
        | some '\n' =>
          (mkTok .newline "" startLine startCol, { advance1 sc '\n' with bol := true })
        | _ =>
          -- EOF after a mid-line comment: EOF token, no unwind, flag untouched
          (mkTok .eof "" sc.line sc.col, sc)
      else if isIdentStart ch then
        let r := scanIdent sw []
        let lexeme := String.mk r.1
        match keywordKind lexeme with
        | some k => (mkTok k lexeme startLine startCol, r.2)
        | none => (mkTok .ident lexeme startLine startCol, r.2)
      else if ch.isDigit then
        let r := scanNumber sw
        (mkTok .int (String.mk r.1) startLine startCol, r.2)
      else if ch = '"' then
        let r := scanString sw
        (mkTok .str (String.mk r.1) startLine startCol, r.2)
      else if ch = ':' then
        let s1 := advance1 sw ':'
        if peekCh s1 = some '=' then (mkTok .assign ":=" startLine startCol, advance1 s1 '=')
        else (mkTok .colon ":" startLine startCol, s1)
      else if ch = '-' then
        let s1 := advance1 sw '-'
        if peekCh s1 = some '>' then (mkTok .arrow "->" startLine startCol, advance1 s1 '>')
        else (mkTok .minus "-" startLine startCol, s1)
      else if ch = '=' then
        let s1 := advance1 sw '='
        if peekCh s1 = some '=' then (mkTok .eqeq "==" startLine startCol, advance1 s1 '=')
        else (mkTok .eq "=" startLine startCol, s1)
      else if ch = '!' then
        let s1 := advance1 sw '!'
        if peekCh s1 = some '=' then (mkTok .ne "!=" startLine startCol, advance1 s1 '=')
        else (mkTok .bang "!" startLine startCol, s1)
      else if ch = '<' then
        let s1 := advance1 sw '<'
        if peekCh s1 = some '=' then (mkTok .le "<=" startLine startCol, advance1 s1 '=')
        else (mkTok .lt "<" startLine startCol, s1)
      else if ch = '>' then
        let s1 := advance1 sw '>'
        if peekCh s1 = some '=' then (mkTok .ge ">=" startLine startCol, advance1 s1 '=')
        else (mkTok .gt ">" startLine startCol, s1)
      else if ch = '|' then
        let s1 := advance1 sw '|'
        if peekCh s1 = some '>' then (mkTok .pipe "|>" startLine startCol, advance1 s1 '>')
        else (mkTok .pipe "|" startLine startCol, s1)
      else if ch = '+' then (mkTok .plus "+" startLine startCol, advance1 sw '+')
      else if ch = '*' then (mkTok .star "*" startLine startCol, advance1 sw '*')
      else if ch = '/' then (mkTok .slash "/" startLine startCol, advance1 sw '/')
      else if ch = '%' then (mkTok .percent "%" startLine startCol, advance1 sw '%')
      else if ch = '(' then (mkTok .lparen "(" startLine startCol, advance1 sw '(')
      else if ch = ')' then (mkTok .rparen ")" startLine startCol, advance1 sw ')')
      else if ch = '[' then (mkTok .lbrack "[" startLine startCol, advance1 sw '[')
      else if ch = ']' then (mkTok .rbrack "]" startLine startCol, advance1 sw ']')
      else if ch = '.' then (mkTok .dot "." startLine startCol, advance1 sw '.')
      else if ch = ',' then (mkTok .comma "," startLine startCol, advance1 sw ',')
      else
        -- unknown character: skip it and continue (Stage-0 lenient)
        next (advance1 sw ch)
termination_by 2 * (st.src.length - st.i)
decreasing_by
  have h1 := skipSpacesTabs_src st
  have h2 : (skipSpacesTabs st).src.length = st.src.length := congrArg List.length h1.1
  have h3 : st.i ≤ (skipSpacesTabs st).i := h1.2
  have h4 : (skipSpacesTabs st).i < (skipSpacesTabs st).src.length := peekCh_some_lt hpk
  simp only [advance1_src, advance1_i]
  omega

end

/-- The token at 0-based position `n` of the stream obtained by calling
`Next` repeatedly. -/
def nthTok (st : LexSt) : Nat → Token
  | 0 => (next st).1
  | n + 1 => nthTok (next st).2 n

/-- The state after `n` calls to `Next`. -/
def stAfter (st : LexSt) : Nat → LexSt
  | 0 => st
  | n + 1 => stAfter (next st).2 n

/-- The stream up to and including the first EOF token (`none` when the
fuel runs out first). -/
def tokensFuel (st : LexSt) : Nat → Option (List Token)
  | 0 => none
  | n + 1 =>
    let r := next st
    if r.1.kind = .eof then some [r.1]
    else
      match tokensFuel r.2 n with
      | some ts => some (r.1 :: ts)
      | none => none

/-- Number of tokens of kind `k` in a stream. -/
def countKind (k : TokKind) (ts : List Token) : Nat :=
  (ts.filter (fun t => t.kind = k)).length

end Lexer

/- ================================================================
   runtime  (runtime/c/desi_std.c)
   ================================================================ -/

namespace Runtime

/-- `desi_str_at` from runtime/c/desi_std.c. A C string is modelled as
`Option (List Nat)`: `none` is the NULL pointer, `some bs` the byte
sequence before the terminating NUL (so `bs.length` is `strlen`); the
C `int` index is an unbounded `Int` (every value of a 32-bit int is
covered and no arithmetic in the function can overflow). -/
def desi_str_at (s : Option (List Nat)) (i : Int) : Int :=
  match s with
  | none => -1
  | some bs =>
    if i < 0 then -1
    else if bs.length ≤ i.toNat then -1
    else ((bs.getD i.toNat 0 : Nat) : Int)

end Runtime

/- ================================================================
   parser package: Pratt expression parser  (parser/parser.go)
   ================================================================ -/

namespace Parser

open Ast

/-- The parser state: the remaining tokens of the `TokenSource` plus the
one-token lookahead `p.tok`. A drained source keeps yielding EOF (as the
built-in lexer does). This revision's token set has no ERR kind, so the
`p.at(TokErr)` guards in parser.go can never fire and are omitted. -/
structure PSt where
  rest : List Lexer.Token
  tok : Lexer.Token
deriving Repr

/-- `Parser.next`. -/
def pnext (p : PSt) : PSt :=
  match p.rest with
  | t :: ts => { rest := ts, tok := t }
  | [] => { rest := [], tok := Lexer.mkTok .eof "" 0 0 }

/-- `NewFromSource`: prime the one-token lookahead. -/
def initP (ts : List Lexer.Token) : PSt :=
  pnext { rest := ts, tok := Lexer.mkTok .eof "" 0 0 }

/-- `Parser.expect`. -/
def expectTok (p : PSt) (k : Lexer.TokKind) : Except String (Lexer.Token × PSt) :=
  if p.tok.kind = k then .ok (p.tok, pnext p)
  else .error ("expected " ++ k.toString ++ ", got " ++ p.tok.kind.toString ++
    " at " ++ toString p.tok.line ++ ":" ++ toString p.tok.col)

/-- `binPrec` from parser/parser.go: binding precedence of the binary
operator tokens, with the ok flag. -/
def binPrec : Lexer.TokKind → Nat × Bool
  | .pipe => (1, true)
  | .kwOr => (2, true)
  | .kwAnd => (3, true)
  | .eqeq => (4, true)
  | .ne => (4, true)
  | .lt => (5, true)
  | .le => (5, true)
  | .gt => (5, true)
  | .ge => (5, true)
  | .plus => (6, true)
  | .minus => (6, true)
  | .star => (7, true)
  | .slash => (7, true)
  | .percent => (7, true)
  | _ => (0, false)

mutual

/-- `Parser.parseExpr` (the fuel argument only bounds the recursion depth;
every run in this development supplies enough of it). -/
def parseExpr (fuel : Nat) (p : PSt) : Except String (Expr × PSt) :=
  match fuel with
  | 0 => .error "out of fuel"
  | fuel + 1 => do
    let (left, p) ← parseUnary fuel p
    parseBinaryRHS fuel 1 left p

/-- `Parser.parseUnary`. -/
def parseUnary (fuel : Nat) (p : PSt) : Except String (Expr × PSt) :=
  match fuel with
  | 0 => .error "out of fuel"
  | fuel + 1 =>
    if p.tok.kind = .minus then do
      let (x, p) ← parseUnary fuel (pnext p)
      return (.unaryE "-" x, p)
    else if p.tok.kind = .bang then do
      let (x, p) ← parseUnary fuel (pnext p)
      return (.unaryE "!" x, p)
    else if p.tok.kind = .kwNot then do
      let (x, p) ← parseUnary fuel (pnext p)
      return (.unaryE "not" x, p)
    else parsePrimary fuel p

/-- `Parser.parsePrimary`. -/
def parsePrimary (fuel : Nat) (p : PSt) : Except String (Expr × PSt) :=
  match fuel with
  | 0 => .error "out of fuel"
  | fuel + 1 =>
    if p.tok.kind = .ident then parsePostfix fuel (Expr.identE p.tok.lex) (pnext p)
    else if p.tok.kind = .int then parsePostfix fuel (Expr.intLit p.tok.lex) (pnext p)
    else if p.tok.kind = .str then parsePostfix fuel (Expr.strLit p.tok.lex) (pnext p)
    else if p.tok.kind = .kwTrue then parsePostfix fuel (Expr.boolLit true) (pnext p)
    else if p.tok.kind = .kwFalse then parsePostfix fuel (Expr.boolLit false) (pnext p)
    else if p.tok.kind = .lparen then do
      let (e, p) ← parseExpr fuel (pnext p)
      let (_, p) ← expectTok p .rparen
      parsePostfix fuel e p
    else
      .error ("unexpected token in expression: " ++ p.tok.kind.toString ++ " at " ++
        toString p.tok.line ++ ":" ++ toString p.tok.col)

/-- `Parser.parsePostfix`: the chain of call, index and field postfixes. -/
def parsePostfix (fuel : Nat) (base : Expr) (p : PSt) : Except String (Expr × PSt) :=
  match fuel with
  | 0 => .error "out of fuel"
  | fuel + 1 =>
    if p.tok.kind = .lparen then do
      let p := pnext p
      if p.tok.kind = .rparen then
        parsePostfix fuel (Expr.callE base []) (pnext p)
      else do
        let (args, p) ← parseCallArgs fuel [] p
        parsePostfix fuel (Expr.callE base args) p
    else if p.tok.kind = .lbrack then do
      let (idx, p) ← parseExpr fuel (pnext p)
      let (_, p) ← expectTok p .rbrack
      parsePostfix fuel (Expr.indexE base idx) p
    else if p.tok.kind = .dot then do
      let (id, p) ← expectTok (pnext p) .ident
      parsePostfix fuel (Expr.fieldE base id.lex) p
    else return (base, p)

/-- The call-argument loop of `parsePostfix` (trailing comma allowed). -/
def parseCallArgs (fuel : Nat) (acc : List Expr) (p : PSt) :
    Except String (List Expr × PSt) :=
  match fuel with
  | 0 => .error "out of fuel"
  | fuel + 1 =>
    if p.tok.kind = .rparen then return (acc, pnext p)
    else do
      let (a, p) ← parseExpr fuel p
      let acc := acc ++ [a]
      if p.tok.kind = .comma then parseCallArgs fuel acc (pnext p)
      else do
        let (_, p) ← expectTok p .rparen
        return (acc, p)

/-- `Parser.parseBinaryRHS`. -/
def parseBinaryRHS (fuel : Nat) (minPrec : Nat) (left : Expr) (p : PSt) :
    Except String (Expr × PSt) :=
  match fuel with
  | 0 => .error "out of fuel"
  | fuel + 1 =>
    let pr := binPrec p.tok.kind
    if pr.2 = false ∨ pr.1 < minPrec then return (left, p)
    else do
      let opTok := p.tok
      let p := pnext p
      let (right, p) ← parseUnary fuel p
      let (right, p) ← parseBinClimb fuel pr.1 right p
      parseBinaryRHS fuel minPrec (Expr.binaryE opTok.kind.toString left right) p

/-- The inner higher-precedence climb of `parseBinaryRHS`. -/
def parseBinClimb (fuel : Nat) (prec : Nat) (right : Expr) (p : PSt) :
    Except String (Expr × PSt) :=
  match fuel with
  | 0 => .error "out of fuel"
  | fuel + 1 =>
    let pr := binPrec p.tok.kind
    if pr.2 = false ∨ pr.1 ≤ prec then return (right, p)
    else do
      let (right, p) ← parseBinaryRHS fuel (prec + 1) right p
      parseBinClimb fuel prec right p

end

end Parser

/- ================================================================
   build package: import resolver  (build/loader.go, ResolveAndParse)
   ================================================================ -/

namespace Build

/-- A parsed source file as the resolver sees it: its import paths and its
declarations (opaque tags; the resolver never inspects them). Parsing
always succeeds in this model — parse failures are a separate error source
not needed by the resolver claims. -/
structure DFile where
  imports : List String
  decls : List Nat
deriving Repr

/-- The file system: absolute path → parsed file. `filepath.Abs` and
symlink resolution are the identity here (no symlinks, already-absolute
paths), so Go's `same` is string equality and `mustAbs` disappears. -/
def FS := List (String × DFile)

def fsLookup (fs : FS) (p : String) : Option DFile :=
  (fs.find? (fun u => u.1 = p)).map (·.2)

/-- `"foo.bar"` ↦ `"<root>/foo/bar.desi"` (strings.ReplaceAll + Join). -/
def resolveImport (rootDir imp : String) : String :=
  rootDir ++ "/" ++ (imp.replace "." "/") ++ ".desi"

/-- The mutable pieces of `ResolveAndParse`: accumulated errors, the
`seen` set, and the post-order `result` list of loaded units. -/
structure LoadSt where
  errs : List String
  seen : List String
  result : List (String × DFile)
deriving Repr

mutual

/-- The recursive `load` closure of `ResolveAndParse` (build/loader.go).
The `stack` is the DFS path used for cycle diagnostics. The fuel only
bounds the recursion depth; `ResolveAndParse` passes enough for the stack
of distinct in-progress files never to exhaust it. -/
def loadAux (fs : FS) (rootDir : String) (fuel : Nat) (stack : List String)
    (st : LoadSt) (absPath : String) : LoadSt :=
  match fuel with
  | 0 => { st with errs := st.errs ++ ["resolver depth limit reached"] }
  | fuel + 1 =>
    if st.seen.contains absPath then st
    else if stack.contains absPath then
      { st with errs := st.errs ++ ["import cycle detected involving " ++ absPath] }
    else
      match fsLookup fs absPath with
      | none => { st with errs := st.errs ++ ["read " ++ absPath ++ ": no such file"] }
      | some f =>
        let st := loadImports fs rootDir fuel (stack ++ [absPath]) st f.imports absPath
        { st with
          result := st.result ++ [(absPath, f)],
          seen := st.seen ++ [absPath] }
termination_by (fuel, 0)

/-- The import-resolution loop inside `load`: skip `std.*`, report missing
targets, recurse into existing ones. -/
def loadImports (fs : FS) (rootDir : String) (fuel : Nat) (stack : List String)
    (st : LoadSt) (imps : List String) (fromPath : String) : LoadSt :=
  match imps with
  | [] => st
  | imp :: rest =>
    let st :=
      if imp.startsWith "std." then st
      else
        let target := resolveImport rootDir imp
        if (fsLookup fs target).isSome then loadAux fs rootDir fuel stack st target
        else
          { st with errs := st.errs ++
            ["import \"" ++ imp ++ "\" → " ++ target ++ " not found (from " ++ fromPath ++ ")"] }
    loadImports fs rootDir fuel stack st rest fromPath
termination_by (fuel, imps.length + 1)

end

/-- The merge loops at the end of `ResolveAndParse`: entry declarations
first, then every other unit's declarations in load (post-) order. -/
def mergeDecls (result : List (String × DFile)) (entryAbs : String) : List Nat :=
  (result.filter (fun u => u.1 = entryAbs)).foldl (fun acc u => acc ++ u.2.decls) [] ++
    (result.filter (fun u => ¬ u.1 = entryAbs)).foldl (fun acc u => acc ++ u.2.decls) []

/-- `ResolveAndParse` from build/loader.go: load the entry recursively;
a non-empty error list suppresses merging (`nil` merged file = `none`). -/
def ResolveAndParse (fs : FS) (rootDir entryAbs : String) : Option (List Nat) × List String :=
  let st := loadAux fs rootDir (fs.length + 1) [] ⟨[], [], []⟩ entryAbs
  if st.errs.isEmpty then (some (mergeDecls st.result entryAbs), [])
  else (none, st.errs)

/-- An import-graph edge: `p`'s file imports (non-std) resolve to the
existing file `q`. -/
def Edge (fs : FS) (rootDir : String) (p q : String) : Prop :=
  ∃ f, fsLookup fs p = some f ∧
    ∃ imp ∈ f.imports, ¬ imp.startsWith "std." ∧
      resolveImport rootDir imp = q ∧ (fsLookup fs q).isSome

/-- Reachability from the entry along import edges. -/
inductive Reach (fs : FS) (rootDir : String) : String → String → Prop where
  | refl (p : String) : Reach fs rootDir p p
  | step {p q r : String} : Reach fs rootDir p q → Edge fs rootDir q r → Reach fs rootDir p r

mutual

/-- Depth-first post-order of the import graph exactly as the
specification words it: from a file, visit each of its non-std import
targets in import order, skipping targets already emitted, then
append the file itself; each file appears once. A file counts as visited
once it has been appended (on the acyclic graphs the specification talks
about this coincides with marking at first arrival). This is the
specification-side ordering that `ResolveAndParse` is compared against. -/
def dfsPost (fs : FS) (rootDir : String) (fuel : Nat) (vis : List String)
    (p : String) : List String × List String :=
  match fuel with
  | 0 => (vis, [])
  | fuel + 1 =>
    if vis.contains p then (vis, [])
    else
      match fsLookup fs p with
      | none => (vis, [])
      | some f =>
        let r := dfsPostChildren fs rootDir fuel vis f.imports
        (r.1 ++ [p], r.2 ++ [p])
termination_by (fuel, 0)

/-- Fold `dfsPost` over a file's import list. -/
def dfsPostChildren (fs : FS) (rootDir : String) (fuel : Nat) (vis : List String)
    (imps : List String) : List String × List String :=
  match imps with
  | [] => (vis, [])
  | imp :: rest =>
    if imp.startsWith "std." then dfsPostChildren fs rootDir fuel vis rest
    else
      let target := resolveImport rootDir imp
      if (fsLookup fs target).isSome then
        let r := dfsPost fs rootDir fuel vis target
        let r2 := dfsPostChildren fs rootDir fuel r.1 rest
        (r2.1, r.2 ++ r2.2)
      else dfsPostChildren fs rootDir fuel vis rest
termination_by (fuel, imps.length + 1)

end

end Build

/- ================================================================
   Claim theorems
   ================================================================ -/

namespace Check

/-- C8: the kind unification function satisfies, for all kinds `a` and
`b`: unknown unifies with any `b` yielding `b` (and symmetrically
yielding `a`), equal kinds unify to themselves, int and bool unify to int
in either order, and every other pair fails to unify — i.e. `unifyKinds`
agrees with the specification's table `unifyKindsSpec` everywhere. -/
theorem unifyKinds_agrees_with_spec_table :
    ∀ a b : Kind,
      (let r := unifyKinds a b
       if r.2 then some r.1 else none) = unifyKindsSpec a b := by
  intro a b
  cases a <;> cases b <;> rfl

end Check

namespace Runtime

/-- C9: `desi_str_at(s, i)` returns the unsigned byte value of `s` at
index `i` (in range 0..255) when `s` is non-NULL and `0 ≤ i <` byte
length of `s`, and returns `-1` whenever `s` is NULL or `i` is out of
bounds (including negative `i`). -/
theorem desi_str_at_spec (bs : List Nat) (i : Int)
    (hbytes : ∀ b ∈ bs, b < 256) :
    desi_str_at none i = -1 ∧
    ((i < 0 ∨ (bs.length : Int) ≤ i) → desi_str_at (some bs) i = -1) ∧
    (0 ≤ i → i < (bs.length : Int) →
      desi_str_at (some bs) i = ((bs.getD i.toNat 0 : Nat) : Int) ∧
      0 ≤ desi_str_at (some bs) i ∧ desi_str_at (some bs) i ≤ 255) := by
  refine ⟨rfl, ?_, ?_⟩
  · intro h
    unfold desi_str_at
    rcases h with h | h
    · simp [h]
    · have h1 : ¬ i < 0 := by omega
      have h2 : bs.length ≤ i.toNat := by omega
      simp [h1, h2]
  · intro h0 hlen
    have h1 : ¬ i < 0 := by omega
    have h2 : ¬ bs.length ≤ i.toNat := by omega
    unfold desi_str_at
    dsimp only
    rw [if_neg h1, if_neg h2]
    have hmem : bs.getD i.toNat 0 ∈ bs := by
      have hi : i.toNat < bs.length := by omega
      rw [List.getD_eq_getElem?_getD, List.getElem?_eq_getElem hi]
      exact List.getElem_mem hi
    have hb := hbytes _ hmem
    refine ⟨rfl, ?_, ?_⟩
    · exact Int.natCast_nonneg _
    · omega

/-- Witness for C9 at a concrete string and index: `desi_str_at` on the
two-byte string `[104, 105]` at index 1 yields 105, and is `-1` at
index 2 and on NULL. -/
theorem desi_str_at_spec_witness :
    (∀ b ∈ [104, 105], b < 256) ∧
    desi_str_at none 1 = -1 ∧
    desi_str_at (some [104, 105]) 2 = -1 ∧
    desi_str_at (some [104, 105]) 1 = 105 := by
  have h := desi_str_at_spec [104, 105] 1 (by decide)
  have h2 := desi_str_at_spec [104, 105] 2 (by decide)
  refine ⟨by decide, h.1, h2.2.1 (by right; decide), ?_⟩
  have := (h.2.2 (by decide) (by decide)).1
  simpa using this

end Runtime

namespace Lexer

unseal next nextCore handleBOL countIndent skipSpacesTabs scanStringLoop skipToNL in
/-- C3, evaluated at the failing input `"ab` followed by a newline: the
lexer terminates the literal at the newline but hands the partial text
back as an ordinary STR token at the opening column — and the token model
of this lexer revision has no kind that renders as "ERR" at all, so no
`ERR "unterminated string"` token can ever be produced. -/
theorem unterminated_string_yields_str_token :
    (next (init ['"', 'a', 'b', '\n'])).1 =
      { kind := .str, lex := "\"ab", line := 1, col := 1 } ∧
    (∀ k : TokKind, k.toString = "ERR" → False) := by
  constructor
  · rfl
  · intro k
    cases k <;> decide

end Lexer

namespace Check

/-- What `kindOfExpr` leaves untouched: everything except errors (only
appended) and the `read` flags of store cells. -/
def Pres (a b : ChkSt) : Prop :=
  b.scopes = a.scopes ∧ b.store.length = a.store.length ∧
  (∀ j, (storeGet b.store j).kind = (storeGet a.store j).kind ∧
        (storeGet b.store j).mutable = (storeGet a.store j).mutable ∧
        (storeGet b.store j).declName = (storeGet a.store j).declName ∧
        (storeGet b.store j).written = (storeGet a.store j).written) ∧
  b.warnings = a.warnings ∧ b.blockReturned = a.blockReturned ∧
  b.locals = a.locals ∧ b.fnSig = a.fnSig ∧ b.info = a.info ∧
  ∃ es, b.errors = a.errors ++ es

theorem Pres.presRefl (a : ChkSt) : Pres a a :=
  ⟨rfl, rfl, fun _ => ⟨rfl, rfl, rfl, rfl⟩, rfl, rfl, rfl, rfl, rfl, [], by simp⟩

theorem Pres.presTrans {a b c : ChkSt} (h1 : Pres a b) (h2 : Pres b c) : Pres a c := by
  obtain ⟨s1, l1, f1, w1, b1, lo1, g1, i1, es1, e1⟩ := h1
  obtain ⟨s2, l2, f2, w2, b2, lo2, g2, i2, es2, e2⟩ := h2
  refine ⟨s2.trans s1, l2.trans l1, ?_, w2.trans w1, b2.trans b1, lo2.trans lo1,
    g2.trans g1, i2.trans i1, es1 ++ es2, ?_⟩
  · intro j
    obtain ⟨k1, m1, d1, wr1⟩ := f1 j
    obtain ⟨k2, m2, d2, wr2⟩ := f2 j
    exact ⟨k2.trans k1, m2.trans m1, d2.trans d1, wr2.trans wr1⟩
  · rw [e2, e1, List.append_assoc]

theorem Pres.presAddErr {a b : ChkSt} (h : Pres a b) (m : String) : Pres a (addErr b m) := by
  refine Pres.presTrans h ?_
  obtain ⟨-, -, -, -, -, -, -, -, -, -⟩ := h
  exact ⟨rfl, rfl, fun _ => ⟨rfl, rfl, rfl, rfl⟩, rfl, rfl, rfl, rfl, rfl, [m], rfl⟩

theorem storeGet_set_self {store : List VarInfo} {i : Nat} {v : VarInfo} (h : i < store.length) :
    storeGet (store.set i v) i = v := by
  simp [storeGet, List.getD_eq_getElem?_getD, List.getElem?_set_self, h]

theorem storeGet_set_ne {store : List VarInfo} {i j : Nat} {v : VarInfo} (h : i ≠ j) :
    storeGet (store.set i v) j = storeGet store j := by
  unfold storeGet
  rw [List.getD_eq_getElem?_getD, List.getD_eq_getElem?_getD, List.getElem?_set_ne h]

/-- Marking a cell read (the ident case of `kindOfExpr`) is a `Pres`
step. -/
theorem Pres.markRead {a b : ChkSt} (h : Pres a b) (idx : Nat) :
    Pres a (setCell b idx { storeGet b.store idx with read := true }) := by
  refine Pres.presTrans h ?_
  by_cases hlt : idx < b.store.length
  · refine ⟨rfl, by simp [setCell], ?_, rfl, rfl, rfl, rfl, rfl, [], by simp [setCell]⟩
    intro j
    by_cases hj : idx = j
    · subst hj
      rw [show (setCell b idx { storeGet b.store idx with read := true }).store =
        b.store.set idx { storeGet b.store idx with read := true } from rfl]
      rw [storeGet_set_self hlt]
      exact ⟨rfl, rfl, rfl, rfl⟩
    · rw [show (setCell b idx { storeGet b.store idx with read := true }).store =
        b.store.set idx { storeGet b.store idx with read := true } from rfl]
      rw [storeGet_set_ne hj]
      exact ⟨rfl, rfl, rfl, rfl⟩
  · have : b.store.set idx { storeGet b.store idx with read := true } = b.store := by
      apply List.set_eq_of_length_le
      omega
    refine ⟨rfl, by simp [setCell, this], ?_, rfl, rfl, rfl, rfl, rfl, [], by simp [setCell]⟩
    intro j
    rw [show (setCell b idx { storeGet b.store idx with read := true }).store =
      b.store.set idx { storeGet b.store idx with read := true } from rfl, this]
    exact ⟨rfl, rfl, rfl, rfl⟩

end Check

namespace Check

open Ast

set_option maxHeartbeats 2000000 in
theorem kindOfExpr_pres_all : ∀ (n : Nat),
    (∀ (e : Expr) (st : ChkSt), sizeOf e ≤ n → Pres st (kindOfExpr st e).2) ∧
    (∀ (args : List Expr) (st : ChkSt) (i : Nat), sizeOf args ≤ n →
      Pres st (printlnArgs st args i)) ∧
    (∀ (params : List Kind) (args : List Expr) (st : ChkSt) (f : String) (i : Nat),
      sizeOf args ≤ n → Pres st (userCallArgs st f params args i)) := by
  intro n
  induction n using Nat.strong_induction_on with
  | _ n IH =>
  have KE : ∀ (x : Expr), sizeOf x < n → ∀ st, Pres st (kindOfExpr st x).2 :=
    fun x hx st => ((IH _ hx).1 x st (le_refl _))
  have KP : ∀ (args : List Expr), sizeOf args < n → ∀ st i, Pres st (printlnArgs st args i) :=
    fun a ha st i => ((IH _ ha).2.1 a st i (le_refl _))
  have KU : ∀ (params : List Kind) (args : List Expr), sizeOf args < n → ∀ st f i,
      Pres st (userCallArgs st f params args i) :=
    fun p a ha st f i => ((IH _ ha).2.2 p a st f i (le_refl _))
  refine ⟨?_, ?_, ?_⟩
  · -- kindOfExpr
    intro e st hn
    match e with
    | .intLit v => exact Pres.presRefl st
    | .strLit v => exact Pres.presRefl st
    | .boolLit v => exact Pres.presRefl st
    | .identE name =>
      rw [kindOfExpr.eq_def]
      dsimp only
      rcases hl : lookupVar st name with - | idx
      · rcases hf : (funcsLookup st.info name).isSome with - | -
        · simp only [hf, Bool.false_eq_true, if_false]
          exact (Pres.presRefl st).presAddErr _
        · simp only [hf, if_true]
          exact Pres.presRefl st
      · exact (Pres.presRefl st).markRead idx
    | .unaryE op x =>
      have hx : sizeOf x < n := by simp at hn; omega
      rw [kindOfExpr.eq_def]
      dsimp only
      split
      · split
        · exact KE x hx st
        · exact KE x hx st
      · exact KE x hx st
    | .binaryE op l r =>
      have hl : sizeOf l < n := by simp at hn; omega
      have hr : sizeOf r < n := by simp at hn; omega
      rw [kindOfExpr.eq_def]
      dsimp only
      have p1 := KE l hl st
      have p2 := p1.presTrans (KE r hr (kindOfExpr st l).2)
      split
      · split
        · exact p2
        · split
          · exact p2
          · exact p2
      · split
        · split
          · exact p2
          · exact p2
        · split
          · exact p2
          · exact p2
    | .fieldE x name => exact Pres.presRefl st
    | .indexE a b => exact Pres.presRefl st
    | .callE callee args =>
      have hargs : sizeOf args < n := by simp at hn; omega
      have hone : ∀ a rest, args = a :: rest → sizeOf a < n := by
        intro a rest he
        subst he
        simp at hn
        omega
      have htwo : ∀ a b rest, args = a :: b :: rest → sizeOf b < n := by
        intro a b rest he
        subst he
        simp at hn
        omega
      rw [kindOfExpr.eq_def]
      dsimp only
      split
      · -- io.println
        exact KP args hargs st 1
      · -- fs.read_all
        split
        next a =>
          have ha := hone a [] rfl
          split
          · exact (KE a ha st).presAddErr _
          · exact KE a ha st
        next => exact (Pres.presRefl st).presAddErr _
      · -- os.exit
        split
        next a =>
          have ha := hone a [] rfl
          split
          · exact (KE a ha st).presAddErr _
          · exact KE a ha st
        next => exact (Pres.presRefl st).presAddErr _
      · -- mem.free
        split
        next a =>
          have ha := hone a [] rfl
          split
          · exact (KE a ha st).presAddErr _
          · exact KE a ha st
        next => exact (Pres.presRefl st).presAddErr _
      · -- str.len
        split
        next a =>
          have ha := hone a [] rfl
          split
          · exact (KE a ha st).presAddErr _
          · exact KE a ha st
        next => exact (Pres.presRefl st).presAddErr _
      · -- str.at
        split
        next a b =>
          have ha := hone a (b :: []) rfl
          have hb := htwo a b [] rfl
          have p1 : Pres st (kindOfExpr st a).2 := KE a ha st
          have p1' : ∀ s1, Pres st s1 → Pres st (kindOfExpr s1 b).2 → True := fun _ _ _ => trivial
          split
          · have q1 := p1.presAddErr ("str.at: first arg must be str, got " ++
              ((kindOfExpr st a).1).toString)
            have q2 := q1.presTrans (KE b hb _)
            split
            · exact q2.presAddErr _
            · exact q2
          · have q2 := p1.presTrans (KE b hb _)
            split
            · exact q2.presAddErr _
            · exact q2
        next => exact (Pres.presRefl st).presAddErr _
      · -- str.from_code
        split
        next a =>
          have ha := hone a [] rfl
          split
          · exact (KE a ha st).presAddErr _
          · exact KE a ha st
        next => exact (Pres.presRefl st).presAddErr _
      · -- user call on ident callee
        rcases hf : funcsLookup st.info _ with - | sig
        · exact (Pres.presRefl st).presAddErr _
        · dsimp only
          split
          · exact ((Pres.presRefl st).presAddErr _).presTrans (KU sig.params args hargs _ _ 1)
          · exact (Pres.presRefl st).presTrans (KU sig.params args hargs _ _ 1)
      · -- any other callee shape
        exact Pres.presRefl st
  · -- printlnArgs
    intro args st i hn
    match args with
    | [] => exact Pres.presRefl st
    | a :: rest =>
      have ha : sizeOf a < n := by simp at hn; omega
      have hrest : sizeOf rest < n := by simp at hn; omega
      rw [printlnArgs.eq_def]
      dsimp only
      have p1 := KE a ha st
      split
      · exact p1.presTrans (KP rest hrest _ (i + 1))
      · exact p1.presTrans (KP rest hrest _ (i + 1))
      · exact p1.presTrans (KP rest hrest _ (i + 1))
      · exact (p1.presAddErr _).presTrans (KP rest hrest _ (i + 1))
      · exact (p1.presAddErr _).presTrans (KP rest hrest _ (i + 1))
  · -- userCallArgs
    intro params args st f i hn
    match params, args with
    | [], rest =>
      rw [userCallArgs.eq_def]
      rcases rest with - | ⟨b, bs⟩ <;> exact Pres.presRefl st
    | pk :: ps, [] => exact Pres.presRefl st
    | pk :: ps, a :: rest =>
      have ha : sizeOf a < n := by simp at hn; omega
      have hrest : sizeOf rest < n := by simp at hn; omega
      rw [userCallArgs.eq_def]
      dsimp only
      have p1 := KE a ha st
      split
      · exact p1.presTrans (KU ps rest hrest _ f (i + 1))
      · exact (p1.presAddErr _).presTrans (KU ps rest hrest _ f (i + 1))

/-- `kindOfExpr` only appends errors and marks `read` flags. -/
theorem kindOfExpr_pres (e : Expr) (st : ChkSt) : Pres st (kindOfExpr st e).2 :=
  ((kindOfExpr_pres_all (sizeOf e)).1 e st (le_refl _))

end Check

namespace Check

open Ast

/-- C7: for an assignment whose target name resolves to an immutable
variable, the checker emits `cannot assign to immutable variable "<name>"`
and skips the per-name update: no kind unification result is stored and
the variable's recorded kind and written flag are exactly as before (the
right-hand side is still evaluated, which can only mark `read` flags and
append its own errors). -/
theorem checkAssign_immutable_skips (st : ChkSt) (nm : String) (e : Expr) (idx : Nat)
    (hlook : lookupVar st nm = some idx)
    (himm : (storeGet st.store idx).mutable = false) :
    ("cannot assign to immutable variable " ++ q nm) ∈ (checkAssign st [nm] [e]).errors ∧
    (∀ j, (storeGet (checkAssign st [nm] [e]).store j).kind = (storeGet st.store j).kind ∧
          (storeGet (checkAssign st [nm] [e]).store j).written = (storeGet st.store j).written) := by
  obtain ⟨hs, hl, hf, hw, hb, hlo, hg, hi, es, he⟩ := kindOfExpr_pres e st
  have hlook2 : lookupVar (kindOfExpr st e).2 nm = some idx := by
    unfold lookupVar
    rw [hs]
    exact hlook
  have himm2 : (storeGet (kindOfExpr st e).2.store idx).mutable = false := by
    rw [(hf idx).2.1]
    exact himm
  have hred : checkAssign st [nm] [e] =
      addErr (kindOfExpr st e).2 ("cannot assign to immutable variable " ++ q nm) := by
    unfold checkAssign
    simp only [List.length_singleton, ne_eq, not_true_eq_false, ite_false, if_false]
    unfold assignPairs
    dsimp only
    rw [hlook2]
    dsimp only
    rw [himm2]
    simp [assignPairs]
  rw [hred]
  refine ⟨?_, ?_⟩
  · show _ ∈ (kindOfExpr st e).2.errors ++ _
    exact List.mem_append_right _ (List.mem_singleton.mpr rfl)
  · intro j
    show ((storeGet (kindOfExpr st e).2.store j).kind = _) ∧
      ((storeGet (kindOfExpr st e).2.store j).written = _)
    exact ⟨(hf j).1, (hf j).2.2.2⟩

/-- Witness for C7 at the state reached in §8 scenario 4 just before
`x := 2` (inside `def f() -> int:` after `let x = 1`): `x` is bound
immutable with kind int, and the assignment produces the error while
leaving the cell's kind and written flag untouched. -/
theorem checkAssign_immutable_skips_witness :
    (let st : ChkSt :=
      { info := ⟨[("f", ⟨"f", [], .int⟩)]⟩, fnSig := ⟨"f", [], .int⟩,
        store := [⟨.int, false, "x", false, true⟩], scopes := [[("x", 0)]],
        errors := [], warnings := [], locals := [0], blockReturned := [false] }
     lookupVar st "x" = some 0 ∧
     (storeGet st.store 0).mutable = false ∧
     ("cannot assign to immutable variable " ++ q "x") ∈
       (checkAssign st ["x"] [.intLit "2"]).errors ∧
     (storeGet (checkAssign st ["x"] [.intLit "2"]).store 0).kind = .int ∧
     (storeGet (checkAssign st ["x"] [.intLit "2"]).store 0).written = true) := by
  have H := checkAssign_immutable_skips
    { info := ⟨[("f", ⟨"f", [], .int⟩)]⟩, fnSig := ⟨"f", [], .int⟩,
        store := [⟨.int, false, "x", false, true⟩], scopes := [[("x", 0)]],
        errors := [], warnings := [], locals := [0], blockReturned := [false] }
    "x" (.intLit "2") 0 rfl rfl
  exact ⟨rfl, rfl, H.1, (H.2 0).1, (H.2 0).2⟩

end Check


namespace Check

open Ast

/-- States that agree on warnings and the block-returned stack (what the
expression checker and the let/assign statement bodies leave alone). -/
def Quiet (a b : ChkSt) : Prop :=
  b.warnings = a.warnings ∧ b.blockReturned = a.blockReturned

theorem Quiet.quietRefl (a : ChkSt) : Quiet a a := ⟨rfl, rfl⟩

theorem Quiet.quietTrans {a b c : ChkSt} (h1 : Quiet a b) (h2 : Quiet b c) : Quiet a c :=
  ⟨h2.1.trans h1.1, h2.2.trans h1.2⟩

theorem Quiet.quietAddErr {a b : ChkSt} (h : Quiet a b) (m : String) : Quiet a (addErr b m) := h

theorem Quiet.setCell {a b : ChkSt} (h : Quiet a b) (i : Nat) (v : VarInfo) :
    Quiet a (setCell b i v) := h

theorem Quiet.kindOfExpr {a b : ChkSt} (h : Quiet a b) (e : Expr) :
    Quiet a (Check.kindOfExpr b e).2 := by
  obtain ⟨-, -, -, hw, hb, -, -, -, -, -⟩ := kindOfExpr_pres e b
  exact h.quietTrans ⟨hw, hb⟩

theorem Quiet.defineVar {a b : ChkSt} (h : Quiet a b) (nm : String) (v : VarInfo) :
    Quiet a (Check.defineVar b nm v).1 := by
  refine h.quietTrans ?_
  unfold Check.defineVar
  rcases hs : b.scopes with - | ⟨f, rest⟩
  · exact ⟨rfl, rfl⟩
  · dsimp only
    split <;> exact ⟨rfl, rfl⟩

theorem letPairs_quiet : ∀ (binds : List LetBind) (values : List Expr) (st : ChkSt) (m : Bool),
    Quiet st (letPairs st m binds values) := by
  intro binds
  induction binds with
  | nil =>
    intro values st m
    rw [letPairs.eq_def]
    exact Quiet.quietRefl st
  | cons bd bs ih =>
    intro values st m
    rcases values with - | ⟨val, vs⟩
    · rw [letPairs.eq_def]
      exact Quiet.quietRefl st
    · rw [letPairs.eq_def]
      dsimp only
      have step : ∀ st2 : ChkSt, Quiet st st2 → Quiet st (letPairs st2 m bs vs) :=
        fun st2 h => h.quietTrans (ih vs st2 m)
      apply step
      have q1 : Quiet st (Check.kindOfExpr st val).2 := (Quiet.quietRefl st).kindOfExpr val
      repeat' split
      all_goals first
        | exact ((q1.defineVar _ _).quietAddErr _)
        | exact (((q1.quietAddErr _).defineVar _ _).quietAddErr _)
        | exact (q1.defineVar _ _)
        | exact ((q1.quietAddErr _).defineVar _ _)

theorem checkLet_quiet (st : ChkSt) (m : Bool) (binds : List LetBind) (g : String)
    (values : List Expr) : Quiet st (checkLet st m binds g values) := by
  unfold checkLet
  dsimp only
  split
  · exact ((Quiet.quietRefl st).quietAddErr _).quietTrans (letPairs_quiet binds values _ m)
  · exact letPairs_quiet binds values st m

theorem assignPairs_quiet : ∀ (names : List String) (exprs : List Expr) (st : ChkSt),
    Quiet st (assignPairs st names exprs) := by
  intro names
  induction names with
  | nil =>
    intro exprs st
    rw [assignPairs.eq_def]
    exact Quiet.quietRefl st
  | cons nm ns ih =>
    intro exprs st
    rcases exprs with - | ⟨e, es⟩
    · rw [assignPairs.eq_def]
      exact Quiet.quietRefl st
    · rw [assignPairs.eq_def]
      dsimp only
      have step : ∀ st2 : ChkSt, Quiet st st2 → Quiet st (assignPairs st2 ns es) :=
        fun st2 h => h.quietTrans (ih es st2)
      apply step
      have q1 : Quiet st (Check.kindOfExpr st e).2 := (Quiet.quietRefl st).kindOfExpr e
      repeat' split
      all_goals first
        | exact (q1.quietAddErr _)
        | exact ((q1.quietAddErr _).setCell _ _)
        | exact ((q1.setCell _ _).setCell _ _)
        | exact (q1.setCell _ _)
        | exact q1

theorem checkAssign_quiet (st : ChkSt) (names : List String) (exprs : List Expr) :
    Quiet st (checkAssign st names exprs) := by
  unfold checkAssign
  dsimp only
  split
  · exact ((Quiet.quietRefl st).quietAddErr _).quietTrans (assignPairs_quiet names exprs _)
  · exact assignPairs_quiet names exprs st

end Check


namespace Check

open Ast

/-- Marking the top of the block-returned stack (`setTopTrue` at the list
level). -/
def markTop : List Bool → List Bool
  | [] => []
  | _ :: t => true :: t

/-- Net effect of one checked statement on the block-returned stack: only
a return statement marks the enclosing block returned. -/
def brUpdate (s : Stmt) (br : List Bool) : List Bool :=
  if s.isRet then markTop br else br

/-- Net effect of a checked statement list on the block-returned stack. -/
def foldBR (l : List Stmt) (br : List Bool) : List Bool :=
  l.foldl (fun b s => brUpdate s b) br

theorem brUpdate_cons (s : Stmt) (b : Bool) (t : List Bool) :
    brUpdate s (b :: t) = (b || s.isRet) :: t := by
  unfold brUpdate markTop
  rcases h : s.isRet with - | - <;> simp [h]

theorem foldBR_cons : ∀ (l : List Stmt) (b : Bool) (t : List Bool),
    foldBR l (b :: t) = (b || l.any Stmt.isRet) :: t := by
  intro l
  induction l with
  | nil => intro b t; simp [foldBR]
  | cons s rest ih =>
    intro b t
    show foldBR rest (brUpdate s (b :: t)) = _
    rw [brUpdate_cons, ih]
    simp [Bool.or_assoc]

/-- `b.warnings` extends `a.warnings` by `W0004` warnings only (what the
statement walker may add beyond the function-level warnings). -/
def W4 (a b : ChkSt) : Prop :=
  ∃ ws, b.warnings = a.warnings ++ ws ∧ ∀ w ∈ ws, w.code = "W0004"

theorem W4.w4Refl (a : ChkSt) : W4 a a := ⟨[], by simp, by simp⟩

theorem W4.w4Trans {a b c : ChkSt} (h1 : W4 a b) (h2 : W4 b c) : W4 a c := by
  obtain ⟨ws1, e1, f1⟩ := h1
  obtain ⟨ws2, e2, f2⟩ := h2
  refine ⟨ws1 ++ ws2, ?_, ?_⟩
  · rw [e2, e1, List.append_assoc]
  · intro w hw
    rcases List.mem_append.mp hw with h | h
    · exact f1 w h
    · exact f2 w h

theorem W4.of_quiet {a b : ChkSt} (h : Quiet a b) : W4 a b := ⟨[], by simp [h.1], by simp⟩

theorem W4.of_weq {a b : ChkSt} (h : b.warnings = a.warnings) : W4 a b :=
  ⟨[], by simp [h], by simp⟩

theorem W4.addW {a b : ChkSt} (h : W4 a b) (m : String) :
    W4 a (addWarn b ⟨"W0004", m⟩) := by
  obtain ⟨ws, e1, f1⟩ := h
  refine ⟨ws ++ [⟨"W0004", m⟩], ?_, ?_⟩
  · show (addWarn b _).warnings = _
    unfold addWarn
    rw [e1, List.append_assoc]
  · intro w hw
    rcases List.mem_append.mp hw with h | h
    · exact f1 w h
    · simp at h
      rw [h]

theorem setTopTrue_spec (b : ChkSt) :
    (setTopTrue b).blockReturned = markTop b.blockReturned ∧
    (setTopTrue b).warnings = b.warnings := by
  unfold setTopTrue markTop
  rcases h : b.blockReturned with - | ⟨x, t⟩ <;> simp [h]

set_option maxHeartbeats 2000000 in
theorem checkStmt_spec_all : ∀ (n : Nat),
    (∀ (s : Stmt) (st : ChkSt), sizeOf s ≤ n →
      (checkStmt st s).blockReturned = brUpdate s st.blockReturned ∧ W4 st (checkStmt st s)) := by
  intro n
  induction n using Nat.strong_induction_on with
  | _ n IH =>
  have KS : ∀ (s : Stmt), sizeOf s < n → ∀ st,
      (checkStmt st s).blockReturned = brUpdate s st.blockReturned ∧ W4 st (checkStmt st s) :=
    fun s hs st => IH _ hs s st (le_refl _)
  -- statement lists, by local induction (each member is smaller than n)
  have P2 : ∀ (l : List Stmt), sizeOf l ≤ n + 1 → ∀ st,
      (checkStmts st l).blockReturned = foldBR l st.blockReturned ∧ W4 st (checkStmts st l) := by
    intro l
    induction l with
    | nil =>
      intro h st
      rw [checkStmts.eq_def]
      exact ⟨rfl, W4.w4Refl st⟩
    | cons hd rest ihl =>
      intro h st
      have hpos : 0 < sizeOf rest := by cases rest <;> simp_arith
      have hhd : sizeOf hd < n := by simp at h; omega
      have hrest : sizeOf rest ≤ n + 1 := by simp at h; omega
      rw [checkStmts.eq_def]
      dsimp only
      obtain ⟨b1, w1⟩ := KS hd hhd st
      obtain ⟨b2, w2⟩ := ihl hrest (checkStmt st hd)
      refine ⟨?_, w1.w4Trans w2⟩
      rw [b2, b1]
      rfl
  -- withBlock, from the list part
  have P4 : ∀ (l : List Stmt), sizeOf l ≤ n + 1 → ∀ st,
      (withBlockStmts st l).blockReturned = st.blockReturned ∧ W4 st (withBlockStmts st l) := by
    intro l hl st
    rw [withBlockStmts.eq_def]
    dsimp only
    set st1 : ChkSt :=
      { st with blockReturned := false :: st.blockReturned, scopes := [] :: st.scopes } with hst1
    obtain ⟨b2, w2⟩ := P2 l hl st1
    constructor
    · show (checkStmts st1 l).blockReturned.tail = _
      rw [b2]
      rw [show st1.blockReturned = false :: st.blockReturned from rfl]
      rw [foldBR_cons]
      rfl
    · show W4 st { checkStmts st1 l with
        blockReturned := (checkStmts st1 l).blockReturned.tail,
        scopes := (checkStmts st1 l).scopes.tail }
      obtain ⟨ws, e1, f1⟩ := w2
      exact ⟨ws, e1, f1⟩
  -- elif chains, by local induction
  have P3 : ∀ (el : List (Expr × List Stmt)), sizeOf el ≤ n + 1 → ∀ st,
      (checkElifs st el).blockReturned = st.blockReturned ∧ W4 st (checkElifs st el) := by
    intro el
    induction el with
    | nil =>
      intro h st
      rw [checkElifs.eq_def]
      exact ⟨rfl, W4.w4Refl st⟩
    | cons pr rest ihl =>
      intro h st
      rcases pr with ⟨cond, bdy⟩
      have hbdy : sizeOf bdy ≤ n + 1 := by simp at h; omega
      have hrest : sizeOf rest ≤ n + 1 := by simp at h; omega
      rw [checkElifs.eq_def]
      dsimp only
      have qc : Quiet st (if ((kindOfExpr st cond).1 ≠ Kind.bool ∧ (kindOfExpr st cond).1 ≠ Kind.int ∧
          (kindOfExpr st cond).1 ≠ Kind.unknown) then
          addErr (kindOfExpr st cond).2 ("elif-condition must be bool/int, got " ++
            ((kindOfExpr st cond).1).toString)
        else (kindOfExpr st cond).2) := by
        split
        · exact ((Quiet.quietRefl st).kindOfExpr cond).quietAddErr _
        · exact (Quiet.quietRefl st).kindOfExpr cond
      set stB := (if ((kindOfExpr st cond).1 ≠ Kind.bool ∧ (kindOfExpr st cond).1 ≠ Kind.int ∧
          (kindOfExpr st cond).1 ≠ Kind.unknown) then
          addErr (kindOfExpr st cond).2 ("elif-condition must be bool/int, got " ++
            ((kindOfExpr st cond).1).toString)
        else (kindOfExpr st cond).2) with hstB
      obtain ⟨b4, w4⟩ := P4 bdy hbdy stB
      obtain ⟨b3, w3⟩ := ihl hrest (withBlockStmts stB bdy)
      refine ⟨?_, ((W4.of_quiet qc).w4Trans w4).w4Trans w3⟩
      rw [b3, b4, qc.2]
  -- single statements
  intro s st hn
  match s with
  | .letS m binds g values =>
    rw [checkStmt.eq_def]
    dsimp only
    constructor
    · show (checkLet _ m binds g values).blockReturned = brUpdate (.letS m binds g values) _
      rw [brUpdate, show (Stmt.letS m binds g values).isRet = false from rfl]
      simp only [Bool.false_eq_true, if_false]
      split
      · exact (checkLet_quiet _ m binds g values).2
      · exact (checkLet_quiet _ m binds g values).2
    · split
      · exact ((W4.w4Refl st).addW _).w4Trans (W4.of_quiet (checkLet_quiet _ m binds g values))
      · exact W4.of_quiet (checkLet_quiet _ m binds g values)
  | .assignS names exprs =>
    rw [checkStmt.eq_def]
    dsimp only
    constructor
    · rw [brUpdate, show (Stmt.assignS names exprs).isRet = false from rfl]
      simp only [Bool.false_eq_true, if_false]
      split
      · exact (checkAssign_quiet _ names exprs).2
      · exact (checkAssign_quiet _ names exprs).2
    · split
      · exact ((W4.w4Refl st).addW _).w4Trans (W4.of_quiet (checkAssign_quiet _ names exprs))
      · exact W4.of_quiet (checkAssign_quiet _ names exprs)
  | .exprS e =>
    rw [checkStmt.eq_def]
    dsimp only
    constructor
    · rw [brUpdate, show (Stmt.exprS e).isRet = false from rfl]
      simp only [Bool.false_eq_true, if_false]
      split
      · exact ((Quiet.quietRefl _).kindOfExpr e).2
      · exact ((Quiet.quietRefl _).kindOfExpr e).2
    · split
      · exact ((W4.w4Refl st).addW _).w4Trans (W4.of_quiet ((Quiet.quietRefl _).kindOfExpr e))
      · exact W4.of_quiet ((Quiet.quietRefl _).kindOfExpr e)
  | .deferS call =>
    rw [checkStmt.eq_def]
    dsimp only
    have q0 : ∀ stH : ChkSt, Quiet stH (if stH.blockReturned.length > 1 then
        addErr stH "defer is only allowed at function top-level in Stage-0" else stH) := by
      intro stH
      split
      · exact (Quiet.quietRefl stH).quietAddErr _
      · exact Quiet.quietRefl stH
    constructor
    · rw [brUpdate, show (Stmt.deferS call).isRet = false from rfl]
      simp only [Bool.false_eq_true, if_false]
      split
      all_goals split
      all_goals first
        | exact ((q0 _).kindOfExpr _).2
        | exact (((q0 _).quietAddErr _).kindOfExpr _).2
    · split
      all_goals split
      all_goals first
        | exact ((W4.w4Refl st).addW _).w4Trans (W4.of_quiet ((q0 _).kindOfExpr _))
        | exact ((W4.w4Refl st).addW _).w4Trans (W4.of_quiet (((q0 _).quietAddErr _).kindOfExpr _))
        | exact W4.of_quiet ((q0 _).kindOfExpr _)
        | exact W4.of_quiet (((q0 _).quietAddErr _).kindOfExpr _)
  | .returnS oe =>
    rw [checkStmt.eq_def]
    dsimp only
    have hbr : ∀ (b stH : ChkSt), Quiet stH b → stH.blockReturned = st.blockReturned →
        (setTopTrue b).blockReturned = markTop st.blockReturned ∧
        (setTopTrue b).warnings = stH.warnings := by
      intro b stH qb hH
      obtain ⟨s1, s2⟩ := setTopTrue_spec b
      exact ⟨by rw [s1, qb.2, hH], by rw [s2, qb.1]⟩
    rcases oe with - | e
    · dsimp only
      have qret : ∀ stH : ChkSt, Quiet stH (if stH.fnSig.ret ≠ Kind.void then
          addErr stH ("missing return value; function returns " ++ stH.fnSig.ret.toString)
        else stH) := by
        intro stH
        split
        · exact (Quiet.quietRefl stH).quietAddErr _
        · exact Quiet.quietRefl stH
      constructor
      · rw [brUpdate, show (Stmt.returnS none).isRet = true from rfl]
        simp only [if_true]
        by_cases htb : topBR st = some true
        · rw [if_pos htb]
          exact (hbr _ (addWarn st ⟨"W0004", "unreachable code: statement after return"⟩) (qret _) rfl).1
        · rw [if_neg htb]
          exact (hbr _ st (qret _) rfl).1
      · by_cases htb : topBR st = some true
        · rw [if_pos htb]
          exact ((W4.w4Refl st).addW _).w4Trans (W4.of_weq (hbr _ (addWarn st ⟨"W0004", "unreachable code: statement after return"⟩) (qret _) rfl).2)
        · rw [if_neg htb]
          exact W4.of_weq (hbr _ st (qret _) rfl).2
    · dsimp only
      have qv : ∀ stH : ChkSt, Quiet stH (addErr (kindOfExpr stH e).2
          "return value in function returning void") :=
        fun stH => ((Quiet.quietRefl stH).kindOfExpr e).quietAddErr _
      have qnv : ∀ stH : ChkSt, Quiet stH (if ¬ (unifyKinds (kindOfExpr stH e).2.fnSig.ret
            (kindOfExpr stH e).1).2 then
          addErr (kindOfExpr stH e).2 ("return kind mismatch: have " ++
            (kindOfExpr stH e).2.fnSig.ret.toString ++ ", got " ++
            ((kindOfExpr stH e).1).toString)
        else (kindOfExpr stH e).2) := by
        intro stH
        split
        · exact ((Quiet.quietRefl stH).kindOfExpr e).quietAddErr _
        · exact (Quiet.quietRefl stH).kindOfExpr e
      constructor
      · rw [brUpdate, show (Stmt.returnS (some e)).isRet = true from rfl]
        simp only [if_true]
        by_cases htb : topBR st = some true
        · rw [if_pos htb]
          split
          · exact (hbr _ (addWarn st ⟨"W0004", "unreachable code: statement after return"⟩) (qv _) rfl).1
          · exact (hbr _ (addWarn st ⟨"W0004", "unreachable code: statement after return"⟩) (qnv _) rfl).1
        · rw [if_neg htb]
          split
          · exact (hbr _ st (qv _) rfl).1
          · exact (hbr _ st (qnv _) rfl).1
      · by_cases htb : topBR st = some true
        · rw [if_pos htb]
          refine ((W4.w4Refl st).addW "unreachable code: statement after return").w4Trans ?_
          split
          · exact W4.of_weq (hbr _ (addWarn st ⟨"W0004", "unreachable code: statement after return"⟩) (qv _) rfl).2
          · exact W4.of_weq (hbr _ (addWarn st ⟨"W0004", "unreachable code: statement after return"⟩) (qnv _) rfl).2
        · rw [if_neg htb]
          split
          · exact W4.of_weq (hbr _ st (qv _) rfl).2
          · exact W4.of_weq (hbr _ st (qnv _) rfl).2
  | .ifS cond thenB elifs elseB =>
    have hthen : sizeOf thenB ≤ n + 1 := by simp at hn; omega
    have helifs : sizeOf elifs ≤ n + 1 := by simp at hn; omega
    rw [checkStmt.eq_def]
    dsimp only
    have qc : ∀ stH : ChkSt, Quiet stH (if ((kindOfExpr stH cond).1 ≠ Kind.bool ∧
        (kindOfExpr stH cond).1 ≠ Kind.int ∧ (kindOfExpr stH cond).1 ≠ Kind.unknown) then
        addErr (kindOfExpr stH cond).2 ("if-condition must be bool/int, got " ++
          ((kindOfExpr stH cond).1).toString)
      else (kindOfExpr stH cond).2) := by
      intro stH
      split
      · exact ((Quiet.quietRefl stH).kindOfExpr cond).quietAddErr _
      · exact (Quiet.quietRefl stH).kindOfExpr cond
    have hcore : ∀ stH stB : ChkSt, Quiet stH stB →
        (checkElifs (withBlockStmts stB thenB) elifs).blockReturned = stH.blockReturned ∧
        W4 stH (checkElifs (withBlockStmts stB thenB) elifs) := by
      intro stH stB q
      obtain ⟨b4, w4⟩ := P4 thenB hthen stB
      obtain ⟨b3, w3⟩ := P3 elifs helifs (withBlockStmts stB thenB)
      exact ⟨by rw [b3, b4, q.2], ((W4.of_quiet q).w4Trans w4).w4Trans w3⟩
    rcases elseB with - | els
    · dsimp only
      constructor
      · rw [brUpdate, show (Stmt.ifS cond thenB elifs none).isRet = false from rfl]
        simp only [Bool.false_eq_true, if_false]
        by_cases htb : topBR st = some true
        · rw [if_pos htb]
          exact (hcore _ _ (qc _)).1
        · rw [if_neg htb]
          exact (hcore _ _ (qc _)).1
      · by_cases htb : topBR st = some true
        · rw [if_pos htb]
          exact ((W4.w4Refl st).addW _).w4Trans (hcore _ _ (qc _)).2
        · rw [if_neg htb]
          exact (hcore _ _ (qc _)).2
    · dsimp only
      have hels : sizeOf els ≤ n + 1 := by simp at hn; omega
      have hcore2 : ∀ stH stB : ChkSt, Quiet stH stB →
          (withBlockStmts (checkElifs (withBlockStmts stB thenB) elifs) els).blockReturned =
            stH.blockReturned ∧
          W4 stH (withBlockStmts (checkElifs (withBlockStmts stB thenB) elifs) els) := by
        intro stH stB q
        obtain ⟨bc, wc⟩ := hcore stH stB q
        obtain ⟨b5, w5⟩ := P4 els hels (checkElifs (withBlockStmts stB thenB) elifs)
        exact ⟨by rw [b5, bc], wc.w4Trans w5⟩
      constructor
      · rw [brUpdate, show (Stmt.ifS cond thenB elifs (some els)).isRet = false from rfl]
        simp only [Bool.false_eq_true, if_false]
        by_cases htb : topBR st = some true
        · rw [if_pos htb]
          exact (hcore2 _ _ (qc _)).1
        · rw [if_neg htb]
          exact (hcore2 _ _ (qc _)).1
      · by_cases htb : topBR st = some true
        · rw [if_pos htb]
          exact ((W4.w4Refl st).addW _).w4Trans (hcore2 _ _ (qc _)).2
        · rw [if_neg htb]
          exact (hcore2 _ _ (qc _)).2
  | .whileS cond bdy =>
    have hbdy : sizeOf bdy ≤ n + 1 := by simp at hn; omega
    rw [checkStmt.eq_def]
    dsimp only
    have qc : ∀ stH : ChkSt, Quiet stH (if ((kindOfExpr stH cond).1 ≠ Kind.bool ∧
        (kindOfExpr stH cond).1 ≠ Kind.int ∧ (kindOfExpr stH cond).1 ≠ Kind.unknown) then
        addErr (kindOfExpr stH cond).2 ("while-condition must be bool/int, got " ++
          ((kindOfExpr stH cond).1).toString)
      else (kindOfExpr stH cond).2) := by
      intro stH
      split
      · exact ((Quiet.quietRefl stH).kindOfExpr cond).quietAddErr _
      · exact (Quiet.quietRefl stH).kindOfExpr cond
    have hcore : ∀ stH stB : ChkSt, Quiet stH stB →
        (withBlockStmts stB bdy).blockReturned = stH.blockReturned ∧
        W4 stH (withBlockStmts stB bdy) := by
      intro stH stB q
      obtain ⟨b4, w4⟩ := P4 bdy hbdy stB
      exact ⟨by rw [b4, q.2], (W4.of_quiet q).w4Trans w4⟩
    constructor
    · rw [brUpdate, show (Stmt.whileS cond bdy).isRet = false from rfl]
      simp only [Bool.false_eq_true, if_false]
      by_cases htb : topBR st = some true
      · rw [if_pos htb]
        exact (hcore _ _ (qc _)).1
      · rw [if_neg htb]
        exact (hcore _ _ (qc _)).1
    · by_cases htb : topBR st = some true
      · rw [if_pos htb]
        exact ((W4.w4Refl st).addW _).w4Trans (hcore _ _ (qc _)).2
      · rw [if_neg htb]
        exact (hcore _ _ (qc _)).2

/-- `checkStmt` updates the block-returned stack exactly as `brUpdate`
prescribes (only a direct `return` marks the current block), and extends
the warning list only with `W0004` entries. -/
theorem checkStmt_spec (s : Stmt) (st : ChkSt) :
    (checkStmt st s).blockReturned = brUpdate s st.blockReturned ∧
    W4 st (checkStmt st s) :=
  checkStmt_spec_all (sizeOf s) s st (le_refl _)

/-- Iterating `checkStmt` over a block folds `brUpdate`, and again only
`W0004` warnings are added. -/
theorem checkStmts_spec (l : List Stmt) : ∀ st : ChkSt,
    (checkStmts st l).blockReturned = foldBR l st.blockReturned ∧
    W4 st (checkStmts st l) := by
  induction l with
  | nil =>
    intro st
    rw [checkStmts.eq_def]
    exact ⟨rfl, W4.w4Refl st⟩
  | cons hd rest ih =>
    intro st
    rw [checkStmts.eq_def]
    dsimp only
    obtain ⟨b1, w1⟩ := checkStmt_spec hd st
    obtain ⟨b2, w2⟩ := ih (checkStmt st hd)
    refine ⟨?_, w1.w4Trans w2⟩
    rw [b2, b1]
    rfl

/-- `scope.define` never touches the block-returned stack or the warning
list. -/
theorem defineVar_pres (st : ChkSt) (name : String) (v : VarInfo) :
    (defineVar st name v).1.blockReturned = st.blockReturned ∧
    (defineVar st name v).1.warnings = st.warnings := by
  unfold defineVar
  dsimp only
  split
  · exact ⟨rfl, rfl⟩
  · split
    · exact ⟨rfl, rfl⟩
    · exact ⟨rfl, rfl⟩

/-- Binding the parameters never touches the block-returned stack or the
warning list. -/
theorem defineParams_spec (ps : List Param) : ∀ (st : ChkSt) (i : Nat),
    (defineParams st ps i).blockReturned = st.blockReturned ∧
    (defineParams st ps i).warnings = st.warnings := by
  induction ps with
  | nil =>
    intro st i
    rw [defineParams.eq_def]
    exact ⟨rfl, rfl⟩
  | cons p rest ih =>
    intro st i
    rw [defineParams.eq_def]
    dsimp only
    constructor
    · refine ((ih _ (i + 1)).1).trans ?_
      split
      · exact (defineVar_pres st p.name _).1
      · exact (defineVar_pres st p.name _).1
    · refine ((ih _ (i + 1)).2).trans ?_
      split
      · exact (defineVar_pres st p.name _).2
      · exact (defineVar_pres st p.name _).2

/-- The unused-variable pass appends only `W0001` warnings. -/
theorem unusedWarns_spec (store : List VarInfo) (locals : List Nat) :
    ∀ ws : List Warning, ∃ ts, unusedWarns store locals ws = ws ++ ts ∧
      ∀ w ∈ ts, w.code = "W0001" := by
  induction locals with
  | nil =>
    intro ws
    exact ⟨[], by rw [unusedWarns.eq_def]; simp, by simp⟩
  | cons idx rest ih =>
    intro ws
    rw [unusedWarns.eq_def]
    dsimp only
    split
    · exact ih ws
    · split
      · obtain ⟨ts, e, f⟩ := ih (ws ++
          [⟨"W0001", "unused variable or parameter " ++ q (storeGet store idx).declName⟩])
        refine ⟨⟨"W0001", "unused variable or parameter " ++
          q (storeGet store idx).declName⟩ :: ts, ?_, ?_⟩
        · rw [e, List.append_assoc]
          rfl
        · intro w hw
          rcases List.mem_cons.mp hw with h | h
          · rw [h]
          · exact f w h
      · exact ih ws

/-- **C2** (corrected): `checkFunc` emits `W0006` exactly when the
function's declared return kind is non-void and its top-level statement
list contains no *direct* `return` statement.  Returns nested inside
`if`/`elif`/`else` or `while` blocks do not count: `withBlock` pops the
nested block's returned flag without propagating it, so a function whose
branches all return still gets `W0006`.  (The claim's "definitely-returned
on all paths" reading is refuted by `checkFunc_W0006_counterexample`.) -/
theorem checkFunc_W0006_iff (info : Info) (fn : FuncDecl) :
    (∃ w ∈ (checkFunc info fn).2, w.code = "W0006") ↔
      (((funcsLookup info fn.name).getD FuncSig.zero).ret ≠ Kind.void ∧
        fn.body.any Stmt.isRet = false) := by
  unfold checkFunc
  dsimp only
  set sig : FuncSig := (funcsLookup info fn.name).getD FuncSig.zero with hsig
  set st0 : ChkSt := { info := info, fnSig := sig, store := [], scopes := [[]], errors := [], warnings := [], locals := [], blockReturned := [] } with hst0
  set st1 : ChkSt := defineParams st0 fn.params 0 with hst1
  set st2 : ChkSt := { st1 with blockReturned := false :: st1.blockReturned } with hst2
  set st3 : ChkSt := checkStmts st2 fn.body with hst3
  set st4 : ChkSt := { st3 with blockReturned := st3.blockReturned.tail } with hst4
  obtain ⟨pbr, pw⟩ := defineParams_spec fn.params st0 0
  rw [← hst1] at pbr pw
  have hbr2 : st2.blockReturned = [false] := by
    show false :: st1.blockReturned = [false]
    rw [pbr]
  have hw2 : st2.warnings = [] := by
    show st1.warnings = []
    rw [pw]
  obtain ⟨wbr, wW⟩ := checkStmts_spec fn.body st2
  rw [← hst3] at wbr wW
  obtain ⟨ws3, e3, f3⟩ := wW
  have hw3 : ∀ w ∈ st3.warnings, w.code = "W0004" := by
    intro w hw
    rw [e3, hw2, List.nil_append] at hw
    exact f3 w hw
  have hh : st3.blockReturned.headD false = fn.body.any Stmt.isRet := by
    rw [wbr, hbr2, foldBR_cons]
    simp
  by_cases hc : sig.ret ≠ Kind.void ∧ ¬ (st3.blockReturned.headD false = true)
  · rw [if_pos hc]
    set w6 : Warning := ⟨"W0006", "function " ++ q fn.name ++ " returns " ++
      sig.ret.toString ++ " but may fall through without an explicit return"⟩ with hw6
    obtain ⟨ts, e, f⟩ := unusedWarns_spec (addWarn st4 w6).store (addWarn st4 w6).locals
      (addWarn st4 w6).warnings
    rw [e]
    constructor
    · intro _
      refine ⟨hc.1, ?_⟩
      have h2 := hc.2
      rw [hh] at h2
      simpa using h2
    · intro _
      refine ⟨w6, ?_, rfl⟩
      simp [addWarn]
  · rw [if_neg hc]
    obtain ⟨ts, e, f⟩ := unusedWarns_spec st4.store st4.locals st4.warnings
    rw [e]
    constructor
    · rintro ⟨w, hw, hcode⟩
      rcases List.mem_append.mp hw with h | h
      · have h4 : w.code = "W0004" := hw3 w h
        rw [h4] at hcode
        exact absurd hcode (by decide)
      · have h1 : w.code = "W0001" := f w h
        rw [h1] at hcode
        exact absurd hcode (by decide)
    · intro hR
      exact absurd ⟨hR.1, by rw [hh]; simp [hR.2]⟩ hc

unseal checkStmt checkStmts checkElifs withBlockStmts in
/-- Counterexample to the "all paths" reading of the claim: for
`def f() -> int: if true: return 1 else: return 2`, whose `if`/`else`
returns on every path (both branches contain a direct `return`), the
checker still emits `W0006`, because `withBlock` discards the nested
branches' returned flags. -/
theorem checkFunc_W0006_counterexample :
    (∀ b ∈ [[Stmt.returnS (some (.intLit "1"))], [Stmt.returnS (some (.intLit "2"))]],
        b.any Stmt.isRet = true) ∧
    ∃ w ∈ (checkFunc ⟨[("f", ⟨"f", [], Kind.int⟩)]⟩
      ⟨"f", [], "int",
        [.ifS (.boolLit true) [.returnS (some (.intLit "1"))] []
          (some [.returnS (some (.intLit "2"))])]⟩).2, w.code = "W0006" := by
  decide

end Check

namespace Parser

open Ast

/-- C6: the Pratt parser's binding-precedence table is exactly
`|>`(1), `or`(2), `and`(3), `==`/`!=`(4), `<` `<=` `>` `>=`(5),
`+` `-`(6), `*` `/` `%`(7), and every binary operator is left-associative:
for each operator `op` of the table, the token stream of `a op b op c`
parses to `BinaryExpr(op, BinaryExpr(op, a, b), c)`. -/
theorem binPrec_table_and_left_assoc :
    (binPrec .pipe = (1, true) ∧ binPrec .kwOr = (2, true) ∧ binPrec .kwAnd = (3, true) ∧
     binPrec .eqeq = (4, true) ∧ binPrec .ne = (4, true) ∧
     binPrec .lt = (5, true) ∧ binPrec .le = (5, true) ∧
     binPrec .gt = (5, true) ∧ binPrec .ge = (5, true) ∧
     binPrec .plus = (6, true) ∧ binPrec .minus = (6, true) ∧
     binPrec .star = (7, true) ∧ binPrec .slash = (7, true) ∧ binPrec .percent = (7, true)) ∧
    (∀ op ∈ ([.pipe, .kwOr, .kwAnd, .eqeq, .ne, .lt, .le, .gt, .ge, .plus, .minus,
        .star, .slash, .percent] : List Lexer.TokKind),
      ∀ a b c : String,
        (parseExpr 20 (initP
          [Lexer.mkTok .ident a 1 1, Lexer.mkTok op (Lexer.TokKind.toString op) 1 2,
           Lexer.mkTok .ident b 1 3, Lexer.mkTok op (Lexer.TokKind.toString op) 1 4,
           Lexer.mkTok .ident c 1 5])).map Prod.fst =
        .ok (.binaryE (Lexer.TokKind.toString op)
              (.binaryE (Lexer.TokKind.toString op) (.identE a) (.identE b))
              (.identE c))) := by
  refine ⟨⟨rfl, rfl, rfl, rfl, rfl, rfl, rfl, rfl, rfl, rfl, rfl, rfl, rfl, rfl⟩, ?_⟩
  intro op hop a b c
  fin_cases hop <;> rfl

/-- Witness for C6 at the operator `+` and identifiers `x`, `y`, `z`:
`x + y + z` parses as `(x + y) + z`. -/
theorem binPrec_table_and_left_assoc_witness :
    ((.plus : Lexer.TokKind) ∈ ([.pipe, .kwOr, .kwAnd, .eqeq, .ne, .lt, .le, .gt, .ge,
        .plus, .minus, .star, .slash, .percent] : List Lexer.TokKind)) ∧
    (parseExpr 20 (initP
        [Lexer.mkTok .ident "x" 1 1, Lexer.mkTok .plus "+" 1 2,
         Lexer.mkTok .ident "y" 1 3, Lexer.mkTok .plus "+" 1 4,
         Lexer.mkTok .ident "z" 1 5])).map Prod.fst =
      .ok (.binaryE "+" (.binaryE "+" (.identE "x") (.identE "y")) (.identE "z")) :=
  ⟨by decide, binPrec_table_and_left_assoc.2 .plus (by decide) "x" "y" "z"⟩

end Parser

namespace Lexer

/- ================================================================
   Stream-level analysis of `Lexer.Next`: well-formedness of reachable
   states, the indent/dedent balance ledger, and a termination measure.
   ================================================================ -/

/-- Net indent/dedent contribution of one token to the stream. -/
def tokDelta (t : Token) : Int :=
  if t.kind = .indent then 1 else if t.kind = .dedent then -1 else 0

/-- The balance ledger of a lexer state: levels still open on the indent
stack, minus INDENTs already queued, plus DEDENTs already queued.  The
stream emitted so far always totals `-pbal` of the current state (starting
from `pbal (init src) = 0`). -/
def pbal (st : LexSt) : Int :=
  ((st.indents.length : Int) - 1) - countKind .indent st.pending +
    countKind .dedent st.pending

/-- Termination measure for the token stream. -/
def lexMeasure (st : LexSt) : Nat :=
  2 * (st.src.length - st.i) + st.pending.length + (st.indents.length - 1) +
    (if st.bol then 1 else 0) + (if st.eofEmitted then 0 else 1)

/-- Queued tokens are only ever INDENT or DEDENT. -/
def pendOK (st : LexSt) : Prop :=
  ∀ t ∈ st.pending, t.kind = .indent ∨ t.kind = .dedent

/-- The states reachable from `init`: a non-empty indent stack, an in-range
cursor, only INDENT/DEDENT queued, and once EOF has been emitted the state
is terminal (drained input, no queue, base indent level only, not at BOL). -/
def LexWF (st : LexSt) : Prop :=
  st.indents ≠ [] ∧ st.i ≤ st.src.length ∧ pendOK st ∧
  (st.eofEmitted = true → st.src.length ≤ st.i ∧ st.pending = [] ∧
    st.indents.length = 1 ∧ st.bol = false)

/-- Sources that are empty or end with a newline (the guard under which
the EOF invariants of the lexer actually hold). -/
def nlTerm (src : List Char) : Prop :=
  src = [] ∨ src[src.length - 1]? = some '\n'

/-- What one `Next` step guarantees: source preserved, well-formedness
preserved, the ledger moves by exactly the emitted token's delta, an EOF
token leaves a terminal zero-ledger state, and any other token strictly
decreases the measure. -/
def StepOK (st : LexSt) (r : Token × LexSt) : Prop :=
  r.2.src = st.src ∧ LexWF r.2 ∧ pbal r.2 = pbal st + tokDelta r.1 ∧
  (r.1.kind = .eof → r.2.eofEmitted = true ∧ pbal r.2 = 0) ∧
  (r.1.kind ≠ .eof → lexMeasure r.2 < lexMeasure st)

theorem countKind_cons (k : TokKind) (t : Token) (ts : List Token) :
    countKind k (t :: ts) = (if t.kind = k then 1 else 0) + countKind k ts := by
  by_cases h : t.kind = k <;>
    simp [countKind, List.filter_cons, h, Nat.add_comm]

theorem countKind_append (k : TokKind) (l1 l2 : List Token) :
    countKind k (l1 ++ l2) = countKind k l1 + countKind k l2 := by
  simp [countKind, List.filter_append]

/- Field preservation of the scanning loops: only `i`, `line`, `col`
move; the cursor is monotone and stays in range. -/

theorem countIndent_fields : ∀ (st : LexSt) (w : Nat),
    (countIndent st w).2.src = st.src ∧ (countIndent st w).2.pending = st.pending ∧
    (countIndent st w).2.indents = st.indents ∧ (countIndent st w).2.bol = st.bol ∧
    (countIndent st w).2.eofEmitted = st.eofEmitted ∧ st.i ≤ (countIndent st w).2.i ∧
    (st.i ≤ st.src.length → (countIndent st w).2.i ≤ st.src.length) ∧
    (w < (countIndent st w).1 → st.i < (countIndent st w).2.i) := by
  intro st w
  induction st, w using countIndent.induct with
  | case1 st w h ih =>
    rw [countIndent_space w h]
    have hlt := peekCh_some_lt h
    obtain ⟨s1, s2, s3, s4, s5, s6, s7, s8⟩ := ih
    simp only [advance1_src, advance1_i] at s6 s7
    exact ⟨s1, s2, s3, s4, s5, by omega, fun hh => s7 (by omega), fun _ => by omega⟩
  | case2 st w h ih =>
    rw [countIndent_tab w h]
    have hlt := peekCh_some_lt h
    obtain ⟨s1, s2, s3, s4, s5, s6, s7, s8⟩ := ih
    simp only [advance1_src, advance1_i] at s6 s7
    exact ⟨s1, s2, s3, s4, s5, by omega, fun hh => s7 (by omega), fun _ => by omega⟩
  | case3 st w h1 h2 =>
    rw [countIndent_stop w (fun hh => h1 hh) (fun hh => h2 hh)]
    exact ⟨rfl, rfl, rfl, rfl, rfl, le_refl _, fun h => h, fun h => absurd h (lt_irrefl w)⟩

theorem skipToNL_fields : ∀ st : LexSt,
    (skipToNL st).src = st.src ∧ (skipToNL st).pending = st.pending ∧
    (skipToNL st).indents = st.indents ∧ (skipToNL st).bol = st.bol ∧
    (skipToNL st).eofEmitted = st.eofEmitted ∧ st.i ≤ (skipToNL st).i ∧
    (st.i ≤ st.src.length → (skipToNL st).i ≤ st.src.length) := by
  intro st
  induction st using skipToNL.induct with
  | case1 st h =>
    rw [skipToNL_none h]
    exact ⟨rfl, rfl, rfl, rfl, rfl, le_refl _, fun h => h⟩
  | case2 st h =>
    rw [skipToNL_some h, if_pos rfl]
    exact ⟨rfl, rfl, rfl, rfl, rfl, le_refl _, fun h => h⟩
  | case3 st ch h hne ih =>
    rw [skipToNL_some h, if_neg hne]
    have hlt := peekCh_some_lt h
    obtain ⟨s1, s2, s3, s4, s5, s6, s7⟩ := ih
    simp only [advance1_src, advance1_i] at s6 s7
    exact ⟨s1, s2, s3, s4, s5, by omega, fun hh => s7 (by omega)⟩

theorem skipSpacesTabs_fields : ∀ st : LexSt,
    (skipSpacesTabs st).src = st.src ∧ (skipSpacesTabs st).pending = st.pending ∧
    (skipSpacesTabs st).indents = st.indents ∧ (skipSpacesTabs st).bol = st.bol ∧
    (skipSpacesTabs st).eofEmitted = st.eofEmitted ∧ st.i ≤ (skipSpacesTabs st).i ∧
    (st.i ≤ st.src.length → (skipSpacesTabs st).i ≤ st.src.length) := by
  intro st
  induction st using skipSpacesTabs.induct with
  | case1 st h ih =>
    rw [skipSpacesTabs_space h]
    have hlt := peekCh_some_lt h
    obtain ⟨s1, s2, s3, s4, s5, s6, s7⟩ := ih
    simp only [advance1_src, advance1_i] at s6 s7
    exact ⟨s1, s2, s3, s4, s5, by omega, fun hh => s7 (by omega)⟩
  | case2 st h ih =>
    rw [skipSpacesTabs_tab h]
    have hlt := peekCh_some_lt h
    obtain ⟨s1, s2, s3, s4, s5, s6, s7⟩ := ih
    simp only [advance1_src, advance1_i] at s6 s7
    exact ⟨s1, s2, s3, s4, s5, by omega, fun hh => s7 (by omega)⟩
  | case3 st h1 h2 =>
    rw [skipSpacesTabs_stop (fun hh => h1 hh) (fun hh => h2 hh)]
    exact ⟨rfl, rfl, rfl, rfl, rfl, le_refl _, fun h => h⟩

theorem scanIdent_fields : ∀ (st : LexSt) (acc : List Char),
    (scanIdent st acc).2.src = st.src ∧ (scanIdent st acc).2.pending = st.pending ∧
    (scanIdent st acc).2.indents = st.indents ∧ (scanIdent st acc).2.bol = st.bol ∧
    (scanIdent st acc).2.eofEmitted = st.eofEmitted ∧ st.i ≤ (scanIdent st acc).2.i ∧
    (st.i ≤ st.src.length → (scanIdent st acc).2.i ≤ st.src.length) := by
  intro st acc
  induction st, acc using scanIdent.induct with
  | case1 st acc ch h hp ih =>
    rw [scanIdent_some acc h, if_pos hp]
    have hlt := peekCh_some_lt h
    obtain ⟨s1, s2, s3, s4, s5, s6, s7⟩ := ih
    simp only [advance1_src, advance1_i] at s6 s7
    exact ⟨s1, s2, s3, s4, s5, by omega, fun hh => s7 (by omega)⟩
  | case2 st acc ch h hp =>
    rw [scanIdent_some acc h, if_neg hp]
    exact ⟨rfl, rfl, rfl, rfl, rfl, le_refl _, fun h => h⟩
  | case3 st acc h =>
    rw [scanIdent_none acc h]
    exact ⟨rfl, rfl, rfl, rfl, rfl, le_refl _, fun h => h⟩

theorem scanDigits_fields : ∀ (p : Char → Bool) (st : LexSt) (acc : List Char),
    (scanDigits p st acc).2.src = st.src ∧ (scanDigits p st acc).2.pending = st.pending ∧
    (scanDigits p st acc).2.indents = st.indents ∧ (scanDigits p st acc).2.bol = st.bol ∧
    (scanDigits p st acc).2.eofEmitted = st.eofEmitted ∧ st.i ≤ (scanDigits p st acc).2.i ∧
    (st.i ≤ st.src.length → (scanDigits p st acc).2.i ≤ st.src.length) := by
  intro p st acc
  induction st, acc using scanDigits.induct p with
  | case1 st acc ch h hp ih =>
    have hp' : p ch = true := hp
    rw [scanDigits_some acc h, if_pos hp']
    have hlt := peekCh_some_lt h
    obtain ⟨s1, s2, s3, s4, s5, s6, s7⟩ := ih
    simp only [advance1_src, advance1_i] at s6 s7
    exact ⟨s1, s2, s3, s4, s5, by omega, fun hh => s7 (by omega)⟩
  | case2 st acc ch h hp =>
    have hp' : ¬ p ch = true := hp
    rw [scanDigits_some acc h, if_neg hp']
    exact ⟨rfl, rfl, rfl, rfl, rfl, le_refl _, fun h => h⟩
  | case3 st acc h =>
    rw [scanDigits_none acc h]
    exact ⟨rfl, rfl, rfl, rfl, rfl, le_refl _, fun h => h⟩

theorem scanNumber_fields : ∀ st : LexSt,
    (scanNumber st).2.src = st.src ∧ (scanNumber st).2.pending = st.pending ∧
    (scanNumber st).2.indents = st.indents ∧ (scanNumber st).2.bol = st.bol ∧
    (scanNumber st).2.eofEmitted = st.eofEmitted ∧ st.i ≤ (scanNumber st).2.i ∧
    (st.i ≤ st.src.length → (scanNumber st).2.i ≤ st.src.length) := by
  have key : ∀ (p : Char → Bool) (st0 st1 : LexSt) (acc : List Char),
      st1.src = st0.src → st1.pending = st0.pending → st1.indents = st0.indents →
      st1.bol = st0.bol → st1.eofEmitted = st0.eofEmitted → st0.i ≤ st1.i →
      (st0.i ≤ st0.src.length → st1.i ≤ st0.src.length) →
      (scanDigits p st1 acc).2.src = st0.src ∧
      (scanDigits p st1 acc).2.pending = st0.pending ∧
      (scanDigits p st1 acc).2.indents = st0.indents ∧
      (scanDigits p st1 acc).2.bol = st0.bol ∧
      (scanDigits p st1 acc).2.eofEmitted = st0.eofEmitted ∧
      st0.i ≤ (scanDigits p st1 acc).2.i ∧
      (st0.i ≤ st0.src.length → (scanDigits p st1 acc).2.i ≤ st0.src.length) := by
    intro p st0 st1 acc e1 e2 e3 e4 e5 e6 e7
    obtain ⟨s1, s2, s3, s4, s5, s6, s7⟩ := scanDigits_fields p st1 acc
    refine ⟨s1.trans e1, s2.trans e2, s3.trans e3, s4.trans e4, s5.trans e5,
      le_trans e6 s6, ?_⟩
    intro hh
    rw [e1] at s7
    exact s7 (e7 hh)
  intro st
  unfold scanNumber
  split
  next heq0 =>
    dsimp only
    have h0 := peekCh_some_lt heq0
    split
    next heq1 =>
      have h1 := peekCh_some_lt heq1
      simp only [advance1_i, advance1_src] at h1
      exact key _ st _ _ rfl rfl rfl rfl rfl (by simp only [advance1_i]; omega)
        (fun hh => by simp only [advance1_i]; omega)
    next heq1 =>
      have h1 := peekCh_some_lt heq1
      simp only [advance1_i, advance1_src] at h1
      exact key _ st _ _ rfl rfl rfl rfl rfl (by simp only [advance1_i]; omega)
        (fun hh => by simp only [advance1_i]; omega)
    next heq1 =>
      have h1 := peekCh_some_lt heq1
      simp only [advance1_i, advance1_src] at h1
      exact key _ st _ _ rfl rfl rfl rfl rfl (by simp only [advance1_i]; omega)
        (fun hh => by simp only [advance1_i]; omega)
    next heq1 =>
      have h1 := peekCh_some_lt heq1
      simp only [advance1_i, advance1_src] at h1
      exact key _ st _ _ rfl rfl rfl rfl rfl (by simp only [advance1_i]; omega)
        (fun hh => by simp only [advance1_i]; omega)
    next =>
      exact key _ st _ _ rfl rfl rfl rfl rfl (by simp only [advance1_i]; omega)
        (fun hh => by simp only [advance1_i]; omega)
  next =>
    exact scanDigits_fields Char.isDigit st []

theorem scanStringLoop_fields : ∀ (st : LexSt) (acc : List Char),
    (scanStringLoop st acc).2.src = st.src ∧ (scanStringLoop st acc).2.pending = st.pending ∧
    (scanStringLoop st acc).2.indents = st.indents ∧ (scanStringLoop st acc).2.bol = st.bol ∧
    (scanStringLoop st acc).2.eofEmitted = st.eofEmitted ∧ st.i ≤ (scanStringLoop st acc).2.i ∧
    (st.i ≤ st.src.length → (scanStringLoop st acc).2.i ≤ st.src.length) := by
  intro st acc
  induction st, acc using scanStringLoop.induct with
  | case1 st acc h => 
    rw [scanStringLoop_none acc h]
    exact ⟨rfl, rfl, rfl, rfl, rfl, le_refl _, fun h => h⟩
  | case2 st acc st1 r2 h2 h ih =>
    rw [scanStringLoop_bs acc h h2]
    have e1 : st1 = advance1 st '\\' := rfl
    rw [e1] at ih
    have hlt := peekCh_some_lt h
    have hlt2 := peekCh_some_lt h2
    rw [e1] at hlt2
    obtain ⟨s1, s2, s3, s4, s5, s6, s7⟩ := ih
    simp only [advance1_src, advance1_i] at s6 s7 hlt2
    exact ⟨s1, s2, s3, s4, s5, by omega, fun hh => s7 (by omega)⟩
  | case3 st acc st1 h2 h ih =>
    rw [scanStringLoop_bs_eof acc h h2]
    have e1 : st1 = advance1 st '\\' := rfl
    rw [e1] at ih
    have hlt := peekCh_some_lt h
    obtain ⟨s1, s2, s3, s4, s5, s6, s7⟩ := ih
    simp only [advance1_src, advance1_i] at s6 s7
    exact ⟨s1, s2, s3, s4, s5, by omega, fun hh => s7 (by omega)⟩
  | case4 st acc h hb =>
    rw [scanStringLoop_quote acc h]
    have hlt := peekCh_some_lt h
    exact ⟨rfl, rfl, rfl, rfl, rfl, by simp only [advance1_i]; omega,
      fun hh => by simp only [advance1_i]; omega⟩
  | case5 st acc h hb hq =>
    rw [scanStringLoop_nl acc h]
    exact ⟨rfl, rfl, rfl, rfl, rfl, le_refl _, fun h => h⟩
  | case6 st acc r h hb hq hn ih =>
    rw [scanStringLoop_ch acc h hb hq hn]
    have hlt := peekCh_some_lt h
    obtain ⟨s1, s2, s3, s4, s5, s6, s7⟩ := ih
    simp only [advance1_src, advance1_i] at s6 s7
    exact ⟨s1, s2, s3, s4, s5, by omega, fun hh => s7 (by omega)⟩

theorem scanString_fields : ∀ st : LexSt,
    (scanString st).2.src = st.src ∧ (scanString st).2.pending = st.pending ∧
    (scanString st).2.indents = st.indents ∧ (scanString st).2.bol = st.bol ∧
    (scanString st).2.eofEmitted = st.eofEmitted ∧ st.i < (scanString st).2.i ∧
    (st.i < st.src.length → (scanString st).2.i ≤ st.src.length) := by
  intro st
  unfold scanString
  obtain ⟨s1, s2, s3, s4, s5, s6, s7⟩ := scanStringLoop_fields (advance1 st '"') ['"']
  simp only [advance1_src, advance1_i] at s1 s2 s3 s4 s5 s6 s7
  exact ⟨s1, s2, s3, s4, s5, by omega, fun hh => s7 (by omega)⟩

/-- In a newline-terminated source, the comment skip always stops at a
newline, never at end of input. -/
theorem skipToNL_finds_nl : ∀ st : LexSt, st.src[st.src.length - 1]? = some '\n' →
    st.i < st.src.length → peekCh (skipToNL st) = some '\n' := by
  intro st
  induction st using skipToNL.induct with
  | case1 st h =>
    intro hlast hi
    unfold peekCh at h
    rw [dif_pos hi] at h
    cases h
  | case2 st h =>
    intro hlast hi
    rw [skipToNL_some h, if_pos rfl]
    exact h
  | case3 st ch h hne ih =>
    intro hlast hi
    rw [skipToNL_some h, if_neg hne]
    by_cases h2 : st.i + 1 < st.src.length
    · exact ih hlast h2
    · exfalso
      have hl : st.i = st.src.length - 1 := by omega
      have hpk : peekCh st = st.src[st.src.length - 1]? := by
        unfold peekCh
        rw [dif_pos hi]
        rw [List.getElem?_eq_getElem (by omega)]
        simp [hl, List.get_eq_getElem]
      rw [h, hlast] at hpk
      cases hpk
      exact hne rfl

theorem pbal_eq {a b : LexSt} (h1 : b.indents = a.indents) (h2 : b.pending = a.pending) :
    pbal b = pbal a := by
  unfold pbal
  rw [h1, h2]

theorem pendOK_eq {a b : LexSt} (h : b.pending = a.pending) (hp : pendOK a) : pendOK b :=
  fun t ht => hp t (h ▸ ht)

theorem countKind_dedentTok_ind (l c : Nat) :
    countKind .indent [mkTok .dedent "" l c] = 0 := rfl

theorem countKind_dedentTok_ded (l c : Nat) :
    countKind .dedent [mkTok .dedent "" l c] = 1 := rfl

theorem unwindIndents_facts : ∀ st : LexSt,
    pbal (unwindIndents st) = pbal st ∧
    (pendOK st → pendOK (unwindIndents st)) ∧
    (st.indents ≠ [] → (unwindIndents st).indents.length = 1) ∧
    (unwindIndents st).pending.length + ((unwindIndents st).indents.length - 1) =
      st.pending.length + (st.indents.length - 1) := by
  intro st
  induction st using unwindIndents.induct with
  | case1 st a u rest h ih =>
    rw [unwindIndents.eq_def, h]
    obtain ⟨i1, i2, i3, i4⟩ := ih
    refine ⟨?_, ?_, fun _ => i3 (by simp), ?_⟩
    · rw [i1]
      unfold pbal
      simp only [countKind_append, countKind_dedentTok_ind, countKind_dedentTok_ded, h,
        List.length_cons]
      push_cast
      ring
    · intro hp
      refine i2 ?_
      intro t ht
      rcases List.mem_append.mp ht with h1 | h1
      · exact hp t h1
      · simp at h1
        rw [h1]
        exact Or.inr rfl
    · rw [i4]
      simp [h]
      try omega
  | case2 st h =>
    have e : unwindIndents st = st := by
      rw [unwindIndents.eq_def]
      rcases h2 : st.indents with - | ⟨a, - | ⟨b, r⟩⟩
      · simp
      · simp
      · exact absurd h2 (h a b r)
    rw [e]
    refine ⟨rfl, fun hp => hp, ?_, rfl⟩
    intro hne
    rcases h2 : st.indents with - | ⟨a, - | ⟨b, r⟩⟩
    · exact absurd h2 hne
    · simp
    · exact absurd h2 (h a b r)

theorem dedentLoop_facts : ∀ (st : LexSt) (w : Nat),
    pbal (dedentLoop st w) = pbal st ∧
    (pendOK st → pendOK (dedentLoop st w)) ∧
    (st.indents ≠ [] → (dedentLoop st w).indents ≠ []) ∧
    (dedentLoop st w).pending.length + ((dedentLoop st w).indents.length - 1) =
      st.pending.length + (st.indents.length - 1) := by
  intro st w
  induction st, w using dedentLoop.induct with
  | case1 st w t u rest h hlt ih =>
    rw [dedentLoop.eq_def, h]
    simp only [if_pos hlt]
    obtain ⟨i1, i2, i3, i4⟩ := ih
    refine ⟨?_, ?_, fun _ => i3 (by simp), ?_⟩
    · rw [i1]
      unfold pbal
      simp only [countKind_append, countKind_dedentTok_ind, countKind_dedentTok_ded, h,
        List.length_cons]
      push_cast
      ring
    · intro hp
      refine i2 ?_
      intro tk ht
      rcases List.mem_append.mp ht with h1 | h1
      · exact hp tk h1
      · simp at h1
        rw [h1]
        exact Or.inr rfl
    · rw [i4]
      simp [h]
      try omega
  | case2 st w t u rest h hge =>
    have e : dedentLoop st w = st := by
      rw [dedentLoop.eq_def, h]
      simp only [if_neg hge]
    rw [e]
    exact ⟨rfl, fun hp => hp, fun hne => hne, rfl⟩
  | case3 st w h =>
    have e : dedentLoop st w = st := by
      rw [dedentLoop.eq_def]
      rcases h2 : st.indents with - | ⟨a, - | ⟨b, r⟩⟩
      · simp
      · simp
      · exact absurd h2 (h a b r)
    rw [e]
    exact ⟨rfl, fun hp => hp, fun hne => hne, rfl⟩

theorem countKind_indentTok_ind (l c : Nat) :
    countKind .indent [mkTok .indent "" l c] = 1 := rfl

theorem countKind_indentTok_ded (l c : Nat) :
    countKind .dedent [mkTok .indent "" l c] = 0 := rfl

theorem compareIndent_facts : ∀ (st : LexSt) (w : Nat),
    pbal (compareIndent st w) = pbal st ∧
    (pendOK st → pendOK (compareIndent st w)) ∧
    (st.indents ≠ [] → (compareIndent st w).indents ≠ []) ∧
    (compareIndent st w).pending.length + ((compareIndent st w).indents.length - 1) ≤
      st.pending.length + (st.indents.length - 1) +
        (if st.indents.headD 0 < w then 2 else 0) := by
  intro st w
  unfold compareIndent
  dsimp only
  split
  next hlt =>
    refine ⟨?_, ?_, fun _ => by simp, ?_⟩
    · unfold pbal
      simp only [countKind_append, countKind_indentTok_ind, countKind_indentTok_ded,
        List.length_cons]
      push_cast
      ring
    · intro hp t ht
      rcases List.mem_append.mp ht with h1 | h1
      · exact hp t h1
      · simp at h1
        rw [h1]
        exact Or.inl rfl
    · simp
      try omega
  next hge =>
    split
    next hlt2 =>
      obtain ⟨d1, d2, d3, d4⟩ := dedentLoop_facts st w
      exact ⟨d1, d2, d3, by omega⟩
    next hge2 =>
      exact ⟨rfl, fun hp => hp, fun hne => hne, by omega⟩

/-- Everything `handleBOL` guarantees, starting from a beginning-of-line
state: it lands just after the indentation bookkeeping with `bol` cleared,
the ledger unchanged, only INDENT/DEDENT queued, and the measure strictly
down. -/
theorem handleBOL_master : ∀ st : LexSt, st.bol = true → st.indents ≠ [] →
    st.i ≤ st.src.length →
    (handleBOL st).src = st.src ∧ (handleBOL st).bol = false ∧
    (handleBOL st).eofEmitted = st.eofEmitted ∧ (handleBOL st).indents ≠ [] ∧
    (pendOK st → pendOK (handleBOL st)) ∧ pbal (handleBOL st) = pbal st ∧
    (handleBOL st).i ≤ st.src.length ∧
    lexMeasure (handleBOL st) + 1 ≤ lexMeasure st := by
  have compare_exit : ∀ (st s2 : LexSt) (w : Nat), st.bol = true → st.indents ≠ [] →
      s2.src = st.src → s2.pending = st.pending → s2.indents = st.indents →
      s2.eofEmitted = st.eofEmitted → st.i ≤ s2.i → s2.i ≤ st.src.length →
      (st.indents.headD 0 < w → st.i < s2.i) →
      (compareIndent s2 w).src = st.src ∧ (compareIndent s2 w).bol = false ∧
      (compareIndent s2 w).eofEmitted = st.eofEmitted ∧ (compareIndent s2 w).indents ≠ [] ∧
      (pendOK st → pendOK (compareIndent s2 w)) ∧ pbal (compareIndent s2 w) = pbal st ∧
      (compareIndent s2 w).i ≤ st.src.length ∧
      lexMeasure (compareIndent s2 w) + 1 ≤ lexMeasure st := by
    intro st s2 w hb hne e1 e2 e3 e5 m1 m2 hstrict
    have p := compareIndent_pres s2 w
    obtain ⟨f1, f2, f3, f4⟩ := compareIndent_facts s2 w
    refine ⟨p.1.trans e1, p.2.2.1, p.2.2.2.trans e5, f3 (by rw [e3]; exact hne),
      fun hp => f2 (pendOK_eq e2 hp), f1.trans (pbal_eq e3 e2), by omega, ?_⟩
    unfold lexMeasure
    rw [p.1, e1, p.2.1, p.2.2.1, p.2.2.2, e5, hb]
    simp only [Bool.false_eq_true, if_false, if_true]
    by_cases hw : s2.indents.headD 0 < w
    · have hs := hstrict (by rw [← e3]; exact hw)
      rw [if_pos hw] at f4
      rw [e2, e3] at f4
      omega
    · rw [if_neg hw] at f4
      rw [e2, e3] at f4
      simp at f4
      omega
  intro st
  induction st using handleBOL.induct with
  | case1 st hbol h c st1 hpk =>
    intro hb hne hlen
    rw [handleBOL_spaces_eof hbol h hpk]
    obtain ⟨s1, s2, s3, s4, s5, s6, s7, s8⟩ := countIndent_fields st 0
    exact compare_exit st _ _ hb hne s1 s2 s3 s5 s6 (s7 hlen) (fun hw => s8 (by omega))
  | case2 st hbol h c st1 hpk ih =>
    intro hb hne hlen
    rw [handleBOL_blank hbol h hpk]
    have e1 : st1 = (countIndent st 0).2 := rfl
    rw [e1] at ih
    obtain ⟨s1, s2, s3, s4, s5, s6, s7, s8⟩ := countIndent_fields st 0
    have hplt := peekCh_some_lt hpk
    rw [e1] at hplt
    rw [s1] at hplt
    obtain ⟨j1, j2, j3, j4, j5, j6, j7, j8⟩ :=
      ih (show (advance1 (countIndent st 0).2 '\n').bol = true from s4.trans hb)
        (show (advance1 (countIndent st 0).2 '\n').indents ≠ [] from by
          simp only [advance1_indents]
          rw [s3]
          exact hne)
        (by simp only [advance1_i, advance1_src, s1]; omega)
    simp only [advance1_src, s1] at j1 j7
    refine ⟨j1, j2,
      j3.trans (show (advance1 (countIndent st 0).2 '\n').eofEmitted = st.eofEmitted from s5),
      j4,
      fun hp => j5 (pendOK_eq
        (show (advance1 (countIndent st 0).2 '\n').pending = st.pending from s2) hp),
      j6.trans (pbal_eq
        (show (advance1 (countIndent st 0).2 '\n').indents = st.indents from s3)
        (show (advance1 (countIndent st 0).2 '\n').pending = st.pending from s2)),
      j7, ?_⟩
    have hmid : lexMeasure (advance1 (countIndent st 0).2 '\n') + 2 ≤ lexMeasure st := by
      unfold lexMeasure
      simp only [advance1_src, advance1_i, advance1_pending, advance1_indents, advance1_bol,
        advance1_eofEmitted, s1, s2, s3, s4, s5]
      omega
    omega
  | case3 st hbol h c st1 hpk st2 hpk2 ih =>
    intro hb hne hlen
    rw [handleBOL_comment_nl hbol h hpk hpk2]
    have e1 : st2 = skipToNL (countIndent st 0).2 := rfl
    rw [e1] at ih
    obtain ⟨s1, s2, s3, s4, s5, s6, s7, s8⟩ := countIndent_fields st 0
    obtain ⟨t1, t2, t3, t4, t5, t6, t7⟩ := skipToNL_fields (countIndent st 0).2
    have hplt := peekCh_some_lt hpk2
    try rw [e1] at hplt
    rw [t1, s1] at hplt
    obtain ⟨j1, j2, j3, j4, j5, j6, j7, j8⟩ :=
      ih (show (advance1 (skipToNL (countIndent st 0).2) '\n').bol = true from
          (t4.trans s4).trans hb)
        (show (advance1 (skipToNL (countIndent st 0).2) '\n').indents ≠ [] from by
          simp only [advance1_indents]
          rw [t3, s3]
          exact hne)
        (by simp only [advance1_i, advance1_src, t1, s1]; omega)
    simp only [advance1_src, t1, s1] at j1 j7
    refine ⟨j1, j2,
      j3.trans (show (advance1 (skipToNL (countIndent st 0).2) '\n').eofEmitted =
        st.eofEmitted from t5.trans s5),
      j4,
      fun hp => j5 (pendOK_eq (show (advance1 (skipToNL (countIndent st 0).2) '\n').pending =
        st.pending from t2.trans s2) hp),
      j6.trans (pbal_eq
        (show (advance1 (skipToNL (countIndent st 0).2) '\n').indents = st.indents from
          t3.trans s3)
        (show (advance1 (skipToNL (countIndent st 0).2) '\n').pending = st.pending from
          t2.trans s2)),
      j7, ?_⟩
    have hmid : lexMeasure (advance1 (skipToNL (countIndent st 0).2) '\n') + 2 ≤
        lexMeasure st := by
      unfold lexMeasure
      simp only [advance1_src, advance1_i, advance1_pending, advance1_indents, advance1_bol,
        advance1_eofEmitted, t1, t2, t3, t4, t5, s1, s2, s3, s4, s5]
      omega
    omega
  | case4 st hbol h c st1 hpk st2 hpk2 =>
    intro hb hne hlen
    rw [handleBOL_comment_eof hbol h hpk (by simpa using hpk2)]
    obtain ⟨s1, s2, s3, s4, s5, s6, s7, s8⟩ := countIndent_fields st 0
    obtain ⟨t1, t2, t3, t4, t5, t6, t7⟩ := skipToNL_fields (countIndent st 0).2
    refine compare_exit st _ _ hb hne (t1.trans s1) (t2.trans s2) (t3.trans s3)
      (t5.trans s5) (le_trans s6 t6) ?_ (fun hw => lt_of_lt_of_le (s8 (by omega)) t6)
    rw [← s1]
    exact t7 (by rw [s1]; exact s7 hlen)
  | case5 st hbol h c st1 val hv1 hv2 hpk =>
    intro hb hne hlen
    rw [handleBOL_other hbol h hpk (fun hh => hv1 hh) (fun hh => hv2 hh)]
    obtain ⟨s1, s2, s3, s4, s5, s6, s7, s8⟩ := countIndent_fields st 0
    exact compare_exit st _ _ hb hne s1 s2 s3 s5 s6 (s7 hlen) (fun hw => s8 (by omega))
  | case6 st hbol h =>
    intro hb hne hlen
    rw [handleBOL_ateof hbol h]
    obtain ⟨u1, u2, u3, u4⟩ := unwindIndents_facts st
    have p := unwindIndents_pres st
    refine ⟨p.1, rfl, p.2.2.2.1, ?_, ?_, ?_, ?_, ?_⟩
    · show (unwindIndents st).indents ≠ []
      have := u3 hne
      intro hc
      rw [hc] at this
      cases this
    · intro hp
      exact fun t ht => (u2 hp) t ht
    · show pbal (unwindIndents st) = pbal st
      exact u1
    · show (unwindIndents st).i ≤ st.src.length
      rw [p.2.1]
      exact hlen
    · show lexMeasure { unwindIndents st with bol := false } + 1 ≤ lexMeasure st
      unfold lexMeasure
      dsimp only
      rw [p.1, p.2.1, p.2.2.2.1, hb]
      simp only [Bool.false_eq_true, if_false, if_true]
      omega
  | case7 st hbol =>
    intro hb hne hlen
    exact absurd hb (by simpa using hbol)

theorem peekCh_none_ge {x : LexSt} (h : peekCh x = none) : x.src.length ≤ x.i := by
  unfold peekCh at h
  by_cases hi : x.i < x.src.length
  · rw [dif_pos hi] at h
    cases h
  · omega

theorem stepOK_lift {st st2 : LexSt} {r : Token × LexSt} (h : StepOK st2 r)
    (e1 : st2.src = st.src) (e2 : pbal st2 = pbal st)
    (e3 : lexMeasure st2 ≤ lexMeasure st) : StepOK st r := by
  obtain ⟨h1, h2, h3, h4, h5⟩ := h
  exact ⟨h1.trans e1, h2, by rw [h3, e2], h4, fun hk => lt_of_lt_of_le (h5 hk) e3⟩

theorem step_emit {st : LexSt} (r : LexSt) (k : TokKind) (lex : String) (ln cl : Nat)
    (hwf : LexWF st) (hne : st.eofEmitted = false)
    (e1 : r.src = st.src) (e2 : r.pending = st.pending) (e3 : r.indents = st.indents)
    (e4 : r.eofEmitted = false) (m1 : st.i < r.i) (m2 : r.i ≤ st.src.length)
    (hk1 : k ≠ .indent) (hk2 : k ≠ .dedent) (hk3 : k ≠ .eof) :
    StepOK st (mkTok k lex ln cl, r) := by
  obtain ⟨w1, w2, w3, w4⟩ := hwf
  have hd : tokDelta (mkTok k lex ln cl) = 0 := by
    unfold tokDelta mkTok
    simp [hk1, hk2]
  refine ⟨e1, ⟨by rw [e3]; exact w1, by rw [show r.src.length = st.src.length from by rw [e1]]; exact m2,
    pendOK_eq e2 w3, ?_⟩, ?_, ?_, ?_⟩
  · intro hemit
    rw [e4] at hemit
    cases hemit
  · rw [hd, add_zero]
    exact pbal_eq e3 e2
  · intro hemit
    exact absurd hemit hk3
  · intro _
    have l1 : r.src.length = st.src.length := by rw [e1]
    have l2 : r.pending.length = st.pending.length := by rw [e2]
    have l3 : r.indents.length = st.indents.length := by rw [e3]
    unfold lexMeasure
    rw [l1, l2, l3, e4, hne]
    cases hrb : r.bol <;> cases hsb : st.bol <;>
      simp only [hrb, hsb, Bool.false_eq_true, if_false, if_true] <;> omega

theorem step_pop (base : LexSt) (t : Token) (rest : List Token)
    (hp : base.pending = t :: rest) (hwf : LexWF base) (hne : base.eofEmitted = false) :
    StepOK base (t, { base with pending := rest }) := by
  obtain ⟨w1, w2, w3, w4⟩ := hwf
  have htk := w3 t (by rw [hp]; exact List.mem_cons_self t rest)
  refine ⟨rfl, ⟨w1, w2, ?_, ?_⟩, ?_, ?_, ?_⟩
  · intro tk htk2
    exact w3 tk (by rw [hp]; exact List.mem_cons_of_mem t htk2)
  · intro hemit
    rw [show ({ base with pending := rest } : LexSt).eofEmitted = base.eofEmitted from rfl,
      hne] at hemit
    cases hemit
  · unfold pbal tokDelta
    dsimp only
    rw [hp, countKind_cons .indent, countKind_cons .dedent]
    rcases htk with hk | hk <;> rw [hk] <;> simp <;> omega
  · intro hemit
    rcases htk with hk | hk <;> rw [hk] at hemit <;> cases hemit
  · intro _
    unfold lexMeasure
    dsimp only
    rw [hp]
    simp only [List.length_cons]
    omega

theorem nextAtEOF_step (u : LexSt) (hwf : LexWF u) (hne : u.eofEmitted = false)
    (hpend : u.pending = []) (hbol : u.bol = false) (hat : u.src.length ≤ u.i) :
    StepOK u (nextAtEOF u) := by
  obtain ⟨w1, w2, w3, w4⟩ := hwf
  unfold nextAtEOF
  rw [if_pos hne]
  split
  next a b rest heq =>
    refine ⟨rfl, ⟨by simp, w2, w3, ?_⟩, ?_, ?_, ?_⟩
    · intro hemit
      rw [show ({ u with indents := b :: rest } : LexSt).eofEmitted = u.eofEmitted from rfl,
        hne] at hemit
      cases hemit
    · have hd : tokDelta (mkTok .dedent "" u.line u.col) = -1 := rfl
      unfold pbal
      dsimp only
      rw [heq, hd]
      simp only [List.length_cons]
      push_cast
      ring
    · intro hemit
      cases hemit
    · intro _
      unfold lexMeasure
      dsimp only
      rw [heq]
      simp only [List.length_cons]
      omega
  next hno =>
    have hone : u.indents.length = 1 := by
      rcases hi : u.indents with - | ⟨x, - | ⟨y, r⟩⟩
      · exact absurd hi w1
      · rfl
      · exact absurd hi (by intro hc; exact hno x y r hc)
    refine ⟨rfl, ⟨by simp [w1], w2, w3, fun _ => ⟨hat, hpend, by simpa using hone, hbol⟩⟩,
      ?_, fun _ => ⟨rfl, ?_⟩, fun hk => absurd rfl hk⟩
    · rw [show tokDelta (mkTok .eof "" u.line u.col) = 0 from rfl, add_zero]
      exact pbal_eq rfl rfl
    · unfold pbal
      dsimp only
      rw [hpend, hone]
      simp [countKind]
  
theorem identStart_part {c : Char} (h : isIdentStart c = true) : isIdentPart c = true := by
  unfold isIdentStart at h
  unfold isIdentPart
  simp at h ⊢
  tauto

theorem scanIdent_strict {sw : LexSt} {ch : Char} (hpk : peekCh sw = some ch)
    (hid : isIdentPart ch = true) : sw.i < (scanIdent sw []).2.i := by
  rw [scanIdent_some [] hpk, if_pos hid]
  simp only [List.nil_append]
  have h6 := (scanIdent_fields (advance1 sw ch) [ch]).2.2.2.2.2.1
  simp only [advance1_i] at h6
  omega

theorem scanNumber_strict {sw : LexSt} {ch : Char} (hpk : peekCh sw = some ch)
    (hd : ch.isDigit = true) : sw.i < (scanNumber sw).2.i := by
  unfold scanNumber
  split
  next heq =>
    dsimp only
    split
    all_goals
      first
      | (have h6 := (scanDigits_fields isHexDigit (advance1 (advance1 sw '0') 'x') ['0', 'x']).2.2.2.2.2.1
         simp only [advance1_i] at h6
         omega)
      | (have h6 := (scanDigits_fields isHexDigit (advance1 (advance1 sw '0') 'X') ['0', 'X']).2.2.2.2.2.1
         simp only [advance1_i] at h6
         omega)
      | (have h6 := (scanDigits_fields (fun r => decide (r = '0' ∨ r = '1'))
           (advance1 (advance1 sw '0') 'b') ['0', 'b']).2.2.2.2.2.1
         simp only [advance1_i] at h6
         omega)
      | (have h6 := (scanDigits_fields (fun r => decide (r = '0' ∨ r = '1'))
           (advance1 (advance1 sw '0') 'B') ['0', 'B']).2.2.2.2.2.1
         simp only [advance1_i] at h6
         omega)
      | (have h6 := (scanDigits_fields Char.isDigit (advance1 sw '0') ['0']).2.2.2.2.2.1
         simp only [advance1_i] at h6
         omega)
  next =>
    rw [scanDigits_some [] hpk, if_pos hd]
    simp only [List.nil_append]
    have h6 := (scanDigits_fields Char.isDigit (advance1 sw ch) [ch]).2.2.2.2.2.1
    simp only [advance1_i] at h6
    omega

theorem keywordKind_kinds : ∀ (w : String) (k : TokKind), keywordKind w = some k →
    k ≠ .indent ∧ k ≠ .dedent ∧ k ≠ .eof := by
  intro w k h
  unfold keywordKind at h
  split at h <;>
    first
    | (cases h; exact ⟨by decide, by decide, by decide⟩)
    | cases h

/-- One `nextCore` step from a mid-line, queue-empty, pre-EOF state is a
good step (taking the induction hypothesis for the unknown-character
retry). -/
theorem nextCore_step (s : LexSt)
    (IH : ∀ s2 : LexSt, 2 * (s2.src.length - s2.i) < 2 * (s.src.length - s.i) →
      LexWF s2 → nlTerm s2.src → StepOK s2 (next s2))
    (hwf : LexWF s) (hnl : nlTerm s.src) (hne : s.eofEmitted = false)
    (hbol : s.bol = false) (hpend : s.pending = []) :
    StepOK s (nextCore s) := by
  obtain ⟨k1, k2, k3, k4, k5, k6, k7⟩ := skipSpacesTabs_fields s
  have base_emit : ∀ (r : LexSt) (k : TokKind) (lex : String) (ln cl : Nat),
      r.src = s.src → r.pending = s.pending → r.indents = s.indents →
      r.eofEmitted = s.eofEmitted → s.i < r.i → r.i ≤ s.src.length →
      k ≠ .indent → k ≠ .dedent → k ≠ .eof → StepOK s (mkTok k lex ln cl, r) := by
    intro r k lex ln cl p1 p2 p3 p4 m1 m2 h1 h2 h3
    exact step_emit r k lex ln cl hwf hne p1 p2 p3 (p4.trans hne) m1 m2 h1 h2 h3
  have emit1 : ∀ (k : TokKind) (lex : String) (ln cl : Nat) (c : Char),
      (skipSpacesTabs s).i < (skipSpacesTabs s).src.length →
      k ≠ .indent → k ≠ .dedent → k ≠ .eof →
      StepOK s (mkTok k lex ln cl, advance1 (skipSpacesTabs s) c) := by
    intro k lex ln cl c hlt h1 h2 h3
    rw [k1] at hlt
    refine base_emit _ _ _ _ _ (by simp only [advance1_src]; exact k1)
      (by simp only [advance1_pending]; exact k2)
      (by simp only [advance1_indents]; exact k3)
      (by simp only [advance1_eofEmitted]; exact k5)
      (by simp only [advance1_i]; omega) (by simp only [advance1_i]; omega) h1 h2 h3
  have emit2 : ∀ (k : TokKind) (lex : String) (ln cl : Nat) (c c' : Char),
      peekCh (advance1 (skipSpacesTabs s) c) = some c' →
      k ≠ .indent → k ≠ .dedent → k ≠ .eof →
      StepOK s (mkTok k lex ln cl, advance1 (advance1 (skipSpacesTabs s) c) c') := by
    intro k lex ln cl c c' hp h1 h2 h3
    have hlt := peekCh_some_lt hp
    simp only [advance1_i, advance1_src] at hlt
    rw [k1] at hlt
    refine base_emit _ _ _ _ _ (by simp only [advance1_src]; exact k1)
      (by simp only [advance1_pending]; exact k2)
      (by simp only [advance1_indents]; exact k3)
      (by simp only [advance1_eofEmitted]; exact k5)
      (by simp only [advance1_i]; omega) (by simp only [advance1_i]; omega) h1 h2 h3
  have hunk : ∀ ch : Char, peekCh (skipSpacesTabs s) = some ch →
      StepOK s (next (advance1 (skipSpacesTabs s) ch)) := by
    intro ch hpk
    have hlt := peekCh_some_lt hpk
    have hlen2 : (skipSpacesTabs s).src.length = s.src.length := by rw [k1]
    refine stepOK_lift (IH (advance1 (skipSpacesTabs s) ch) ?_ ?_ ?_)
      (by simp only [advance1_src]; exact k1)
      (pbal_eq (show (advance1 (skipSpacesTabs s) ch).indents = s.indents from k3)
        (show (advance1 (skipSpacesTabs s) ch).pending = s.pending from k2)) ?_
    · simp only [advance1_i, advance1_src]
      omega
    · refine ⟨?_, ?_, ?_, ?_⟩
      · simp only [advance1_indents]
        rw [k3]
        exact hwf.1
      · simp only [advance1_i, advance1_src]
        omega
      · exact pendOK_eq (show (advance1 (skipSpacesTabs s) ch).pending = s.pending from k2)
          hwf.2.2.1
      · intro hemit
        rw [show (advance1 (skipSpacesTabs s) ch).eofEmitted = s.eofEmitted from k5,
          hne] at hemit
        cases hemit
    · rw [show (advance1 (skipSpacesTabs s) ch).src = s.src from by
        simp only [advance1_src]; exact k1]
      exact hnl
    · unfold lexMeasure
      simp only [advance1_src, advance1_i, advance1_pending, advance1_indents, advance1_bol,
        advance1_eofEmitted]
      rw [show (skipSpacesTabs s).src.length = s.src.length from hlen2,
        show (skipSpacesTabs s).pending = s.pending from k2,
        show (skipSpacesTabs s).indents = s.indents from k3]
      simp only [k4, k5]
      omega
  rw [nextCore.eq_def]
  by_cases hat : atEOF s = true
  · rw [if_pos hat]
    exact nextAtEOF_step s hwf hne hpend hbol (by unfold atEOF at hat; exact of_decide_eq_true hat)
  · rw [if_neg hat]
    have hat' : s.i < s.src.length := by
      unfold atEOF at hat
      rcases Nat.lt_or_ge s.i s.src.length with h | h
      · exact h
      · exact absurd (decide_eq_true h) hat
    dsimp only
    split
    next hpk =>
      have hge := peekCh_none_ge hpk
      rw [k1] at hge
      refine stepOK_lift (nextAtEOF_step (skipSpacesTabs s) ⟨?_, ?_, ?_, ?_⟩ (k5.trans hne)
        (k2.trans hpend) (k4.trans hbol) (by rw [k1]; exact hge)) k1
        (pbal_eq k3 k2) ?_
      · rw [k3]
        exact hwf.1
      · rw [k1]
        exact k7 hwf.2.1
      · exact pendOK_eq k2 hwf.2.2.1
      · intro hemit
        rw [k5, hne] at hemit
        cases hemit
      · unfold lexMeasure
        rw [show (skipSpacesTabs s).src.length = s.src.length from by rw [k1], k2, k3, k4, k5]
        omega
    next ch hpk =>
      have hchlt0 := peekCh_some_lt hpk
      have hchlt : (skipSpacesTabs s).i < s.src.length := by rw [← k1]; exact hchlt0
      by_cases hc0 : ch = '\n'
      · rw [if_pos hc0]
        exact base_emit _ _ _ _ _ (by simp only [advance1_src]; exact k1)
          (by simp only [advance1_pending]; exact k2)
          (by simp only [advance1_indents]; exact k3)
          (by simp only [advance1_eofEmitted]; exact k5)
          (by simp only [advance1_i]; omega) (by simp only [advance1_i]; omega)
          (by decide) (by decide) (by decide)
      · rw [if_neg hc0]
        by_cases hc1 : ch = '#'
        · rw [if_pos hc1]
          have hsrcnl : (skipSpacesTabs s).src[(skipSpacesTabs s).src.length - 1]? =
              some '\n' := by
            rw [k1]
            rcases hnl with hnl | hnl
            · rw [hnl] at hchlt
              simp at hchlt
            · exact hnl
          have hfind := skipToNL_finds_nl (skipSpacesTabs s) hsrcnl hchlt0
          obtain ⟨t1, t2, t3, t4, t5, t6, t7⟩ := skipToNL_fields (skipSpacesTabs s)
          rw [hfind]
          have hscl := peekCh_some_lt hfind
          refine base_emit _ _ _ _ _ (by simp only [advance1_src]; exact t1.trans k1)
            (by simp only [advance1_pending]; exact t2.trans k2)
            (by simp only [advance1_indents]; exact t3.trans k3)
            (by simp only [advance1_eofEmitted]; exact t5.trans k5)
            ?_ ?_ (by decide) (by decide) (by decide)
          · simp only [advance1_i]
            omega
          · simp only [advance1_i]
            rw [show (skipToNL (skipSpacesTabs s)).src.length = s.src.length from by
              rw [t1, k1]] at hscl
            omega
        · rw [if_neg hc1]
          by_cases hc2 : isIdentStart ch = true
          · rw [if_pos hc2]
            have hpart := identStart_part hc2
            have hstrict := scanIdent_strict hpk hpart
            obtain ⟨v1, v2, v3, v4, v5, v6, v7⟩ := scanIdent_fields (skipSpacesTabs s) []
            have hle : (scanIdent (skipSpacesTabs s) []).2.i ≤ s.src.length := by
              rw [← k1]
              exact v7 (le_of_lt hchlt0)
            split
            next k hk =>
              obtain ⟨q1, q2, q3⟩ := keywordKind_kinds _ _ hk
              exact base_emit _ _ _ _ _ (v1.trans k1) (v2.trans k2) (v3.trans k3) (v5.trans k5)
                (by omega) hle q1 q2 q3
            next hk =>
              exact base_emit _ _ _ _ _ (v1.trans k1) (v2.trans k2) (v3.trans k3) (v5.trans k5)
                (by omega) hle (by decide) (by decide) (by decide)
          · rw [if_neg hc2]
            by_cases hc3 : ch.isDigit = true
            · rw [if_pos hc3]
              have hstrict := scanNumber_strict hpk hc3
              obtain ⟨v1, v2, v3, v4, v5, v6, v7⟩ := scanNumber_fields (skipSpacesTabs s)
              have hle : (scanNumber (skipSpacesTabs s)).2.i ≤ s.src.length := by
                rw [← k1]
                exact v7 (le_of_lt hchlt0)
              exact base_emit _ _ _ _ _ (v1.trans k1) (v2.trans k2) (v3.trans k3) (v5.trans k5)
                (by omega) hle (by decide) (by decide) (by decide)
            · rw [if_neg hc3]
              by_cases hc4 : ch = '"'
              · rw [if_pos hc4]
                obtain ⟨v1, v2, v3, v4, v5, v6, v7⟩ := scanString_fields (skipSpacesTabs s)
                have hle : (scanString (skipSpacesTabs s)).2.i ≤ s.src.length := by
                  rw [← k1]
                  exact v7 hchlt0
                exact base_emit _ _ _ _ _ (v1.trans k1) (v2.trans k2) (v3.trans k3) (v5.trans k5)
                  (by omega) hle (by decide) (by decide) (by decide)
              · rw [if_neg hc4]
                by_cases hc5 : ch = ':'
                · rw [if_pos hc5]
                  by_cases hq : peekCh (advance1 (skipSpacesTabs s) ':') = some '='
                  · rw [if_pos hq]
                    exact emit2 _ _ _ _ _ _ hq (by decide) (by decide) (by decide)
                  · rw [if_neg hq]
                    exact emit1 _ _ _ _ _ hchlt0 (by decide) (by decide) (by decide)
                · rw [if_neg hc5]
                  by_cases hc6 : ch = '-'
                  · rw [if_pos hc6]
                    by_cases hq : peekCh (advance1 (skipSpacesTabs s) '-') = some '>'
                    · rw [if_pos hq]
                      exact emit2 _ _ _ _ _ _ hq (by decide) (by decide) (by decide)
                    · rw [if_neg hq]
                      exact emit1 _ _ _ _ _ hchlt0 (by decide) (by decide) (by decide)
                  · rw [if_neg hc6]
                    by_cases hc7 : ch = '='
                    · rw [if_pos hc7]
                      by_cases hq : peekCh (advance1 (skipSpacesTabs s) '=') = some '='
                      · rw [if_pos hq]
                        exact emit2 _ _ _ _ _ _ hq (by decide) (by decide) (by decide)
                      · rw [if_neg hq]
                        exact emit1 _ _ _ _ _ hchlt0 (by decide) (by decide) (by decide)
                    · rw [if_neg hc7]
                      by_cases hc8 : ch = '!'
                      · rw [if_pos hc8]
                        by_cases hq : peekCh (advance1 (skipSpacesTabs s) '!') = some '='
                        · rw [if_pos hq]
                          exact emit2 _ _ _ _ _ _ hq (by decide) (by decide) (by decide)
                        · rw [if_neg hq]
                          exact emit1 _ _ _ _ _ hchlt0 (by decide) (by decide) (by decide)
                      · rw [if_neg hc8]
                        by_cases hc9 : ch = '<'
                        · rw [if_pos hc9]
                          by_cases hq : peekCh (advance1 (skipSpacesTabs s) '<') = some '='
                          · rw [if_pos hq]
                            exact emit2 _ _ _ _ _ _ hq (by decide) (by decide) (by decide)
                          · rw [if_neg hq]
                            exact emit1 _ _ _ _ _ hchlt0 (by decide) (by decide) (by decide)
                        · rw [if_neg hc9]
                          by_cases hc10 : ch = '>'
                          · rw [if_pos hc10]
                            by_cases hq : peekCh (advance1 (skipSpacesTabs s) '>') = some '='
                            · rw [if_pos hq]
                              exact emit2 _ _ _ _ _ _ hq (by decide) (by decide) (by decide)
                            · rw [if_neg hq]
                              exact emit1 _ _ _ _ _ hchlt0 (by decide) (by decide) (by decide)
                          · rw [if_neg hc10]
                            by_cases hc11 : ch = '|'
                            · rw [if_pos hc11]
                              by_cases hq : peekCh (advance1 (skipSpacesTabs s) '|') = some '>'
                              · rw [if_pos hq]
                                exact emit2 _ _ _ _ _ _ hq (by decide) (by decide) (by decide)
                              · rw [if_neg hq]
                                exact emit1 _ _ _ _ _ hchlt0 (by decide) (by decide) (by decide)
                            · rw [if_neg hc11]
                              by_cases hc12 : ch = '+'
                              · rw [if_pos hc12]
                                exact emit1 _ _ _ _ _ hchlt0 (by decide) (by decide) (by decide)
                              · rw [if_neg hc12]
                                by_cases hc13 : ch = '*'
                                · rw [if_pos hc13]
                                  exact emit1 _ _ _ _ _ hchlt0 (by decide) (by decide) (by decide)
                                · rw [if_neg hc13]
                                  by_cases hc14 : ch = '/'
                                  · rw [if_pos hc14]
                                    exact emit1 _ _ _ _ _ hchlt0 (by decide) (by decide) (by decide)
                                  · rw [if_neg hc14]
                                    by_cases hc15 : ch = '%'
                                    · rw [if_pos hc15]
                                      exact emit1 _ _ _ _ _ hchlt0 (by decide) (by decide) (by decide)
                                    · rw [if_neg hc15]
                                      by_cases hc16 : ch = '('
                                      · rw [if_pos hc16]
                                        exact emit1 _ _ _ _ _ hchlt0 (by decide) (by decide) (by decide)
                                      · rw [if_neg hc16]
                                        by_cases hc17 : ch = ')'
                                        · rw [if_pos hc17]
                                          exact emit1 _ _ _ _ _ hchlt0 (by decide) (by decide) (by decide)
                                        · rw [if_neg hc17]
                                          by_cases hc18 : ch = '['
                                          · rw [if_pos hc18]
                                            exact emit1 _ _ _ _ _ hchlt0 (by decide) (by decide) (by decide)
                                          · rw [if_neg hc18]
                                            by_cases hc19 : ch = ']'
                                            · rw [if_pos hc19]
                                              exact emit1 _ _ _ _ _ hchlt0 (by decide) (by decide) (by decide)
                                            · rw [if_neg hc19]
                                              by_cases hc20 : ch = '.'
                                              · rw [if_pos hc20]
                                                exact emit1 _ _ _ _ _ hchlt0 (by decide) (by decide) (by decide)
                                              · rw [if_neg hc20]
                                                by_cases hc21 : ch = ','
                                                · rw [if_pos hc21]
                                                  exact emit1 _ _ _ _ _ hchlt0 (by decide) (by decide) (by decide)
                                                · rw [if_neg hc21]
                                                  exact hunk _ hpk

/-- The master step lemma for `Lexer.Next` on newline-terminated (or
empty) sources: every call from a well-formed state is a good step, and a
state that has already emitted EOF is a fixed point returning EOF. -/
theorem next_master : ∀ (n : Nat) (st : LexSt), 2 * (st.src.length - st.i) < n →
    LexWF st → nlTerm st.src →
    StepOK st (next st) ∧
    (st.eofEmitted = true → next st = (mkTok .eof "" st.line st.col, st)) := by
  intro n
  induction n using Nat.strong_induction_on with
  | _ n IHn =>
  intro st hn hwf hnl
  have IHfull : ∀ s2 : LexSt, 2 * (s2.src.length - s2.i) < 2 * (st.src.length - st.i) →
      LexWF s2 → nlTerm s2.src → StepOK s2 (next s2) := by
    intro s2 h2 hw2 hn2
    exact (IHn (2 * (st.src.length - st.i)) hn s2 h2 hw2 hn2).1
  by_cases he : st.eofEmitted = true
  · obtain ⟨w1, w2, w3, w4⟩ := hwf
    obtain ⟨z1, z2, z3, z4⟩ := w4 he
    have hstep : next st = (mkTok .eof "" st.line st.col, st) := by
      rw [next.eq_def, z2]
      dsimp only
      rw [z4]
      simp only [Bool.false_eq_true, if_false]
      rw [nextCore.eq_def]
      rw [if_pos (show atEOF st = true from by unfold atEOF; exact decide_eq_true z1)]
      unfold nextAtEOF
      rw [he]
      simp
    refine ⟨?_, fun _ => hstep⟩
    rw [hstep]
    refine ⟨rfl, ⟨w1, w2, w3, w4⟩, ?_, fun _ => ⟨he, ?_⟩, fun hk => absurd rfl hk⟩
    · rw [show tokDelta (mkTok .eof "" st.line st.col) = 0 from rfl, add_zero]
    · unfold pbal
      rw [z2]
      rcases hi : st.indents with - | ⟨x, r⟩
      · exact absurd hi w1
      · rw [hi] at z3
        simp only [List.length_cons] at z3
        have hr : r = [] := by
          cases r
          · rfl
          · simp at z3
        subst hr
        simp [countKind]
  · have he' : st.eofEmitted = false := by
      cases hx : st.eofEmitted
      · rfl
      · exact absurd hx he
    refine ⟨?_, fun hcontr => absurd hcontr he⟩
    rw [next.eq_def]
    split
    next t rest hp =>
      exact step_pop st t rest hp hwf he'
    next hp =>
      by_cases hbolt : st.bol = true
      · rw [if_pos hbolt]
        obtain ⟨b1, b2, b3, b4, b5, b6, b7, b8⟩ := handleBOL_master st hbolt hwf.1 hwf.2.1
        have hWF1 : LexWF (handleBOL st) := by
          refine ⟨b4, by rw [b1]; exact b7, b5 hwf.2.2.1, ?_⟩
          intro hemit
          rw [b3, he'] at hemit
          cases hemit
        dsimp only
        split
        next t rest h2 =>
          exact stepOK_lift (step_pop (handleBOL st) t rest h2 hWF1 (b3.trans he')) b1 b6
            (by omega)
        next h2 =>
          refine stepOK_lift (nextCore_step (handleBOL st) ?_ hWF1 ?_ (b3.trans he') b2 h2)
            b1 b6 (by omega)
          · intro s2 hlt2 hw2 hn2
            refine IHfull s2 ?_ hw2 hn2
            have hm := (handleBOL_src st).2
            have hl : (handleBOL st).src.length = st.src.length := by rw [b1]
            omega
          · rw [b1]
            exact hnl
      · rw [if_neg hbolt]
        have hbf : st.bol = false := by
          cases hx : st.bol
          · rfl
          · exact absurd hx hbolt
        exact nextCore_step st IHfull hwf hnl he' hbf hp

/-- One `Next` call from a well-formed state over a newline-terminated (or
empty) source is a good step; after EOF the state is a fixed point. -/
theorem next_step (st : LexSt) (hwf : LexWF st) (hnl : nlTerm st.src) :
    StepOK st (next st) ∧
    (st.eofEmitted = true → next st = (mkTok .eof "" st.line st.col, st)) :=
  next_master (2 * (st.src.length - st.i) + 1) st (by omega) hwf hnl

theorem countKind_zero_of_none {k : TokKind} : ∀ l : List Token,
    (∀ t ∈ l, t.kind ≠ k) → countKind k l = 0 := by
  intro l h
  induction l with
  | nil => rfl
  | cons t ts ih =>
    rw [countKind_cons, if_neg (h t (by simp))]
    simp only [Nat.zero_add]
    exact ih (fun t2 ht2 => h t2 (by simp [ht2]))

/-- Whenever `tokensFuel` returns a stream, that stream is a prefix of
non-EOF tokens followed by exactly one final EOF token. -/
theorem tokensFuel_shape : ∀ (n : Nat) (st : LexSt) (ts : List Token),
    tokensFuel st n = some ts →
    ∃ pre last, ts = pre ++ [last] ∧ last.kind = .eof ∧ ∀ t ∈ pre, t.kind ≠ .eof := by
  intro n
  induction n with
  | zero =>
    intro st ts h
    simp only [tokensFuel] at h
    cases h
  | succ n ih =>
    intro st ts h
    simp only [tokensFuel] at h
    by_cases hk : (next st).1.kind = .eof
    · rw [if_pos hk] at h
      cases h
      exact ⟨[], (next st).1, by simp, hk, by simp⟩
    · rw [if_neg hk] at h
      cases hrec : tokensFuel (next st).2 n with
      | none => rw [hrec] at h; cases h
      | some ts2 =>
        rw [hrec] at h
        cases h
        obtain ⟨pre, lst, e1, e2, e3⟩ := ih _ _ hrec
        refine ⟨(next st).1 :: pre, lst, by rw [e1]; rfl, e2, ?_⟩
        intro t ht
        rcases List.mem_cons.mp ht with h1 | h1
        · rw [h1]
          exact hk
        · exact e3 t h1

/-- With fuel above the state measure, the lexer run completes: the stream
up to the first EOF is produced and its indent/dedent imbalance equals the
negated ledger of the start state. -/
theorem tokensFuel_run : ∀ (n : Nat) (st : LexSt), LexWF st → nlTerm st.src →
    lexMeasure st < n →
    ∃ ts, tokensFuel st n = some ts ∧
      (countKind .indent ts : Int) - countKind .dedent ts = - pbal st := by
  intro n
  induction n using Nat.strong_induction_on with
  | _ n ihn =>
  intro st hwf hnl hm
  obtain ⟨⟨s1, s2, s3, s4, s5⟩, -⟩ := next_step st hwf hnl
  rcases n with - | n
  · omega
  by_cases hk : (next st).1.kind = .eof
  · refine ⟨[(next st).1], ?_, ?_⟩
    · simp only [tokensFuel]
      rw [if_pos hk]
    · obtain ⟨he2, hz⟩ := s4 hk
      have hd : tokDelta (next st).1 = 0 := by
        unfold tokDelta
        rw [hk]
        rfl
      rw [hd, add_zero] at s3
      rw [s3] at hz
      have c1 : countKind .indent [(next st).1] = 0 := by
        rw [countKind_cons, if_neg (by rw [hk]; decide)]
        rfl
      have c2 : countKind .dedent [(next st).1] = 0 := by
        rw [countKind_cons, if_neg (by rw [hk]; decide)]
        rfl
      rw [c1, c2, hz]
      norm_num
  · have hm2 : lexMeasure (next st).2 < lexMeasure st := s5 hk
    obtain ⟨ts2, hts2, hcnt⟩ := ihn n (by omega) (next st).2 s2 (by rw [s1]; exact hnl)
      (by omega)
    refine ⟨(next st).1 :: ts2, ?_, ?_⟩
    · simp only [tokensFuel]
      rw [if_neg hk, hts2]
    · rw [countKind_cons, countKind_cons]
      have hdelta := s3
      unfold tokDelta at hdelta
      by_cases hki : (next st).1.kind = .indent
      · have hkd : ¬ (next st).1.kind = .dedent := by rw [hki]; decide
        rw [if_pos hki] at hdelta
        rw [if_pos hki, if_neg hkd]
        push_cast
        omega
      · by_cases hkd : (next st).1.kind = .dedent
        · rw [if_neg hki, if_pos hkd] at hdelta
          rw [if_neg hki, if_pos hkd]
          push_cast
          omega
        · rw [if_neg hki, if_neg hkd] at hdelta
          rw [if_neg hki, if_neg hkd]
          push_cast
          omega

theorem init_wf (src : List Char) : LexWF (init src) := by
  refine ⟨by simp [init], by simp [init], ?_, ?_⟩
  · intro t ht
    simp [init] at ht
  · intro h
    simp [init] at h

theorem pbal_init (src : List Char) : pbal (init src) = 0 := by
  simp [pbal, init, countKind]

theorem stAfter_wf : ∀ (k : Nat) (st : LexSt), LexWF st → nlTerm st.src →
    LexWF (stAfter st k) ∧ (stAfter st k).src = st.src := by
  intro k
  induction k with
  | zero =>
    intro st hwf hnl
    exact ⟨hwf, rfl⟩
  | succ k ih =>
    intro st hwf hnl
    obtain ⟨S, -⟩ := next_step st hwf hnl
    have h2 := ih (next st).2 S.2.1 (by rw [S.1]; exact hnl)
    exact ⟨h2.1, h2.2.trans S.1⟩

theorem nthTok_eq : ∀ (n : Nat) (st : LexSt), nthTok st n = (next (stAfter st n)).1 := by
  intro n
  induction n with
  | zero =>
    intro st
    rfl
  | succ n ih =>
    intro st
    exact ih (next st).2

theorem stAfter_succ : ∀ (n : Nat) (st : LexSt), stAfter st (n + 1) = (next (stAfter st n)).2 := by
  intro n
  induction n with
  | zero =>
    intro st
    rfl
  | succ n ih =>
    intro st
    exact ih (next st).2

/-- C1 (corrected): over a source that is empty or ends with a newline,
the stream produced by repeated `Next` calls reaches EOF (with enough fuel
`lexMeasure (init src) + 1`), ends with exactly one EOF token, and the
number of INDENT tokens before that EOF equals the number of DEDENT
tokens.  (For sources whose last line ends mid-line in a comment the
balance fails — see `lexer_balance_counterexample`.) -/
theorem lexer_stream_balanced (src : List Char) (h : nlTerm src) :
    ∃ n ts, tokensFuel (init src) n = some ts ∧
      countKind .indent ts = countKind .dedent ts ∧
      countKind .eof ts = 1 ∧
      ∃ pre lst, ts = pre ++ [lst] ∧ lst.kind = .eof ∧ ∀ t ∈ pre, t.kind ≠ .eof := by
  obtain ⟨ts, hts, hcnt⟩ := tokensFuel_run (lexMeasure (init src) + 1) (init src)
    (init_wf src) h (by omega)
  obtain ⟨pre, lst, e1, e2, e3⟩ := tokensFuel_shape _ _ _ hts
  refine ⟨_, ts, hts, ?_, ?_, pre, lst, e1, e2, e3⟩
  · rw [pbal_init] at hcnt
    omega
  · rw [e1, countKind_append, countKind_zero_of_none pre e3, countKind_cons,
      if_pos e2]
    rfl

unseal next nextCore handleBOL countIndent skipSpacesTabs scanStringLoop skipToNL scanIdent unwindIndents dedentLoop in
/-- Witness for C1 at the newline-terminated source `"a\n"`. -/
theorem lexer_stream_balanced_witness :
    nlTerm ['a', '\n'] ∧
    (∃ n ts, tokensFuel (init ['a', '\n']) n = some ts ∧
      countKind .indent ts = countKind .dedent ts ∧
      countKind .eof ts = 1 ∧
      ∃ pre lst, ts = pre ++ [lst] ∧ lst.kind = .eof ∧ ∀ t ∈ pre, t.kind ≠ .eof) :=
  ⟨Or.inr rfl, lexer_stream_balanced ['a', '\n'] (Or.inr rfl)⟩

unseal next nextCore handleBOL countIndent skipSpacesTabs scanStringLoop skipToNL scanIdent unwindIndents dedentLoop in
/-- Counterexample to the unconditional claim: for the source
`"a\n b # c"` (the last line opens an indent level and ends inside a
mid-line comment without a final newline), the stream up to the first EOF
contains one INDENT and no DEDENT: `Next`'s mid-line-comment-at-EOF branch
returns a bare EOF token without unwinding the indent stack. -/
theorem lexer_balance_counterexample :
    ((tokensFuel (init ['a', '\n', ' ', 'b', ' ', '#', ' ', 'c']) 12).map
      (fun ts => (countKind .indent ts, countKind .dedent ts))) = some (1, 0) := by
  decide

set_option maxHeartbeats 1600000 in
unseal next nextCore handleBOL countIndent skipSpacesTabs scanStringLoop skipToNL scanIdent unwindIndents dedentLoop in
/-- C10 (corrected): `Next` is total by construction (it is a function
returning a token for every state — there is no failure path), and over a
source that is empty or ends with a newline it is EOF-stable: once some
position of the stream is EOF, every later position is EOF as well.
Unknown characters are skipped silently: lexing `"a@b\n"` yields exactly
the token kinds of `"a b\n"`, with no error token of any kind.  (Without
the newline guard EOF-stability fails — see
`next_eof_stability_counterexample`.) -/
theorem next_total_and_eof_stable (src : List Char) (h : nlTerm src) :
    (∀ n m : Nat, n ≤ m → (nthTok (init src) n).kind = .eof →
      (nthTok (init src) m).kind = .eof) ∧
    ((tokensFuel (init ['a', '@', 'b', '\n']) 9).map (List.map Token.kind) =
        some [.ident, .ident, .newline, .eof] ∧
      (tokensFuel (init ['a', ' ', 'b', '\n']) 9).map (List.map Token.kind) =
        some [.ident, .ident, .newline, .eof]) := by
  constructor
  · intro n m hnm hkn
    have hwfA : ∀ k, LexWF (stAfter (init src) k) ∧ (stAfter (init src) k).src = src :=
      fun k => stAfter_wf k (init src) (init_wf src) h
    have hnlA : ∀ k, nlTerm (stAfter (init src) k).src := by
      intro k
      rw [(hwfA k).2]
      exact h
    -- after the step that emitted EOF the flag is set…
    have hbase : (stAfter (init src) (n + 1)).eofEmitted = true := by
      rw [stAfter_succ]
      rw [nthTok_eq] at hkn
      exact (((next_step _ (hwfA n).1 (hnlA n)).1).2.2.2.1 hkn).1
    -- …and it persists, the state being a fixed point of `next`
    have hpersist : ∀ k, (stAfter (init src) (n + 1 + k)).eofEmitted = true := by
      intro k
      induction k with
      | zero => exact hbase
      | succ k ihp =>
        obtain ⟨-, hstable⟩ := next_step _ (hwfA (n + 1 + k)).1 (hnlA (n + 1 + k))
        have heq := hstable ihp
        rw [show n + 1 + (k + 1) = (n + 1 + k) + 1 from rfl, stAfter_succ, heq]
        exact ihp
    rcases Nat.eq_or_lt_of_le hnm with heq | hlt
    · rw [← heq]
      exact hkn
    · obtain ⟨k, hk⟩ : ∃ k, m = n + 1 + k := ⟨m - (n + 1), by omega⟩
      subst hk
      rw [nthTok_eq]
      obtain ⟨-, hstable⟩ := next_step _ (hwfA (n + 1 + k)).1 (hnlA (n + 1 + k))
      rw [hstable (hpersist k)]
      rfl
  · exact ⟨by decide, by decide⟩

unseal next nextCore handleBOL countIndent skipSpacesTabs scanStringLoop skipToNL scanIdent unwindIndents dedentLoop in
/-- Witness for C10 at the source `"\n"`: position 1 of its stream is EOF,
and stability carries it to position 2. -/
theorem next_total_and_eof_stable_witness :
    nlTerm ['\n'] ∧ (nthTok (init ['\n']) 2).kind = .eof :=
  ⟨Or.inr rfl, (next_total_and_eof_stable ['\n'] (Or.inr rfl)).1 1 2 (by omega) (by decide)⟩

unseal next nextCore handleBOL countIndent skipSpacesTabs scanStringLoop skipToNL scanIdent unwindIndents dedentLoop in
/-- Counterexample to unconditional EOF-stability: for the source
`" b # c"` (indented line ending in a mid-line comment at EOF), position 2
of the stream is EOF but position 3 is DEDENT — a consumer reading past
the first EOF does not keep seeing EOF. -/
theorem next_eof_stability_counterexample :
    (nthTok (init [' ', 'b', ' ', '#', ' ', 'c']) 2).kind = .eof ∧
    (nthTok (init [' ', 'b', ' ', '#', ' ', 'c']) 3).kind = .dedent := by
  decide

end Lexer

/- ================================================================
   build package, continued: C4/C5 resolver analysis
   ================================================================ -/

namespace Build


/-- The parsed file stored at `p` (defaulting to an empty file; only ever
applied to paths present in `fs`). -/
def fileOf (fs : FS) (p : String) : DFile :=
  (fsLookup fs p).getD ⟨[], []⟩

/-- The declarations of the file stored at `p`. -/
def declsOf (fs : FS) (p : String) : List Nat :=
  (fileOf fs p).decls

/-- Concatenated declarations of a list of paths, in order. -/
def declsConcat (fs : FS) (ps : List String) : List Nat :=
  ps.foldl (fun acc q => acc ++ declsOf fs q) []

/-- `p` reaches `q` through at least one import edge. -/
def ReachPlus (fs : FS) (rootDir : String) (p q : String) : Prop :=
  ∃ r, Edge fs rootDir p r ∧ Reach fs rootDir r q

/-- Shape of the cycle diagnostic emitted by `loadAux`. -/
def isCycleErr (e : String) : Prop :=
  ∃ q, e = "import cycle detected involving " ++ q

/-- Position of the first occurrence of `x` in `l` (`l.length` if absent). -/
def posIdx (l : List String) (x : String) : Nat :=
  match l with
  | [] => 0
  | y :: t => if y = x then 0 else posIdx t x + 1

theorem posIdx_append_left {l1 : List String} (l2 : List String) {x : String}
    (h : x ∈ l1) : posIdx (l1 ++ l2) x = posIdx l1 x := by
  induction l1 with
  | nil => cases h
  | cons y t ih =>
    by_cases hy : y = x
    · simp [posIdx, hy]
    · rcases List.mem_cons.mp h with h1 | h1
      · exact absurd h1.symm hy
      · simp [posIdx, hy, ih h1]

theorem posIdx_lt_length {l : List String} {x : String} (h : x ∈ l) :
    posIdx l x < l.length := by
  induction l with
  | nil => cases h
  | cons y t ih =>
    by_cases hy : y = x
    · simp [posIdx, hy]
    · rcases List.mem_cons.mp h with h1 | h1
      · exact absurd h1.symm hy
      · simp only [posIdx, if_neg hy, List.length_cons]
        exact Nat.succ_lt_succ (ih h1)

theorem posIdx_append_self {l : List String} {x : String} (h : x ∉ l) :
    posIdx (l ++ [x]) x = l.length := by
  induction l with
  | nil => simp [posIdx]
  | cons y t ih =>
    have hy : ¬ y = x := fun e => h (by simp [e])
    have ht := ih (fun hm => h (List.mem_cons_of_mem _ hm))
    simp only [List.cons_append, posIdx, if_neg hy, List.length_cons]
    show posIdx (t ++ [x]) x + 1 = t.length + 1
    rw [ht]

theorem nodup_subset_length {l1 l2 : List String} (h1 : l1.Nodup)
    (h2 : ∀ x ∈ l1, x ∈ l2) : l1.length ≤ l2.length := by
  have c1 : l1.toFinset.card = l1.length := List.toFinset_card_of_nodup h1
  have c3 : l1.toFinset.card ≤ l2.toFinset.card := by
    apply Finset.card_le_card
    intro x hx
    rw [List.mem_toFinset] at hx ⊢
    exact h2 x hx
  have c4 : l2.toFinset.card ≤ l2.length := l2.toFinset_card_le
  omega

theorem fsLookup_isSome_mem {fs : FS} {p : String}
    (h : (fsLookup fs p).isSome = true) : p ∈ fs.map (·.1) := by
  unfold fsLookup at h
  cases hf : fs.find? (fun u => u.1 = p) with
  | none => rw [hf] at h; simp at h
  | some u =>
    have hm := List.mem_of_find?_eq_some hf
    have hp : u.1 = p := by simpa using List.find?_some hf
    rw [← hp]
    exact List.mem_map.mpr ⟨u, hm, rfl⟩

theorem stack_pigeonhole {fs : FS} {stack : List String}
    (hnd : stack.Nodup) (hsf : ∀ q ∈ stack, (fsLookup fs q).isSome = true) :
    stack.length ≤ fs.length := by
  have h2 : ∀ x ∈ stack, x ∈ fs.map (·.1) := fun x hx => fsLookup_isSome_mem (hsf x hx)
  have h3 := nodup_subset_length hnd h2
  simpa using h3

theorem edge_reach {fs : FS} {rootDir a b c : String}
    (e : Edge fs rootDir a b) (h : Reach fs rootDir b c) : Reach fs rootDir a c := by
  induction h with
  | refl => exact Reach.step (Reach.refl a) e
  | step h1 e2 ih => exact Reach.step ih e2

theorem reach_headStep {fs : FS} {rootDir a b : String}
    (h : Reach fs rootDir a b) : a = b ∨ ReachPlus fs rootDir a b := by
  induction h with
  | refl => exact Or.inl rfl
  | step h1 e ih =>
    rcases ih with rfl | ⟨c, ec, hc⟩
    · exact Or.inr ⟨_, e, Reach.refl _⟩
    · exact Or.inr ⟨c, ec, Reach.step hc e⟩

theorem dfsPost_vis_shape (fs : FS) (rootDir : String) : ∀ fuel,
    (∀ vis p, (dfsPost fs rootDir fuel vis p).1 =
      vis ++ (dfsPost fs rootDir fuel vis p).2) ∧
    (∀ vis imps, (dfsPostChildren fs rootDir fuel vis imps).1 =
      vis ++ (dfsPostChildren fs rootDir fuel vis imps).2) := by
  intro fuel
  induction fuel with
  | zero =>
    constructor
    · intro vis p
      simp [dfsPost]
    · intro vis imps
      induction imps generalizing vis with
      | nil => simp [dfsPostChildren]
      | cons imp rest ih =>
        by_cases hs : imp.startsWith "std."
        · simp [dfsPostChildren, hs, ih]
        · by_cases ht : (fsLookup fs (resolveImport rootDir imp)).isSome
          · simp [dfsPostChildren, hs, ht, dfsPost, ih]
          · simp [dfsPostChildren, hs, ht, ih]
  | succ fuel ihf =>
    have hD1 : ∀ vis p, (dfsPost fs rootDir (fuel + 1) vis p).1 =
        vis ++ (dfsPost fs rootDir (fuel + 1) vis p).2 := by
      intro vis p
      rw [dfsPost]
      by_cases hv : p ∈ vis
      · simp [hv]
      · cases hf : fsLookup fs p with
        | none => simp [hv, hf]
        | some f =>
          simp [hf, hv, ihf.2]
    refine ⟨hD1, ?_⟩
    intro vis imps
    induction imps generalizing vis with
    | nil => simp [dfsPostChildren]
    | cons imp rest ih =>
      by_cases hs : imp.startsWith "std."
      · simp [dfsPostChildren, hs, ih]
      · by_cases ht : (fsLookup fs (resolveImport rootDir imp)).isSome
        · rw [dfsPostChildren]
          simp only [hs, if_false, ht, if_true]
          rw [ih ((dfsPost fs rootDir (fuel + 1) vis (resolveImport rootDir imp)).1)]
          rw [hD1 vis (resolveImport rootDir imp)]
          simp
        · simp [dfsPostChildren, hs, ht, ih]


/-- Facts about the paths a (sub)run emits: no duplicates, disjoint from
the already-seen set and from the DFS stack, and all reachable from the
entry. -/
def SimOut (fs : FS) (rootDir entryAbs : String) (stack seen out : List String) : Prop :=
  out.Nodup ∧ (∀ q ∈ out, q ∉ seen) ∧ (∀ q ∈ out, q ∉ stack) ∧
  (∀ q ∈ out, Reach fs rootDir entryAbs q)

/-- Simulation statement for one `loadAux` call: on error-free input
state, with every stack entry a strict ancestor of `p` and enough fuel,
the call reproduces exactly the specification-side DFS post-order step. -/
def SimA (fs : FS) (rootDir entryAbs : String) (fuel : Nat) : Prop :=
  ∀ stack st p, st.errs = [] →
    Reach fs rootDir entryAbs p →
    (∃ f, fsLookup fs p = some f) →
    (∀ q ∈ stack, ReachPlus fs rootDir q p) →
    fs.length + 1 ≤ fuel + stack.length →
    stack.Nodup →
    (∀ q ∈ stack, (fsLookup fs q).isSome = true) →
    (∀ q ∈ st.seen, ∀ r, Edge fs rootDir q r → r ∈ st.seen) →
    loadAux fs rootDir fuel stack st p =
      { errs := [],
        seen := (dfsPost fs rootDir fuel st.seen p).1,
        result := st.result ++
          (dfsPost fs rootDir fuel st.seen p).2.map (fun q => (q, fileOf fs q)) } ∧
    SimOut fs rootDir entryAbs stack st.seen (dfsPost fs rootDir fuel st.seen p).2 ∧
    p ∈ (dfsPost fs rootDir fuel st.seen p).1 ∧
    (∀ q ∈ (dfsPost fs rootDir fuel st.seen p).1, ∀ r, Edge fs rootDir q r →
      r ∈ (dfsPost fs rootDir fuel st.seen p).1)

/-- Simulation statement for the import loop of one file. -/
def SimB (fs : FS) (rootDir entryAbs : String) (fuel : Nat) : Prop :=
  ∀ stack fromPath f0 imps st, st.errs = [] →
    Reach fs rootDir entryAbs fromPath →
    fsLookup fs fromPath = some f0 →
    (∀ imp ∈ imps, imp ∈ f0.imports) →
    (∀ q ∈ stack, Reach fs rootDir q fromPath) →
    fs.length + 1 ≤ fuel + stack.length →
    stack.Nodup →
    (∀ q ∈ stack, (fsLookup fs q).isSome = true) →
    (∀ q ∈ st.seen, ∀ r, Edge fs rootDir q r → r ∈ st.seen) →
    loadImports fs rootDir fuel stack st imps fromPath =
      { errs := [],
        seen := (dfsPostChildren fs rootDir fuel st.seen imps).1,
        result := st.result ++
          (dfsPostChildren fs rootDir fuel st.seen imps).2.map (fun q => (q, fileOf fs q)) } ∧
    SimOut fs rootDir entryAbs stack st.seen (dfsPostChildren fs rootDir fuel st.seen imps).2 ∧
    (∀ imp ∈ imps, ¬ imp.startsWith "std." →
      resolveImport rootDir imp ∈ (dfsPostChildren fs rootDir fuel st.seen imps).1) ∧
    (∀ q ∈ (dfsPostChildren fs rootDir fuel st.seen imps).1, ∀ r, Edge fs rootDir q r →
      r ∈ (dfsPostChildren fs rootDir fuel st.seen imps).1)

/-- On a closed, acyclic reachable import graph, `loadAux` is an exact
implementation of the DFS post-order: it emits no error, extends `seen`
by precisely the specification-side visit order, and appends to `result`
exactly the visited files in post-order. -/
theorem load_sim (fs : FS) (rootDir entryAbs : String)
    (hclosed : ∀ p, Reach fs rootDir entryAbs p → ∀ f, fsLookup fs p = some f →
      ∀ imp ∈ f.imports, ¬ imp.startsWith "std." →
        (fsLookup fs (resolveImport rootDir imp)).isSome = true)
    (hacyc : ∀ p q, Reach fs rootDir entryAbs p → Edge fs rootDir p q →
      Reach fs rootDir q p → False) : ∀ fuel,
    SimA fs rootDir entryAbs fuel ∧ SimB fs rootDir entryAbs fuel := by
  intro fuel
  induction fuel with
  | zero =>
    constructor
    · intro stack st p h1 h2 hex hstk hfuel hnd hsf h6
      exfalso
      have hle := stack_pigeonhole hnd hsf
      omega
    · intro stack fromPath f0 imps st h1 h2 hf0 himps hstk hfuel hnd hsf h6
      exfalso
      have hle := stack_pigeonhole hnd hsf
      omega
  | succ fuel ih =>
    have hA : SimA fs rootDir entryAbs (fuel + 1) := by
      intro stack st p h1 h2 hex hstk hfuel hnd hsf h6
      obtain ⟨f, hf⟩ := hex
      by_cases hseen : p ∈ st.seen
      · have hload : loadAux fs rootDir (fuel + 1) stack st p = st := by
          rw [loadAux]
          simp [hseen]
        have hdfs : dfsPost fs rootDir (fuel + 1) st.seen p = (st.seen, []) := by
          rw [dfsPost]
          simp [hseen]
        refine ⟨?_, ?_, ?_, ?_⟩
        · rw [hload, hdfs]
          cases st with
          | mk errs seen result => simp_all
        · rw [hdfs]
          exact ⟨List.nodup_nil, by simp, by simp, by simp⟩
        · rw [hdfs]
          exact hseen
        · rw [hdfs]
          exact h6
      · have hpst : p ∉ stack := by
          intro hc
          obtain ⟨r, er, hr⟩ := hstk p hc
          exact hacyc p r h2 er hr
        have hstk2 : ∀ q ∈ stack ++ [p], Reach fs rootDir q p := by
          intro q hq
          rcases List.mem_append.mp hq with hq | hq
          · obtain ⟨r, er, hr⟩ := hstk q hq
            exact edge_reach er hr
          · rcases List.mem_singleton.mp hq with rfl
            exact Reach.refl _
        have hfuel2 : fs.length + 1 ≤ fuel + (stack ++ [p]).length := by
          simp [List.length_append]
          omega
        have hnd2 : (stack ++ [p]).Nodup := by
          simp [List.nodup_append, hnd, hpst]
        have hsf2 : ∀ q ∈ stack ++ [p], (fsLookup fs q).isSome = true := by
          intro q hq
          rcases List.mem_append.mp hq with hq | hq
          · exact hsf q hq
          · rcases List.mem_singleton.mp hq with rfl
            rw [hf]
            rfl
        obtain ⟨heq2, hsim2, htgt2, hclo2⟩ :=
          ih.2 (stack ++ [p]) p f f.imports st h1 h2 hf (fun imp h => h) hstk2 hfuel2 hnd2 hsf2 h6
        have hvs := (dfsPost_vis_shape fs rootDir fuel).2 st.seen f.imports
        obtain ⟨hnd2x, hdisj2, hnstk2, hre2⟩ := hsim2
        have hpdc : p ∉ (dfsPostChildren fs rootDir fuel st.seen f.imports).2 :=
          fun hm => (hnstk2 p hm) (by simp)
        have hload : loadAux fs rootDir (fuel + 1) stack st p =
            { loadImports fs rootDir fuel (stack ++ [p]) st f.imports p with
              result := (loadImports fs rootDir fuel (stack ++ [p]) st f.imports p).result
                ++ [(p, f)],
              seen := (loadImports fs rootDir fuel (stack ++ [p]) st f.imports p).seen
                ++ [p] } := by
          rw [loadAux]
          simp [hseen, hpst, hf]
        have hdfs : dfsPost fs rootDir (fuel + 1) st.seen p =
            ((dfsPostChildren fs rootDir fuel st.seen f.imports).1 ++ [p],
             (dfsPostChildren fs rootDir fuel st.seen f.imports).2 ++ [p]) := by
          rw [dfsPost]
          simp [hseen, hf]
        have hfile : fileOf fs p = f := by
          rw [fileOf, hf]
          rfl
        refine ⟨?_, ?_, ?_, ?_⟩
        · rw [hload, heq2, hdfs]
          simp [List.map_append, hfile, List.append_assoc]
        · rw [hdfs]
          refine ⟨?_, ?_, ?_, ?_⟩
          · simp [List.nodup_append, hnd2x, hpdc]
          · intro q hq
            rcases List.mem_append.mp hq with hq | hq
            · exact hdisj2 q hq
            · rcases List.mem_singleton.mp hq with rfl
              exact hseen
          · intro q hq
            rcases List.mem_append.mp hq with hq | hq
            · exact fun hm => (hnstk2 q hq) (List.mem_append_left _ hm)
            · rcases List.mem_singleton.mp hq with rfl
              exact hpst
          · intro q hq
            rcases List.mem_append.mp hq with hq | hq
            · exact hre2 q hq
            · rcases List.mem_singleton.mp hq with rfl
              exact h2
        · rw [hdfs]
          exact List.mem_append_right _ (by simp)
        · rw [hdfs]
          intro q hq r hr
          rcases List.mem_append.mp hq with hq | hq
          · exact List.mem_append_left _ (hclo2 q hq r hr)
          · rcases List.mem_singleton.mp hq with rfl
            obtain ⟨f2, hf2, imp, him, hns, hres, hsome⟩ := hr
            rw [hf] at hf2
            have hff : f = f2 := Option.some.inj hf2
            rw [← hres]
            exact List.mem_append_left _ (htgt2 imp (hff ▸ him) hns)
    have hB : SimB fs rootDir entryAbs (fuel + 1) := by
      intro stack fromPath f0 imps
      induction imps with
      | nil =>
        intro st h1 h2 hf0 himps hstk hfuel hnd hsf h6
        have hload : loadImports fs rootDir (fuel + 1) stack st [] fromPath = st := by
          rw [loadImports]
        have hdfs : dfsPostChildren fs rootDir (fuel + 1) st.seen [] = (st.seen, []) := by
          rw [dfsPostChildren]
        refine ⟨?_, ?_, ?_, ?_⟩
        · rw [hload, hdfs]
          cases st with
          | mk errs seen result => simp_all
        · rw [hdfs]
          exact ⟨List.nodup_nil, by simp, by simp, by simp⟩
        · intro i hi
          cases hi
        · rw [hdfs]
          exact h6
      | cons imp rest ihr =>
        intro st h1 h2 hf0 himps hstk hfuel hnd hsf h6
        have himp0 : imp ∈ f0.imports := himps imp (by simp)
        have hrest : ∀ i ∈ rest, i ∈ f0.imports :=
          fun i hi => himps i (List.mem_cons_of_mem _ hi)
        by_cases hs : imp.startsWith "std."
        · have hload : loadImports fs rootDir (fuel + 1) stack st (imp :: rest) fromPath =
              loadImports fs rootDir (fuel + 1) stack st rest fromPath := by
            rw [loadImports]
            simp [hs]
          have hdfs : dfsPostChildren fs rootDir (fuel + 1) st.seen (imp :: rest) =
              dfsPostChildren fs rootDir (fuel + 1) st.seen rest := by
            rw [dfsPostChildren]
            simp [hs]
          obtain ⟨e1, s1, t1, c1⟩ := ihr st h1 h2 hf0 hrest hstk hfuel hnd hsf h6
          rw [hload, hdfs]
          refine ⟨e1, s1, ?_, c1⟩
          intro i hi hns
          rcases List.mem_cons.mp hi with rfl | hi
          · exact absurd hs hns
          · exact t1 i hi hns
        · have htex : (fsLookup fs (resolveImport rootDir imp)).isSome = true :=
            hclosed fromPath h2 f0 hf0 imp himp0 hs
          have hedge : Edge fs rootDir fromPath (resolveImport rootDir imp) :=
            ⟨f0, hf0, imp, himp0, hs, rfl, htex⟩
          have hrt : Reach fs rootDir entryAbs (resolveImport rootDir imp) :=
            Reach.step h2 hedge
          have hstk1 : ∀ q ∈ stack, ReachPlus fs rootDir q (resolveImport rootDir imp) := by
            intro q hq
            rcases reach_headStep (hstk q hq) with heq | ⟨c, ec, hc⟩
            · rw [heq]
              exact ⟨_, hedge, Reach.refl _⟩
            · exact ⟨c, ec, Reach.step hc hedge⟩
          have hex1 : ∃ g, fsLookup fs (resolveImport rootDir imp) = some g := by
            cases hfl : fsLookup fs (resolveImport rootDir imp) with
            | none =>
              rw [hfl] at htex
              cases htex
            | some g => exact ⟨g, rfl⟩
          obtain ⟨heq1, hsim1, hmem1, hclo1⟩ :=
            hA stack st (resolveImport rootDir imp) h1 hrt hex1 hstk1 hfuel hnd hsf h6
          have hvs1 : (dfsPost fs rootDir (fuel + 1) st.seen (resolveImport rootDir imp)).1 =
              st.seen ++ (dfsPost fs rootDir (fuel + 1) st.seen (resolveImport rootDir imp)).2 :=
            (dfsPost_vis_shape fs rootDir (fuel + 1)).1 st.seen _
          obtain ⟨hnd1x, hdisj1, hnstk1, hre1⟩ := hsim1
          -- state after the head import, written as a literal
          have h1x : (loadAux fs rootDir (fuel + 1) stack st (resolveImport rootDir imp)).errs
              = [] := by
            rw [heq1]
          have h6x : ∀ q ∈ (loadAux fs rootDir (fuel + 1) stack st
              (resolveImport rootDir imp)).seen, ∀ r, Edge fs rootDir q r →
              r ∈ (loadAux fs rootDir (fuel + 1) stack st (resolveImport rootDir imp)).seen := by
            rw [heq1]
            exact hclo1
          obtain ⟨e2, s2, t2, c2⟩ :=
            ihr (loadAux fs rootDir (fuel + 1) stack st (resolveImport rootDir imp))
              h1x h2 hf0 hrest hstk hfuel hnd hsf h6x
          have hseen1 : (loadAux fs rootDir (fuel + 1) stack st
              (resolveImport rootDir imp)).seen =
              (dfsPost fs rootDir (fuel + 1) st.seen (resolveImport rootDir imp)).1 := by
            rw [heq1]
          have hres1 : (loadAux fs rootDir (fuel + 1) stack st
              (resolveImport rootDir imp)).result =
              st.result ++ (dfsPost fs rootDir (fuel + 1) st.seen
                (resolveImport rootDir imp)).2.map (fun q => (q, fileOf fs q)) := by
            rw [heq1]
          rw [hseen1] at e2 s2 t2 c2
          have hload : loadImports fs rootDir (fuel + 1) stack st (imp :: rest) fromPath =
              loadImports fs rootDir (fuel + 1) stack
                (loadAux fs rootDir (fuel + 1) stack st (resolveImport rootDir imp))
                rest fromPath := by
            rw [loadImports]
            simp [hs, htex]
          have hdfs : dfsPostChildren fs rootDir (fuel + 1) st.seen (imp :: rest) =
              ((dfsPostChildren fs rootDir (fuel + 1)
                  (dfsPost fs rootDir (fuel + 1) st.seen (resolveImport rootDir imp)).1 rest).1,
               (dfsPost fs rootDir (fuel + 1) st.seen (resolveImport rootDir imp)).2 ++
                (dfsPostChildren fs rootDir (fuel + 1)
                  (dfsPost fs rootDir (fuel + 1) st.seen (resolveImport rootDir imp)).1 rest).2) := by
            rw [dfsPostChildren]
            simp [hs, htex]
          have hvs2 : (dfsPostChildren fs rootDir (fuel + 1)
              (dfsPost fs rootDir (fuel + 1) st.seen (resolveImport rootDir imp)).1 rest).1 =
              (dfsPost fs rootDir (fuel + 1) st.seen (resolveImport rootDir imp)).1 ++
              (dfsPostChildren fs rootDir (fuel + 1)
                (dfsPost fs rootDir (fuel + 1) st.seen (resolveImport rootDir imp)).1 rest).2 :=
            (dfsPost_vis_shape fs rootDir (fuel + 1)).2 _ rest
          obtain ⟨snd2, sdisj2, snstk2, sre2⟩ := s2
          refine ⟨?_, ?_, ?_, ?_⟩
          · rw [hload, e2, hdfs]
            rw [hres1]
            simp [List.map_append, List.append_assoc]
          · rw [hdfs]
            refine ⟨?_, ?_, ?_, ?_⟩
            · rw [List.nodup_append]
              refine ⟨hnd1x, snd2, ?_⟩
              intro a ha ha2
              have hna := sdisj2 a ha2
              rw [hvs1] at hna
              exact hna (List.mem_append_right _ ha)
            · intro q hq
              rcases List.mem_append.mp hq with hq | hq
              · exact hdisj1 q hq
              · have hna := sdisj2 q hq
                rw [hvs1] at hna
                exact fun hm => hna (List.mem_append_left _ hm)
            · intro q hq
              rcases List.mem_append.mp hq with hq | hq
              · exact hnstk1 q hq
              · exact snstk2 q hq
            · intro q hq
              rcases List.mem_append.mp hq with hq | hq
              · exact hre1 q hq
              · exact sre2 q hq
          · rw [hdfs]
            intro i hi hns
            rcases List.mem_cons.mp hi with rfl | hi
            · rw [hvs2]
              exact List.mem_append_left _ hmem1
            · exact t2 i hi hns
          · rw [hdfs]
            exact c2
    exact ⟨hA, hB⟩


theorem filter_pairs_eq (fs : FS) (e : String) : ∀ pre : List String, e ∉ pre →
    (pre.map (fun q => (q, fileOf fs q))).filter (fun u => u.1 = e) = [] := by
  intro pre
  induction pre with
  | nil =>
    intro h
    rfl
  | cons q t ih =>
    intro h
    have hq : ¬ q = e := fun hh => h (by simp [hh])
    simp only [List.map_cons, List.filter_cons]
    simp [hq, ih (fun hm => h (List.mem_cons_of_mem _ hm))]

theorem filter_pairs_ne (fs : FS) (e : String) : ∀ pre : List String, e ∉ pre →
    (pre.map (fun q => (q, fileOf fs q))).filter (fun u => ¬ u.1 = e) =
      pre.map (fun q => (q, fileOf fs q)) := by
  intro pre
  induction pre with
  | nil =>
    intro h
    rfl
  | cons q t ih =>
    intro h
    have hq : ¬ q = e := fun hh => h (by simp [hh])
    simp only [List.map_cons, List.filter_cons]
    simp only [hq, ih (fun hm => h (List.mem_cons_of_mem _ hm))]
    simp only [decide_not]
    simp [hq]

theorem foldl_pairs_decls (fs : FS) (ps : List String) :
    (ps.map (fun q => (q, fileOf fs q))).foldl (fun acc u => acc ++ u.2.decls) [] =
      declsConcat fs ps := by
  rw [List.foldl_map]
  rfl

theorem mergeDecls_entry_last (fs : FS) (entryAbs : String) (pre : List String)
    (hne : entryAbs ∉ pre) :
    mergeDecls ((pre ++ [entryAbs]).map (fun q => (q, fileOf fs q))) entryAbs =
      declsOf fs entryAbs ++ declsConcat fs pre := by
  unfold mergeDecls
  rw [List.map_append, List.filter_append, List.filter_append]
  rw [filter_pairs_eq fs entryAbs pre hne, filter_pairs_ne fs entryAbs pre hne]
  simp only [List.map_cons, List.map_nil, List.filter_cons, List.filter_nil,
    List.append_nil, List.nil_append]
  simp only [decide_eq_true_eq]
  rw [if_pos trivial, if_neg (not_not_intro trivial)]
  simp only [List.append_nil, List.foldl_cons, List.foldl_nil, List.nil_append]
  rw [foldl_pairs_decls fs pre]
  rfl


/-- C4: for every acyclic import graph whose entry file exists and whose
reachable files' non-std imports all resolve to existing files (every
reachable file loads and parses successfully), `ResolveAndParse` reports
no error, loads each reachable file exactly once (its `result` list is
the specification-side DFS post-order, without duplicates, covering
exactly the reachable files), and the merged declaration list is the
entry file's declarations first, followed by the declarations of the
transitively imported files in DFS post-order. -/
theorem ResolveAndParse_dag_post_order (fs : FS) (rootDir entryAbs : String)
    (hentry : (fsLookup fs entryAbs).isSome = true)
    (hclosed : ∀ p, Reach fs rootDir entryAbs p → ∀ f, fsLookup fs p = some f →
      ∀ imp ∈ f.imports, ¬ imp.startsWith "std." →
        (fsLookup fs (resolveImport rootDir imp)).isSome = true)
    (hacyc : ∀ p q, Reach fs rootDir entryAbs p → Edge fs rootDir p q →
      Reach fs rootDir q p → False) :
    (ResolveAndParse fs rootDir entryAbs).2 = [] ∧
    (loadAux fs rootDir (fs.length + 1) [] ⟨[], [], []⟩ entryAbs).result =
      (dfsPost fs rootDir (fs.length + 1) [] entryAbs).2.map (fun q => (q, fileOf fs q)) ∧
    (dfsPost fs rootDir (fs.length + 1) [] entryAbs).2.Nodup ∧
    (∀ q, q ∈ (dfsPost fs rootDir (fs.length + 1) [] entryAbs).2 ↔
      Reach fs rootDir entryAbs q) ∧
    ∃ pre, (dfsPost fs rootDir (fs.length + 1) [] entryAbs).2 = pre ++ [entryAbs] ∧
      entryAbs ∉ pre ∧
      (ResolveAndParse fs rootDir entryAbs).1 =
        some (declsOf fs entryAbs ++ declsConcat fs pre) := by
  obtain ⟨f, hf⟩ : ∃ f, fsLookup fs entryAbs = some f := by
    cases hfl : fsLookup fs entryAbs with
    | none =>
      rw [hfl] at hentry
      cases hentry
    | some g => exact ⟨g, rfl⟩
  obtain ⟨heq, hsim, hmem, hclo⟩ :=
    (load_sim fs rootDir entryAbs hclosed hacyc (fs.length + 1)).1 [] ⟨[], [], []⟩ entryAbs
      rfl (Reach.refl _) ⟨f, hf⟩ (by intro q h; cases h) (by simp) List.nodup_nil
      (by intro q h; cases h) (by intro q h; cases h)
  have hvs := (dfsPost_vis_shape fs rootDir (fs.length + 1)).1 [] entryAbs
  simp only [List.nil_append] at hvs
  rw [hvs] at hmem hclo
  obtain ⟨hnodup, hdisj, hnstk, hreach⟩ := hsim
  have hrap : ResolveAndParse fs rootDir entryAbs =
      (some (mergeDecls ((dfsPost fs rootDir (fs.length + 1) [] entryAbs).2.map
        (fun q => (q, fileOf fs q))) entryAbs), []) := by
    unfold ResolveAndParse
    rw [heq]
    simp
  have hcomplete : ∀ q, Reach fs rootDir entryAbs q →
      q ∈ (dfsPost fs rootDir (fs.length + 1) [] entryAbs).2 := by
    intro q hq
    induction hq with
    | refl => exact hmem
    | step h1 e ih => exact hclo _ ih _ e
  have hdstep : dfsPost fs rootDir (fs.length + 1) [] entryAbs =
      ((dfsPostChildren fs rootDir fs.length [] f.imports).1 ++ [entryAbs],
       (dfsPostChildren fs rootDir fs.length [] f.imports).2 ++ [entryAbs]) := by
    rw [dfsPost]
    simp [hf]
  have hne : entryAbs ∉ (dfsPostChildren fs rootDir fs.length [] f.imports).2 := by
    have hnd2 := hnodup
    rw [hdstep] at hnd2
    rw [List.nodup_append] at hnd2
    intro hm
    exact hnd2.2.2 hm (by simp)
  refine ⟨?_, ?_, hnodup, ?_, ?_⟩
  · rw [hrap]
  · rw [heq]
    simp
  · intro q
    exact ⟨hreach q, hcomplete q⟩
  · refine ⟨(dfsPostChildren fs rootDir fs.length [] f.imports).2, ?_, hne, ?_⟩
    · rw [hdstep]
    · rw [hrap]
      simp only []
      have hd2 : (dfsPost fs rootDir (fs.length + 1) [] entryAbs).2 =
          (dfsPostChildren fs rootDir fs.length [] f.imports).2 ++ [entryAbs] := by
        rw [hdstep]
      rw [hd2, mergeDecls_entry_last fs entryAbs _ hne]


/-- Finish-order closure: every import edge out of an already-finished
file lands on a file that finished strictly earlier. -/
def FinClosed (fs : FS) (rootDir : String) (l : List String) : Prop :=
  ∀ q ∈ l, ∀ r, Edge fs rootDir q r → r ∈ l ∧ posIdx l r < posIdx l q

/-- Monotonicity and conditional closure of one `loadAux` call: errors
and `seen` only grow by appending, newly seen files were not on the
stack, and — provided the whole run raises no cycle diagnostic — `seen`
stays closed under import edges in strict finish order and gains `p`. -/
def MonA (fs : FS) (rootDir : String) (fuel : Nat) : Prop :=
  ∀ stack st p,
    (∃ tl, (loadAux fs rootDir fuel stack st p).errs = st.errs ++ tl) ∧
    (∃ tl, (loadAux fs rootDir fuel stack st p).seen = st.seen ++ tl ∧
      ∀ q ∈ tl, q ∉ stack) ∧
    ((∀ e ∈ (loadAux fs rootDir fuel stack st p).errs, ¬ isCycleErr e) →
      (fsLookup fs p).isSome = true →
      fs.length + 1 ≤ fuel + stack.length →
      stack.Nodup →
      (∀ q ∈ stack, (fsLookup fs q).isSome = true) →
      FinClosed fs rootDir st.seen →
      st.seen.Nodup →
      FinClosed fs rootDir (loadAux fs rootDir fuel stack st p).seen ∧
      (loadAux fs rootDir fuel stack st p).seen.Nodup ∧
      p ∈ (loadAux fs rootDir fuel stack st p).seen)

/-- `MonA` for the import loop of one file. -/
def MonB (fs : FS) (rootDir : String) (fuel : Nat) : Prop :=
  ∀ stack fromPath imps st,
    (∃ tl, (loadImports fs rootDir fuel stack st imps fromPath).errs = st.errs ++ tl) ∧
    (∃ tl, (loadImports fs rootDir fuel stack st imps fromPath).seen = st.seen ++ tl ∧
      ∀ q ∈ tl, q ∉ stack) ∧
    ((∀ e ∈ (loadImports fs rootDir fuel stack st imps fromPath).errs, ¬ isCycleErr e) →
      fs.length + 1 ≤ fuel + stack.length →
      stack.Nodup →
      (∀ q ∈ stack, (fsLookup fs q).isSome = true) →
      FinClosed fs rootDir st.seen →
      st.seen.Nodup →
      FinClosed fs rootDir (loadImports fs rootDir fuel stack st imps fromPath).seen ∧
      (loadImports fs rootDir fuel stack st imps fromPath).seen.Nodup ∧
      (∀ imp ∈ imps, ¬ imp.startsWith "std." →
        (fsLookup fs (resolveImport rootDir imp)).isSome = true →
        resolveImport rootDir imp ∈
          (loadImports fs rootDir fuel stack st imps fromPath).seen))

theorem monB_of_monA (fs : FS) (rootDir : String) (fuel : Nat)
    (hA : MonA fs rootDir fuel) : MonB fs rootDir fuel := by
  intro stack fromPath imps
  induction imps with
  | nil =>
    intro st
    have hload : loadImports fs rootDir fuel stack st [] fromPath = st := by
      rw [loadImports]
    rw [hload]
    refine ⟨⟨[], by simp⟩, ⟨[], by simp⟩, ?_⟩
    intro hno hfuel hnd hsf hFC hnds
    exact ⟨hFC, hnds, fun i hi => absurd hi (List.not_mem_nil i)⟩
  | cons imp rest ihr =>
    intro st
    by_cases hs : imp.startsWith "std."
    · have hload : loadImports fs rootDir fuel stack st (imp :: rest) fromPath =
          loadImports fs rootDir fuel stack st rest fromPath := by
        rw [loadImports]
        simp [hs]
      rw [hload]
      obtain ⟨e1, s1, c1⟩ := ihr st
      refine ⟨e1, s1, ?_⟩
      intro hno hfuel hnd hsf hFC hnds
      obtain ⟨hFC2, hnds2, ht2⟩ := c1 hno hfuel hnd hsf hFC hnds
      refine ⟨hFC2, hnds2, ?_⟩
      intro i hi hins hisome
      rcases List.mem_cons.mp hi with rfl | hi
      · exact absurd hs hins
      · exact ht2 i hi hins hisome
    · by_cases ht : (fsLookup fs (resolveImport rootDir imp)).isSome = true
      · have hload : loadImports fs rootDir fuel stack st (imp :: rest) fromPath =
            loadImports fs rootDir fuel stack
              (loadAux fs rootDir fuel stack st (resolveImport rootDir imp)) rest fromPath := by
          rw [loadImports]
          simp [hs, ht]
        rw [hload]
        obtain ⟨⟨tl1, he1⟩, ⟨tl1s, hs1, hs1m⟩, c1⟩ :=
          hA stack st (resolveImport rootDir imp)
        obtain ⟨⟨tl2, he2⟩, ⟨tl2s, hs2, hs2m⟩, c2⟩ :=
          ihr (loadAux fs rootDir fuel stack st (resolveImport rootDir imp))
        refine ⟨⟨tl1 ++ tl2, ?_⟩, ⟨tl1s ++ tl2s, ?_, ?_⟩, ?_⟩
        · rw [he2, he1, List.append_assoc]
        · rw [hs2, hs1, List.append_assoc]
        · intro q hq
          rcases List.mem_append.mp hq with hq | hq
          · exact hs1m q hq
          · exact hs2m q hq
        · intro hno hfuel hnd hsf hFC hnds
          have hno1 : ∀ e ∈ (loadAux fs rootDir fuel stack st
              (resolveImport rootDir imp)).errs, ¬ isCycleErr e := by
            intro e he
            apply hno
            rw [he2]
            exact List.mem_append_left _ he
          obtain ⟨hFC1, hnds1, hpm1⟩ := c1 hno1 ht hfuel hnd hsf hFC hnds
          obtain ⟨hFC2, hnds2, ht2⟩ := c2 hno hfuel hnd hsf hFC1 hnds1
          refine ⟨hFC2, hnds2, ?_⟩
          intro i hi hins hisome
          rcases List.mem_cons.mp hi with rfl | hi
          · rw [hs2]
            exact List.mem_append_left _ hpm1
          · exact ht2 i hi hins hisome
      · have hload : loadImports fs rootDir fuel stack st (imp :: rest) fromPath =
            loadImports fs rootDir fuel stack
              { st with errs := st.errs ++ ["import \"" ++ imp ++ "\" → " ++
                resolveImport rootDir imp ++ " not found (from " ++ fromPath ++ ")"] }
              rest fromPath := by
          rw [loadImports]
          simp [hs, ht]
        rw [hload]
        obtain ⟨⟨tl2, he2⟩, ⟨tl2s, hs2, hs2m⟩, c2⟩ :=
          ihr { st with errs := st.errs ++ ["import \"" ++ imp ++ "\" → " ++
            resolveImport rootDir imp ++ " not found (from " ++ fromPath ++ ")"] }
        refine ⟨⟨["import \"" ++ imp ++ "\" → " ++
            resolveImport rootDir imp ++ " not found (from " ++ fromPath ++ ")"] ++ tl2, ?_⟩,
          ⟨tl2s, hs2, hs2m⟩, ?_⟩
        · rw [he2]
          simp
        · intro hno hfuel hnd hsf hFC hnds
          obtain ⟨hFC2, hnds2, ht2⟩ := c2 hno hfuel hnd hsf hFC hnds
          refine ⟨hFC2, hnds2, ?_⟩
          intro i hi hins hisome
          rcases List.mem_cons.mp hi with rfl | hi
          · exact absurd hisome ht
          · exact ht2 i hi hins hisome

theorem load_mono (fs : FS) (rootDir : String) : ∀ fuel, MonA fs rootDir fuel := by
  intro fuel
  induction fuel with
  | zero =>
    intro stack st p
    have hload : loadAux fs rootDir 0 stack st p =
        { st with errs := st.errs ++ ["resolver depth limit reached"] } := by
      rw [loadAux]
    rw [hload]
    refine ⟨⟨["resolver depth limit reached"], rfl⟩, ⟨[], by simp⟩, ?_⟩
    intro hno hex hfuel hnd hsf hFC hnds
    exfalso
    have hle := stack_pigeonhole hnd hsf
    omega
  | succ fuel ih =>
    have hB := monB_of_monA fs rootDir fuel ih
    intro stack st p
    by_cases hseen : p ∈ st.seen
    · have hload : loadAux fs rootDir (fuel + 1) stack st p = st := by
        rw [loadAux]
        simp [hseen]
      rw [hload]
      refine ⟨⟨[], by simp⟩, ⟨[], by simp⟩, ?_⟩
      intro hno hex hfuel hnd hsf hFC hnds
      exact ⟨hFC, hnds, hseen⟩
    · by_cases hstk : p ∈ stack
      · have hload : loadAux fs rootDir (fuel + 1) stack st p =
            { st with errs := st.errs ++ ["import cycle detected involving " ++ p] } := by
          rw [loadAux]
          simp [hseen, hstk]
        rw [hload]
        refine ⟨⟨["import cycle detected involving " ++ p], rfl⟩, ⟨[], by simp⟩, ?_⟩
        intro hno hex hfuel hnd hsf hFC hnds
        exfalso
        exact hno ("import cycle detected involving " ++ p)
          (by simp) ⟨p, rfl⟩
      · cases hf : fsLookup fs p with
        | none =>
          have hload : loadAux fs rootDir (fuel + 1) stack st p =
              { st with errs := st.errs ++ ["read " ++ p ++ ": no such file"] } := by
            rw [loadAux]
            simp [hseen, hstk, hf]
          rw [hload]
          refine ⟨⟨["read " ++ p ++ ": no such file"], rfl⟩, ⟨[], by simp⟩, ?_⟩
          intro hno hex hfuel hnd hsf hFC hnds
          exfalso
          simp at hex
        | some f =>
          have hload : loadAux fs rootDir (fuel + 1) stack st p =
              { loadImports fs rootDir fuel (stack ++ [p]) st f.imports p with
                result := (loadImports fs rootDir fuel (stack ++ [p]) st f.imports p).result
                  ++ [(p, f)],
                seen := (loadImports fs rootDir fuel (stack ++ [p]) st f.imports p).seen
                  ++ [p] } := by
            rw [loadAux]
            simp [hseen, hstk, hf]
          rw [hload]
          obtain ⟨⟨tl1, he1⟩, ⟨tl1s, hs1, hs1m⟩, c1⟩ := hB (stack ++ [p]) p f.imports st
          refine ⟨⟨tl1, he1⟩, ⟨tl1s ++ [p], ?_, ?_⟩, ?_⟩
          · rw [hs1, List.append_assoc]
          · intro q hq
            rcases List.mem_append.mp hq with hq | hq
            · exact fun hm => (hs1m q hq) (List.mem_append_left _ hm)
            · rcases List.mem_singleton.mp hq with rfl
              exact hstk
          · intro hno hex hfuel hnd hsf hFC hnds
            have hfuel2 : fs.length + 1 ≤ fuel + (stack ++ [p]).length := by
              simp [List.length_append]
              omega
            have hnd2 : (stack ++ [p]).Nodup := by
              simp [List.nodup_append, hnd, hstk]
            have hsf2 : ∀ q ∈ stack ++ [p], (fsLookup fs q).isSome = true := by
              intro q hq
              rcases List.mem_append.mp hq with hq | hq
              · exact hsf q hq
              · rcases List.mem_singleton.mp hq with rfl
                rw [hf]
                rfl
            obtain ⟨hFC1, hnds1, ht1⟩ := c1 hno hfuel2 hnd2 hsf2 hFC hnds
            have hpns : p ∉ (loadImports fs rootDir fuel (stack ++ [p]) st
                f.imports p).seen := by
              rw [hs1]
              intro hm
              rcases List.mem_append.mp hm with hm | hm
              · exact hseen hm
              · exact (hs1m p hm) (List.mem_append_right _ (by simp))
            refine ⟨?_, ?_, ?_⟩
            · intro q hq r hr
              rcases List.mem_append.mp hq with hq | hq
              · obtain ⟨hrm, hrlt⟩ := hFC1 q hq r hr
                refine ⟨List.mem_append_left _ hrm, ?_⟩
                rw [posIdx_append_left _ hrm, posIdx_append_left _ hq]
                exact hrlt
              · rcases List.mem_singleton.mp hq with rfl
                obtain ⟨f2, hf2, imp, him, hns, hres, hsome⟩ := hr
                rw [hf] at hf2
                have hff : f = f2 := Option.some.inj hf2
                have hrm := ht1 imp (hff ▸ him) hns (hres ▸ hsome)
                rw [hres] at hrm
                refine ⟨List.mem_append_left _ hrm, ?_⟩
                rw [posIdx_append_left _ hrm, posIdx_append_self hpns]
                exact posIdx_lt_length hrm
            · simp [List.nodup_append, hnds1, hpns]
            · exact List.mem_append_right _ (by simp)

/-- Along any reachability path inside a finish-order closed list,
positions never increase. -/
theorem finClosed_reach {fs : FS} {rootDir : String} {l : List String}
    (hc : FinClosed fs rootDir l) {a b : String}
    (h : Reach fs rootDir a b) (ha : a ∈ l) : b ∈ l ∧ posIdx l b ≤ posIdx l a := by
  induction h with
  | refl => exact ⟨ha, Nat.le_refl _⟩
  | step h1 e ih =>
    obtain ⟨hq, hle⟩ := ih
    obtain ⟨hr, hlt⟩ := hc _ hq _ e
    exact ⟨hr, by omega⟩

/-- C5: for every import graph whose entry file exists and whose
reachable part contains a cycle, `ResolveAndParse` produces at least one
"import cycle detected" diagnostic and returns a `none` merged file (a
non-empty error list suppresses merging, so zero declarations are
merged). -/
theorem ResolveAndParse_cycle_detected (fs : FS) (rootDir entryAbs : String)
    (hentry : (fsLookup fs entryAbs).isSome = true)
    (hcyc : ∃ p q, Reach fs rootDir entryAbs p ∧ Edge fs rootDir p q ∧
      Reach fs rootDir q p) :
    (∃ e ∈ (ResolveAndParse fs rootDir entryAbs).2, isCycleErr e) ∧
    (ResolveAndParse fs rootDir entryAbs).1 = none := by
  obtain ⟨cp, cq, hrp, hce, hqp⟩ := hcyc
  obtain ⟨hErr, hSeen, hCond⟩ := load_mono fs rootDir (fs.length + 1) [] ⟨[], [], []⟩ entryAbs
  have hex : ∃ e ∈ (loadAux fs rootDir (fs.length + 1) [] ⟨[], [], []⟩ entryAbs).errs,
      isCycleErr e := by
    by_contra hno
    push_neg at hno
    obtain ⟨hFC, hnds, hpmem⟩ := hCond hno hentry (by simp) List.nodup_nil
      (by intro q h; cases h) (by intro q h; cases h) List.nodup_nil
    obtain ⟨hcpm, hcple⟩ := finClosed_reach hFC hrp hpmem
    obtain ⟨hcqm, hcqlt⟩ := hFC _ hcpm _ hce
    obtain ⟨hcpm2, hcple2⟩ := finClosed_reach hFC hqp hcqm
    omega
  obtain ⟨e0, he0, hcyc0⟩ := hex
  have hne : (loadAux fs rootDir (fs.length + 1) [] ⟨[], [], []⟩ entryAbs).errs ≠ [] := by
    intro hnil
    rw [hnil] at he0
    cases he0
  have hrap : ResolveAndParse fs rootDir entryAbs =
      (none, (loadAux fs rootDir (fs.length + 1) [] ⟨[], [], []⟩ entryAbs).errs) := by
    cases hl : (loadAux fs rootDir (fs.length + 1) [] ⟨[], [], []⟩ entryAbs).errs with
    | nil => exact absurd hl hne
    | cons a t => simp [ResolveAndParse, hl]
  rw [hrap]
  exact ⟨⟨e0, he0, hcyc0⟩, rfl⟩


/-- Two-file acyclic project for the C4 witness: `a.desi` imports `b`. -/
def fsDag : FS :=
  [("r/a.desi", ⟨["b"], [10]⟩), ("r/b.desi", ⟨[], [20]⟩)]

theorem fsDag_lookup (p : String) (f : DFile) (hf : fsLookup fsDag p = some f) :
    (p = "r/a.desi" ∧ f = ⟨["b"], [10]⟩) ∨ (p = "r/b.desi" ∧ f = ⟨[], [20]⟩) := by
  unfold fsLookup at hf
  cases hfind : List.find? (fun u => u.1 = p) fsDag with
  | none =>
    rw [hfind] at hf
    cases hf
  | some u =>
    rw [hfind] at hf
    have hu : u.2 = f := Option.some.inj hf
    have hm : u ∈ [(("r/a.desi" : String), (⟨["b"], [10]⟩ : DFile)),
        ("r/b.desi", ⟨[], [20]⟩)] := List.mem_of_find?_eq_some hfind
    have hp : u.1 = p := by simpa using List.find?_some hfind
    simp only [List.mem_cons, List.mem_singleton, List.not_mem_nil, or_false] at hm
    rcases hm with hm | hm
    · left
      rw [hm] at hp hu
      exact ⟨hp.symm, hu.symm⟩
    · right
      rw [hm] at hp hu
      exact ⟨hp.symm, hu.symm⟩

unseal String.replace.loop String.substrEq.loop in
theorem fsDag_closed : ∀ p, Reach fsDag "r" "r/a.desi" p →
    ∀ f, fsLookup fsDag p = some f →
    ∀ imp ∈ f.imports, ¬ imp.startsWith "std." →
      (fsLookup fsDag (resolveImport "r" imp)).isSome = true := by
  intro p hr f hf imp him hns
  rcases fsDag_lookup p f hf with ⟨hp, hfa⟩ | ⟨hp, hfb⟩
  · rw [hfa] at him
    have him2 : imp ∈ ["b"] := him
    obtain rfl := List.mem_singleton.mp him2
    decide
  · rw [hfb] at him
    have him2 : imp ∈ ([] : List String) := him
    exact absurd him2 (List.not_mem_nil _)

unseal String.replace.loop String.substrEq.loop in
theorem fsDag_acyc : ∀ p q, Reach fsDag "r" "r/a.desi" p → Edge fsDag "r" p q →
    Reach fsDag "r" q p → False := by
  intro p q hr he hqp
  obtain ⟨f, hf, imp, him, hns, hres, hsome⟩ := he
  rcases fsDag_lookup p f hf with ⟨hp, hfa⟩ | ⟨hp, hfb⟩
  · subst hp
    rw [hfa] at him
    have him2 : imp ∈ ["b"] := him
    obtain rfl := List.mem_singleton.mp him2
    have hq : q = "r/b.desi" := by
      rw [← hres]
      decide
    subst hq
    rcases reach_headStep hqp with heq2 | ⟨c, ec, hc⟩
    · exact absurd heq2 (by decide)
    · obtain ⟨f2, hf2, imp2, him2x, h3x, h4x, h5x⟩ := ec
      rcases fsDag_lookup _ _ hf2 with ⟨hp2, hfa2⟩ | ⟨hp2, hfb2⟩
      · exact absurd hp2 (by decide)
      · rw [hfb2] at him2x
        have him3 : imp2 ∈ ([] : List String) := him2x
        exact absurd him3 (List.not_mem_nil _)
  · rw [hfb] at him
    have him2 : imp ∈ ([] : List String) := him
    exact absurd him2 (List.not_mem_nil _)

unseal loadAux loadImports dfsPost dfsPostChildren String.replace.loop String.substrEq.loop in
/-- Witness for C4 on the two-file project `fsDag`: the run is error
free, the dependency `r/b.desi` is reachable and listed in the DFS
post-order, and the merged declarations are entry first, dependency
second. -/
theorem ResolveAndParse_dag_post_order_witness :
    (ResolveAndParse fsDag "r" "r/a.desi").2 = [] ∧
    Reach fsDag "r" "r/a.desi" "r/b.desi" ∧
    (ResolveAndParse fsDag "r" "r/a.desi").1 = some [10, 20] := by
  obtain ⟨h1, h2, h3, h4, pre, hpre, hne, hmerge⟩ :=
    ResolveAndParse_dag_post_order fsDag "r" "r/a.desi" (by decide) fsDag_closed fsDag_acyc
  have horder : (dfsPost fsDag "r" (fsDag.length + 1) [] "r/a.desi").2 =
      ["r/b.desi", "r/a.desi"] := by decide
  have hlit : ["r/b.desi"] ++ ["r/a.desi"] = pre ++ ["r/a.desi"] := by
    rw [← hpre, horder]
    rfl
  have hpre2 : pre = ["r/b.desi"] := ((List.append_inj' hlit rfl).1).symm
  subst hpre2
  refine ⟨h1, (h4 "r/b.desi").mp (by rw [horder]; simp), ?_⟩
  rw [hmerge]
  decide

/-- Two-file cyclic project for the C5 witness: `a` imports `b` while
`b` imports `a`. -/
def fsCyc : FS :=
  [("r/a.desi", ⟨["b"], [1]⟩), ("r/b.desi", ⟨["a"], [2]⟩)]

unseal String.replace.loop String.substrEq.loop in
/-- Witness for C5 on the two-file cycle `fsCyc`: the merged file is
`none` and some emitted diagnostic has the cycle shape. -/
theorem ResolveAndParse_cycle_detected_witness :
    (ResolveAndParse fsCyc "r" "r/a.desi").1 = none ∧
    ∃ e ∈ (ResolveAndParse fsCyc "r" "r/a.desi").2, isCycleErr e := by
  have hedgeab : Edge fsCyc "r" "r/a.desi" "r/b.desi" :=
    ⟨⟨["b"], [1]⟩, rfl, "b", List.mem_singleton.mpr rfl, by decide, by decide, by decide⟩
  have hedgeba : Edge fsCyc "r" "r/b.desi" "r/a.desi" :=
    ⟨⟨["a"], [2]⟩, rfl, "a", List.mem_singleton.mpr rfl, by decide, by decide, by decide⟩
  obtain ⟨hx, hnone⟩ := ResolveAndParse_cycle_detected fsCyc "r" "r/a.desi" (by decide)
    ⟨"r/a.desi", "r/b.desi", Reach.refl _, hedgeab, Reach.step (Reach.refl _) hedgeba⟩
  exact ⟨hnone, hx⟩

end Build

end Desi
